import Mathlib

/-!
Verification of the ChonkerInt arbitrary-precision integer library and the
RSA layer built on it (repository crypto_bigint_rust, crates homework2 and
homework3, which share one bigint implementation split across the two crates).

The embedding mirrors the Rust sources:
  - src/homework3/logic/src/logic/bigint.rs            (struct, normalize, push, push_vec)
  - src/homework2/src/logic/bigint/comparison.rs       (Ord::cmp)
  - src/homework3/logic/src/logic/bigint/addition.rs   (Add)
  - src/homework3/logic/src/logic/bigint/subtraction.rs (Sub)
  - src/homework2/src/logic/bigint/negation.rs         (Neg)
  - src/homework2/src/logic/bigint/multiplication.rs   (Mul)
  - src/homework2/src/logic/bigint/conversion.rs       (From integer/string/slice, to_digit)
  - src/homework2/src/logic/bigint/division.rs         (Div, quotient_estimation_algorithm)
  - src/homework3/logic/src/logic/bigint/modulus.rs    (Rem)
  - src/homework2/src/logic/bigint/exponentiation.rs   (pow, modpow)
  - src/homework3/logic/src/logic/bigint/gcd.rs        (gcd)
  - src/homework2/src/logic/bigint/prime.rs            (is_prime_probabilistic, new_prime)
  - src/homework3/logic/src/logic/bigint/randomisation.rs (new_rand and friends)
  - src/homework3/logic/src/logic/bigint/factor.rs     (factor, prime_factor, factor_rsa_modulus)
  - src/homework2/src/encoding/mod.rs                  (hex encode/decode)
  - src/homework2/src/crypto/rsa.rs                    (rsa_encrypt, rsa_decrypt, rsa_bruteforce dispatch)

Rust panics are modelled as Option/Except failure values.  The rand crate is
external to the repository; its draws are modelled by an arbitrary stream of
naturals clipped into the requested range, one stream position per draw.
Digits are one-byte machine integers in Rust; every value that ever reaches a
digit vector in the modelled flows fits easily in i8, so digits are modelled
as unbounded Int with the 0..9 well-formedness tracked separately, exactly as
the source tracks it through its push guard.
-/

/-- Sign tag of a ChonkerInt, mirroring enum BigIntSign. -/
inductive BigIntSign : Type
  | Positive : BigIntSign
  | Zero : BigIntSign
  | Negative : BigIntSign
deriving DecidableEq, Repr

/-- The BigInt: little-endian decimal digit vector plus a sign, mirroring
struct ChonkerInt.  Equality is structural, as derived PartialEq in Rust. -/
structure ChonkerInt : Type where
  digits : List Int
  sign : BigIntSign
deriving DecidableEq, Repr

/-- ChonkerInt::new, the canonical zero. -/
def newC : ChonkerInt := { digits := [], sign := BigIntSign.Zero }

/-- Retrieve remainder of the digit after adjusting it to radix, mirroring
fn clip (rem_euclid against RADIX = 10). -/
def clipD (d : Int) : Int := d.emod 10

/-- Retrieve overflow of the digit, mirroring fn overflow. -/
def overflowD (d : Int) : Int := (d - clipD d) / 10

/-- Value of a little-endian digit list. -/
def digitsVal : List Int → Int
  | [] => 0
  | d :: rest => d + 10 * digitsVal rest

/-- Mathematical value of a ChonkerInt.  A Zero sign means value zero no
matter what the digit vector holds, which is how every operation of the
source treats such a value (the sign is always consulted first). -/
def valC (x : ChonkerInt) : Int :=
  match x.sign with
  | BigIntSign.Positive => digitsVal x.digits
  | BigIntSign.Zero => 0
  | BigIntSign.Negative => - digitsVal x.digits

/-- All digits lie in the range 0..=9. -/
def digOk (l : List Int) : Bool := l.all (fun d => 0 ≤ d && d ≤ 9)

/-- Canonical form exactly as the specification states it: a Zero sign has an
empty digit vector, any other sign a non-empty vector whose last
(most-significant) element is non-zero. -/
def canonC (x : ChonkerInt) : Bool :=
  match x.sign with
  | BigIntSign.Zero => x.digits.isEmpty
  | _ => !x.digits.isEmpty && !(x.digits.getLast? == some 0)

/-- Full representation invariant: digits in range and canonical form. -/
def repOk (x : ChonkerInt) : Bool := digOk x.digits && canonC x

/-- Digit vectors reachable mid-operation on the positive path: digits in
range, no most-significant zero, but emptiness allowed with any non-negative
sign (set_positive_sign is applied to zero values in a few internal spots). -/
def posNorm (x : ChonkerInt) : Bool :=
  (x.sign == BigIntSign.Positive) && digOk x.digits && !(x.digits.getLast? == some 0)

/-- Normalization of a digit vector: remove most-significant zeros, mirroring
the loop of ChonkerInt::normalize, which pops trailing list elements while
they are zero. -/
def normalizeDigits (l : List Int) : List Int :=
  ((l.reverse.dropWhile (fun d => d == 0))).reverse

/-- ChonkerInt::normalize.  The sign is left untouched, as in the source. -/
def normalizeC (x : ChonkerInt) : ChonkerInt :=
  { x with digits := normalizeDigits x.digits }

/-- ChonkerInt::set_positive_sign. -/
def setPos (x : ChonkerInt) : ChonkerInt := { x with sign := BigIntSign.Positive }

/-- ChonkerInt::set_negative_sign. -/
def setNeg (x : ChonkerInt) : ChonkerInt := { x with sign := BigIntSign.Negative }

/-- ChonkerInt::push.  The Rust guard rejects digits outside 0..=9 with an
error that every caller discards, leaving the vector unchanged. -/
def pushD (x : ChonkerInt) (d : Int) : ChonkerInt :=
  if 0 ≤ d ∧ d ≤ 9 then { x with digits := x.digits ++ [d] } else x

/-- ChonkerInt::push_vec: appends digits without normalizing; when the target
equals ChonkerInt::new() its sign is first made positive. -/
def pushVec (x : ChonkerInt) (ds : List Int) : ChonkerInt :=
  let x1 := if x = newC then setPos x else x
  { x1 with digits := x1.digits ++ ds }

/-- Equal-length digit comparison, most significant digit first: the operand
lists are passed already reversed (big-endian), mirroring the index walk from
the top of the vectors in Ord::cmp. -/
def cmpBE : List Int → List Int → Ordering
  | [], [] => Ordering.eq
  | [], _ :: _ => Ordering.eq
  | _ :: _, [] => Ordering.eq
  | a :: as1, b :: bs1 =>
    match compare a b with
    | Ordering.lt => Ordering.lt
    | Ordering.gt => Ordering.gt
    | Ordering.eq => cmpBE as1 bs1

/-- Flip an ordering for the negative-sign case of Ord::cmp. -/
def ordFlip : Ordering → Ordering
  | Ordering.lt => Ordering.gt
  | Ordering.eq => Ordering.eq
  | Ordering.gt => Ordering.lt

/-- Ordering of two same-signed values as a function of the shared sign,
mirroring the ordering_determination closure of Ord::cmp. -/
def ordDet (sign : BigIntSign) (xd yd : List Int) : Ordering :=
  match compare xd.length yd.length with
  | Ordering.lt => if sign = BigIntSign.Positive then Ordering.lt else Ordering.gt
  | Ordering.gt => if sign = BigIntSign.Positive then Ordering.gt else Ordering.lt
  | Ordering.eq =>
    if sign = BigIntSign.Positive then cmpBE xd.reverse yd.reverse
    else ordFlip (cmpBE xd.reverse yd.reverse)

/-- Ord::cmp for ChonkerInt (comparison.rs). -/
def cmpC (x y : ChonkerInt) : Ordering :=
  if (x.digits.isEmpty && y.digits.isEmpty)
      || (x.sign == BigIntSign.Zero && y.sign == BigIntSign.Zero) then Ordering.eq
  else if x.sign = y.sign then
    match x.sign with
    | BigIntSign.Positive => ordDet x.sign x.digits y.digits
    | BigIntSign.Zero => Ordering.eq
    | BigIntSign.Negative => ordDet x.sign x.digits y.digits
  else if x.sign = BigIntSign.Negative then Ordering.lt
  else if x.sign = BigIntSign.Positive then Ordering.gt
  else if x.sign = BigIntSign.Zero && y.sign = BigIntSign.Positive then Ordering.lt
  else if x.sign = BigIntSign.Zero && y.sign = BigIntSign.Negative then Ordering.gt
  else Ordering.eq

/-- Strict less-than derived from cmp, as PartialOrd does. -/
def ltC (x y : ChonkerInt) : Bool := cmpC x y == Ordering.lt

/-- Less-or-equal derived from cmp. -/
def leC (x y : ChonkerInt) : Bool := cmpC x y != Ordering.gt

/-- Neg for &ChonkerInt (negation.rs). -/
def negC (x : ChonkerInt) : ChonkerInt :=
  match x.sign with
  | BigIntSign.Negative => { digits := x.digits, sign := BigIntSign.Positive }
  | BigIntSign.Positive => { digits := x.digits, sign := BigIntSign.Negative }
  | BigIntSign.Zero => newC

/-- Digit-by-digit addition with carry, mirroring the first while loop of Add
(repeated add_digits calls) followed by the second loop (add_digit_and_overflow)
and the final overflow push.  The first list is the one chosen to drive the
second loop, so it must be at least as long as the second; Add picks it with a
comparison.  The empty-versus-nonempty fallthrough corresponds to the index
panic Rust would raise if the driver were shorter and is unreachable from Add. -/
def addTail : List Int → Int → List Int
  | [], c => if 0 < c then [c] else []
  | a :: as1, c => clipD (a + c) :: addTail as1 (overflowD (a + c))

/-- Pairwise phase of the addition loops; see addTail. -/
def addPair : List Int → List Int → Int → List Int
  | as1, [], c => addTail as1 c
  | a :: as1, b :: bs1, c => clipD (a + b + c) :: addPair as1 bs1 (overflowD (a + b + c))
  | [], _ :: _, _ => []

/-- Digit-by-digit subtraction tail with borrow, mirroring
subtract_digit_and_underflow; a final borrow is discarded, as in the source. -/
def subTail : List Int → Int → List Int
  | [], _ => []
  | a :: as1, brw =>
    let d := a - brw
    if d < 0 then (d + 10) :: subTail as1 1 else d :: subTail as1 0

/-- Pairwise phase of the subtraction loops (subtract_digits); the first list
is the minuend and drives the tail loop. -/
def subPair : List Int → List Int → Int → List Int
  | as1, [], brw => subTail as1 brw
  | a :: as1, b :: bs1, brw =>
    let d := a - b - brw
    if d < 0 then (d + 10) :: subPair as1 bs1 1 else d :: subPair as1 bs1 0
  | [], _ :: _, _ => []

/- The cross-sign dispatch of Add and Sub bounces between the two operators
at most twice before reaching the positive-positive digit loops, so a small
fuel bounds the mutual recursion; addC and subC pass fuel three. -/
mutual

/-- Add for &ChonkerInt (addition.rs): zero shortcuts, cross-sign dispatch to
subtraction, negative pair handled through negation, and schoolbook addition
of two positives with the longer/greater operand driving the loops. -/
def addFuel : Nat → ChonkerInt → ChonkerInt → ChonkerInt
  | 0, _, _ => newC
  | f + 1, x, y =>
    if x.sign = BigIntSign.Zero then y
    else if y.sign = BigIntSign.Zero then x
    else if x.sign ≠ y.sign then
      if x.sign = BigIntSign.Positive then subFuel f x (negC y) else subFuel f y (negC x)
    else if x.sign = BigIntSign.Negative then negC (addFuel f (negC x) (negC y))
    else
      { digits :=
          if cmpC x y != Ordering.lt then addPair x.digits y.digits 0
          else addPair y.digits x.digits 0,
        sign := BigIntSign.Positive }

/-- Sub for &ChonkerInt (subtraction.rs): zero shortcuts, cross-sign dispatch
to addition, negative pair through negation, and schoolbook subtraction of two
positives ordered by cmp, with the result sign chosen by the comparison and a
final normalize. -/
def subFuel : Nat → ChonkerInt → ChonkerInt → ChonkerInt
  | 0, _, _ => newC
  | f + 1, x, y =>
    if x.sign = BigIntSign.Zero ∧
        (y.sign = BigIntSign.Negative ∨ y.sign = BigIntSign.Positive) then negC y
    else if y.sign = BigIntSign.Zero then x
    else if x.sign ≠ y.sign then
      if x.sign = BigIntSign.Positive then addFuel f x (negC y)
      else negC (addFuel f (negC x) y)
    else if x.sign = BigIntSign.Negative then negC (subFuel f (negC x) (negC y))
    else
      match cmpC x y with
      | Ordering.lt =>
        normalizeC { digits := subPair y.digits x.digits 0, sign := BigIntSign.Negative }
      | Ordering.eq => newC
      | Ordering.gt =>
        normalizeC { digits := subPair x.digits y.digits 0, sign := BigIntSign.Positive }

end

/-- Add for &ChonkerInt with enough fuel for the full dispatch. -/
def addC (x y : ChonkerInt) : ChonkerInt := addFuel 3 x y

/-- Sub for &ChonkerInt with enough fuel for the full dispatch. -/
def subC (x y : ChonkerInt) : ChonkerInt := subFuel 3 x y

/-- Greater-than derived from cmp. -/
def gtC (x y : ChonkerInt) : Bool := cmpC x y == Ordering.gt

/-- Greater-or-equal derived from cmp. -/
def geC (x y : ChonkerInt) : Bool := cmpC x y != Ordering.lt

/-- Loop of fn digit_convert (conversion.rs): repeated remainders against a
growing base extract the decimal digits, with a capped final step at base
10 to the 38 so that every u128 converts exactly.  The fuel bounds the loop,
which runs at most 38 times; digit_convert passes 40. -/
def digitConvertLoop (n : Nat) : Nat → Nat → Nat → Nat → List Int → List Int
  | 0, _, _, _, acc => acc
  | fuel + 1, base, prevBase, rem, acc =>
    if rem = n then acc
    else
      let rem2 := n % base
      let digit : Int := ((rem2 : Int) - (rem : Int)) / (prevBase : Int)
      let acc2 := acc ++ [digit]
      if base = 10 ^ 38 then acc2 ++ [((n : Int) - (rem2 : Int)) / ((base : Int))]
      else digitConvertLoop n fuel (base * 10) base rem2 acc2

/-- fn digit_convert: digits of a u128, little-endian.  The loop state keeps
remainder and previous remainder equal at each loop head, so one parameter
carries both. -/
def digitConvert (n : Nat) : List Int :=
  let rem := n % 10
  digitConvertLoop n 40 100 10 rem [(rem : Int)]

/-- fn digit_vector_produce plus the sign dispatch of the generic
From implementations for signed and unsigned integers (conversion.rs).  All
the integer From impls funnel into the same digits-of-the-absolute-value
construction, so one Int-valued embedding covers them. -/
def fromIntC (z : Int) : ChonkerInt :=
  if z = 0 then newC
  else { digits := digitConvert z.natAbs,
         sign := if z < 0 then BigIntSign.Negative else BigIntSign.Positive }

/-- The negated-clone constructions inside Mul for the ±1 shortcut branches:
flip Positive and Negative; the Zero arm panics in the source and is
unreachable behind the zero shortcut, modelled by the canonical zero. -/
def mulNegate (x : ChonkerInt) : ChonkerInt :=
  match x.sign with
  | BigIntSign.Positive => setNeg x
  | BigIntSign.Negative => setPos x
  | BigIntSign.Zero => newC

/-- Partial product of the digit vector by one digit with carry, mirroring
the inner while of Mul plus its final overflow push. -/
def mulPartDigits : List Int → Int → Int → List Int
  | [], _, carry => if 0 < carry then [carry] else []
  | a :: as1, d, carry =>
    clipD (a * d + carry) :: mulPartDigits as1 d (overflowD (a * d + carry))

/-- Outer loop of Mul: one partial product per digit of the right operand,
shifted by the digit position and accumulated through Add. -/
def mulLoop (selfD : List Int) : List Int → Nat → ChonkerInt → ChonkerInt
  | [], _, acc => acc
  | d :: ds, shift, acc =>
    let partProd : ChonkerInt :=
      { digits := List.replicate shift 0 ++ mulPartDigits selfD d 0,
        sign := BigIntSign.Positive }
    mulLoop selfD ds (shift + 1) (addC acc partProd)

/-- Mul for &ChonkerInt (multiplication.rs): zero and ±1 shortcuts, schoolbook
long multiplication, sign by agreement of operand signs. -/
def mulC (x y : ChonkerInt) : ChonkerInt :=
  if x.sign = BigIntSign.Zero ∨ y.sign = BigIntSign.Zero then newC
  else if x = fromIntC 1 then y
  else if x = fromIntC (-1) then mulNegate y
  else if y = fromIntC 1 then x
  else if y = fromIntC (-1) then mulNegate x
  else
    let r := mulLoop x.digits y.digits 0 newC
    if x.sign ≠ y.sign then setNeg r else r

/-- Model of character numericity used by From from String.  Rust uses
char::is_numeric; for the ASCII alphabet the repository feeds this
constructor the two coincide, and the byte arithmetic of the constructor is
exact only for ASCII, so the embedding works at character level. -/
def isNumericC (c : Char) : Bool := c.isDigit

/-- From String for ChonkerInt (conversion.rs): optional leading minus, all
further characters numeric or the result is the canonical zero, leading
zeros stripped, empty body yields canonical zero. -/
def fromStringC (s : List Char) : ChonkerInt :=
  match s.head? with
  | none => newC
  | some c0 =>
    if ¬(c0 = '-' ∨ isNumericC c0) then newC
    else
      let sign := if c0 = '-' then BigIntSign.Negative else BigIntSign.Positive
      let body := if c0 = '-' then s.drop 1 else s
      if ¬((s.drop 1).all isNumericC) then newC
      else
        let body2 := body.dropWhile (fun c => c == '0')
        if body2.isEmpty then newC
        else
          { digits := (body2.map (fun c => ((c.toNat : Int) - 48))).reverse,
            sign := sign }

/-- From a little-endian byte slice of digits (conversion.rs): out-of-range
bytes panic, most-significant zeros are trimmed, the all-zero slice is the
canonical zero, and the sign is always positive otherwise. -/
def fromSliceC (l : List Nat) : Option ChonkerInt :=
  if l.all (fun d => d ≤ 9) then
    let digits2 := normalizeDigits (List.map (fun d : Nat => (d : Int)) l)
    if digits2.isEmpty then some newC
    else some { digits := digits2, sign := BigIntSign.Positive }
  else none

/-- Accumulation loop of ChonkerInt::to_digit with its base cap. -/
def toDigitLoop : List Int → Nat → Nat → Nat
  | [], _, acc => acc
  | dg :: rest, base, acc =>
    let acc2 := acc + dg.toNat * base
    if base = 10 ^ 38 then acc2 else toDigitLoop rest (base * 10) acc2

/-- ChonkerInt::to_digit: conversion to u128, with the too-big panic. -/
def toDigitC (x : ChonkerInt) : Option Nat :=
  if x = newC then some 0
  else if gtC x (fromIntC (2 ^ 128 - 1)) then none
  else some (toDigitLoop x.digits 1 0)

/-- Errors of quotient_estimation_algorithm (division.rs): the length-check
panic and the fatal panic after a fourth failed estimate reduction. -/
inductive QErr : Type
  | lenBad : QErr
  | fatalBad : QErr
deriving DecidableEq, Repr

/-- Decidable equality for estimation results, so that concrete runs of the
estimation subroutine can be checked by evaluation. -/
instance decEqExceptQErr {α : Type} [DecidableEq α] : DecidableEq (Except QErr α) :=
  fun a b =>
  match a, b with
  | Except.ok x, Except.ok y =>
    if h : x = y then Decidable.isTrue (by rw [h])
    else Decidable.isFalse (by intro hc; cases hc; exact h rfl)
  | Except.error e, Except.error f =>
    if h : e = f then Decidable.isTrue (by rw [h])
    else Decidable.isFalse (by intro hc; cases hc; exact h rfl)
  | Except.ok x, Except.error f => Decidable.isFalse (by intro hc; cases hc)
  | Except.error e, Except.ok y => Decidable.isFalse (by intro hc; cases hc)

/-- Scaling step of quotient_estimation_algorithm: the fractional-equivalency
coefficient 10 divided by one more than the divisor top digit, applied to
both operands when above one.  Returns the scaled pair. -/
def qeaScaled (dividend divisor : ChonkerInt) : ChonkerInt × ChonkerInt :=
  let coefficient : Int := 10 / (divisor.digits.getLastD 0 + 1)
  if coefficient > 1 then
    (mulC dividend (fromIntC coefficient), mulC divisor (fromIntC coefficient))
  else (dividend, divisor)

/-- Initial quotient estimate of quotient_estimation_algorithm from the top
digits of the scaled operands, or the length panic when the scaled dividend
is neither equal in length to the scaled divisor nor longer by one. -/
def qeaEstimate (dividend2 divisor2 : ChonkerInt) : Except QErr Int :=
  if dividend2.digits.length = divisor2.digits.length + 1 then
    Except.ok ((dividend2.digits.getLastD 0 * 10
        + dividend2.digits.getD (dividend2.digits.length - 2) 0)
      / divisor2.digits.getLastD 0)
  else if dividend2.digits.length = divisor2.digits.length then
    Except.ok (dividend2.digits.getLastD 0 / divisor2.digits.getLastD 0)
  else Except.error QErr.lenBad

/-- Estimate-reduction loop of quotient_estimation_algorithm: up to four
passes (delta 0 to 3); each pass makes the running product positive, breaks
on a zero quotient or a product no larger than the unscaled dividend, else
decrements the quotient, subtracts one divisor from the product, and after
the fourth failure raises the fatal error.  The argument counts passes left. -/
def qeaAdjust : Nat → ChonkerInt → ChonkerInt → ChonkerInt → ChonkerInt → Except QErr ChonkerInt
  | 0, quotient, _, _, _ => Except.ok quotient
  | dl + 1, quotient, product, dividendOrig, divisorOrig =>
    let product1 := setPos product
    if quotient = newC then Except.ok quotient
    else if leC product1 dividendOrig then Except.ok quotient
    else
      let quotient2 := subC quotient (fromIntC 1)
      let product2 := subC product1 divisorOrig
      if dl = 0 then Except.error QErr.fatalBad
      else qeaAdjust dl quotient2 product2 dividendOrig divisorOrig

/-- fn quotient_estimation_algorithm (division.rs): returns quotient digits
and remainder for a window of the dividend against the divisor, both taken
as absolute values. -/
def qeaC (dividend divisor : ChonkerInt) : Except QErr (ChonkerInt × ChonkerInt) :=
  let dividendOrig := setPos dividend
  let divisorOrig := setPos divisor
  let scaled := qeaScaled (setPos dividend) (setPos divisor)
  match qeaEstimate scaled.1 scaled.2 with
  | Except.error e => Except.error e
  | Except.ok est =>
    let quotient0 := fromIntC est
    let product0 := mulC quotient0 divisorOrig
    match qeaAdjust 4 quotient0 product0 dividendOrig divisorOrig with
    | Except.error e => Except.error e
    | Except.ok q =>
      let remainder := subC dividendOrig (mulC q divisorOrig)
      let q2 := if q = newC then { q with digits := q.digits ++ [0] } else q
      Except.ok (q2, remainder)

/-- Shared window loop of Div (division.rs) and Rem (modulus.rs); the
modulus implementation is a copy of the division loop that merely drops the
quotient digits, so one loop serves both, Rem ignoring the collected digits.
The index walks the dividend digits from position idx down to zero, one digit
per iteration: the next lower dividend digit is prepended to the running
remainder, the window is made positive and normalized, windows smaller than
the divisor emit quotient digit zero, larger ones go through the estimation
subroutine.  Quotient digits accumulate most-significant-first. -/
def divLoop (aDigits : List Int) (rhs absDivisor : ChonkerInt) :
    Nat → ChonkerInt → List Int → Except QErr (List Int × ChonkerInt)
  | 0, cut, qacc => Except.ok (qacc, cut)
  | idx + 1, cut, qacc =>
    let cut1 := normalizeC (setPos { cut with digits := aDigits.getD idx 0 :: cut.digits })
    if ltC cut1 absDivisor then divLoop aDigits rhs absDivisor idx cut1 (qacc ++ [0])
    else
      match qeaC cut1 rhs with
      | Except.error e => Except.error e
      | Except.ok (qd, rem1) =>
        let qds := if qd.digits.length > 1 then qd.digits.reverse else qd.digits
        divLoop aDigits rhs absDivisor idx rem1 (qacc ++ qds)

/-- First window of the long division: the leading difference digits of the
dividend, with the difference chosen by the normalization comparison of the
top digits (division.rs lines 93 to 127; identical code in modulus.rs). -/
def firstWindow (x y absX absY : ChonkerInt) : Nat :=
  if (x.digits.getLastD 0 > y.digits.getLastD 0) ∨ gtC absX absY then
    y.digits.length
  else y.digits.length + 1

/-- Main branch of Div and Rem for a dividend strictly longer than the
divisor: first window through the estimation subroutine, then the shared
digit-by-digit loop.  Returns collected quotient digits (big-endian) and the
final remainder. -/
def divMain (x y absX absY : ChonkerInt) : Except QErr (List Int × ChonkerInt) :=
  let diff := firstWindow x y absX absY
  let idx0 := x.digits.length - diff
  let chunk := x.digits.drop idx0
  let cut0 : ChonkerInt := { digits := chunk, sign := BigIntSign.Positive }
  match qeaC cut0 y with
  | Except.error e => Except.error e
  | Except.ok (qd0, rem0) =>
    let qds0 := if qd0.digits.length > 1 then qd0.digits.reverse else qd0.digits
    divLoop x.digits y absY idx0 rem0 qds0

/-- Div for &ChonkerInt (division.rs): zero checks, quick cases on compared
absolute values, the long-division main branch or the single estimation call
for equal lengths, then sign selection and normalization.  The divide-by-zero
panic and the estimation panics are the failure value. -/
def divC (x y : ChonkerInt) : Option ChonkerInt :=
  if y = newC ∨ y.digits.isEmpty then none
  else if x = newC ∨ x.digits.isEmpty then some newC
  else
    let absX := setPos x
    let absY := setPos y
    if ltC absX absY then some newC
    else if x = y ∧ x = absY then some (fromIntC 1)
    else if x ≠ y ∧ x = absY then some (fromIntC (-1))
    else if x = y ∧ x ≠ absY then some (fromIntC 1)
    else if x ≠ y ∧ absX = y then some (fromIntC (-1))
    else
      let collected :=
        if x.digits.length > y.digits.length then
          match divMain x y absX absY with
          | Except.error _ => none
          | Except.ok (qacc, _) => some (pushVec newC qacc.reverse)
        else
          match qeaC x y with
          | Except.error _ => none
          | Except.ok (qd, _) => some (pushVec newC qd.digits)
      match collected with
      | none => none
      | some quotient =>
        let q2 :=
          if ¬quotient.digits.isEmpty then
            if x.sign ≠ y.sign then setNeg quotient else setPos quotient
          else quotient
        some (normalizeC q2)

/-- Rem for &ChonkerInt (modulus.rs): zero checks, the small-dividend quick
cases, the shared long-division loop for the raw non-negative remainder, and
the floor-modulo sign adjustment that makes the result follow the divisor
sign, then normalization. -/
def remC (x y : ChonkerInt) : Option ChonkerInt :=
  if y = newC ∨ y.digits.isEmpty then none
  else if x = newC ∨ x.digits.isEmpty then some newC
  else
    let absX := setPos x
    let absY := setPos y
    if ltC absX absY then
      if (x.sign = BigIntSign.Negative ∧ y.sign = BigIntSign.Positive)
          ∨ (x.sign = BigIntSign.Positive ∧ y.sign = BigIntSign.Negative) then
        some (addC y x)
      else if x.sign = BigIntSign.Negative ∧ y.sign = BigIntSign.Negative then some x
      else some x
    else
      let raw :=
        if x.digits.length > y.digits.length then
          match divMain x y absX absY with
          | Except.error _ => none
          | Except.ok (_, rem1) => some rem1
        else
          match qeaC x y with
          | Except.error _ => none
          | Except.ok (_, rem1) => some rem1
      match raw with
      | none => none
      | some remainder =>
        let adjusted :=
          if remainder ≠ newC then
            if x.sign = BigIntSign.Negative ∧ y.sign = BigIntSign.Positive then
              addC (setNeg remainder) y
            else if x.sign = BigIntSign.Positive ∧ y.sign = BigIntSign.Negative then
              addC remainder y
            else if x.sign = BigIntSign.Negative ∧ y.sign = BigIntSign.Negative then
              setNeg remainder
            else remainder
          else remainder
        some (normalizeC adjusted)

/-- Squaring loop of ChonkerInt::pow (exponentiation.rs): multiply the
accumulator on an odd exponent, square the base, halve the exponent.  The
fuel bounds the halvings; pow passes more than enough for its exponent. -/
def powLoop : Nat → ChonkerInt → ChonkerInt → ChonkerInt → Option ChonkerInt
  | 0, _, _, _ => none
  | f + 1, base, power, result =>
    if gtC power newC then
      match remC power (fromIntC 2) with
      | none => none
      | some m =>
        let result2 := if m = fromIntC 1 then mulC result base else result
        let base2 := mulC base base
        match divC power (fromIntC 2) with
        | none => none
        | some power2 => powLoop f base2 power2 result2
    else some result

/-- ChonkerInt::pow: iterative binary exponentiation with the zero-base,
zero-one-negative exponent conventions of the source. -/
def powC (x power : ChonkerInt) : Option ChonkerInt :=
  if x = newC then some newC
  else if power = newC then some (fromIntC 1)
  else if power = fromIntC 1 then some x
  else if gtC power newC then powLoop (4 * power.digits.length + 4) x power (fromIntC 1)
  else if ltC power newC then some newC
  else some (fromIntC 1)

/-- Right-to-left binary loop of ChonkerInt::modpow: multiply and reduce on
an odd exponent, return at exponent one, halve the exponent and square and
reduce the base. -/
def modpowLoop : Nat → ChonkerInt → ChonkerInt → ChonkerInt → ChonkerInt → Option ChonkerInt
  | 0, _, _, _, _ => none
  | f + 1, result, base, power, modulus =>
    match remC power (fromIntC 2) with
    | none => none
    | some m =>
      let step :=
        if m = fromIntC 1 then remC (mulC result base) modulus
        else some result
      match step with
      | none => none
      | some result2 =>
        if power = fromIntC 1 then some result2
        else
          match divC power (fromIntC 2), remC (mulC base base) modulus with
          | some power2, some base2 => modpowLoop f result2 base2 power2 modulus
          | _, _ => none

/-- ChonkerInt::modpow (exponentiation.rs): the base is reduced modulo the
modulus before the exponent is examined, so a zero modulus panics for every
non-zero base; a zero base returns zero first; exponent zero returns one,
exponent one returns the unreduced base, a negative exponent returns zero. -/
def modpowC (x power modulus : ChonkerInt) : Option ChonkerInt :=
  if x = newC then some newC
  else
    match remC x modulus with
    | none => none
    | some base =>
      if power = newC then some (fromIntC 1)
      else if power = fromIntC 1 then some x
      else if gtC power newC then
        modpowLoop (4 * power.digits.length + 4) (fromIntC 1) base power modulus
      else if ltC power newC then some newC
      else some (fromIntC 1)

/-- Recursion of ChonkerInt::gcd (gcd.rs): zero operands return the other
clone with its sign intact; otherwise the absolute values run the Euclidean
recursion.  The fuel bounds the recursion depth; gcd passes a bound in the
operand values, which dominates the Euclidean descent. -/
def gcdFuel : Nat → ChonkerInt → ChonkerInt → Option ChonkerInt
  | 0, _, _ => none
  | f + 1, x, y =>
    if x = newC ∨ x.digits.isEmpty then some y
    else if y = newC ∨ y.digits.isEmpty then some x
    else
      let a := setPos x
      let b := setPos y
      if ltC a b then gcdFuel f b a
      else
        match remC a b with
        | none => none
        | some m =>
          if m = newC then some b
          else gcdFuel f b m

/-- ChonkerInt::gcd with sufficient fuel for the Euclidean recursion. -/
def gcdC (x y : ChonkerInt) : Option ChonkerInt :=
  gcdFuel (2 * ((valC (setPos x)).toNat + (valC (setPos y)).toNat) + 4) x y

/-- Model of one rand::thread_rng gen_range draw over the inclusive range
lo..=hi: the stream value at the current position, clipped into range.  The
rand crate is outside the repository; any in-range draw is a faithful
behavior of it. -/
def randDraw (g : Nat → Nat) (k : Nat) (lo hi : Int) : Int :=
  lo + Int.ofNat (g k % ((hi - lo).toNat + 1))

/-- A run of gen_range(0..=9) draws, one per digit, advancing the stream. -/
def randFill (g : Nat → Nat) : Nat → Nat → List Int × Nat
  | k, 0 => ([], k)
  | k, c + 1 =>
    let d := randDraw g k 0 9
    let (rest, k2) := randFill g (k + 1) c
    (d :: rest, k2)

/-- ChonkerInt::new_rand (randomisation.rs): requested length of random
digits, the most significant from 1..=9, with panics on zero length or a
requested Zero sign. -/
def newRandC (g : Nat → Nat) (k : Nat) (len : Nat) (sign : BigIntSign) :
    Option (ChonkerInt × Nat) :=
  if len = 0 then none
  else if sign = BigIntSign.Zero then none
  else
    let (ds, k2) := randFill g k (len - 1)
    let top := randDraw g k2 1 9
    some ({ digits := ds ++ [top], sign := sign }, k2 + 1)

/-- ChonkerInt::new_rand_range_len: a uniform length from the inclusive
bounds, then as new_rand. -/
def newRandRangeLenC (g : Nat → Nat) (k : Nat) (start end1 : Nat) (sign : BigIntSign) :
    Option (ChonkerInt × Nat) :=
  if start = 0 ∨ end1 = 0 then none
  else if start > end1 then none
  else if sign = BigIntSign.Zero then none
  else
    let len := (randDraw g k (Int.ofNat start) (Int.ofNat end1)).toNat
    let (ds, k2) := randFill g (k + 1) (len - 1)
    let top := randDraw g k2 1 9
    some ({ digits := ds ++ [top], sign := sign }, k2 + 1)

/-- Rejection loop of ChonkerInt::new_rand_range_value: candidates drawn by
length range until one lands inside the inclusive value range; the fuel
bounds the rejections, failure standing for a run that never terminates. -/
def newRandRangeValueLoop (g : Nat → Nat) (startB endB : ChonkerInt) (sign : BigIntSign) :
    Nat → Nat → Option (ChonkerInt × Nat)
  | 0, _ => none
  | f + 1, k =>
    match newRandRangeLenC g k startB.digits.length endB.digits.length BigIntSign.Positive with
    | none => none
    | some (cand, k2) =>
      if geC cand startB ∧ leC cand endB then
        let cand2 :=
          match sign with
          | BigIntSign.Positive => setPos cand
          | BigIntSign.Negative => setNeg cand
          | BigIntSign.Zero => cand
        some (cand2, k2)
      else newRandRangeValueLoop g startB endB sign f k2

/-- ChonkerInt::new_rand_range_value with its precondition panics. -/
def newRandRangeValueC (g : Nat → Nat) (fuel k : Nat) (startB endB : ChonkerInt)
    (sign : BigIntSign) : Option (ChonkerInt × Nat) :=
  if startB = newC ∨ endB = newC then none
  else if ltC startB newC ∨ ltC endB newC then none
  else if geC startB endB then none
  else if sign = BigIntSign.Zero then none
  else newRandRangeValueLoop g startB endB sign fuel k

/-- Decomposition loop of is_prime_probabilistic (prime.rs lines 208 to 216):
while d modulo two equals one, halve d and increment s.  This is the loop the
source comments describe as factoring n minus one into two to the s times an
odd d. -/
def mrSDLoop : Nat → ChonkerInt → ChonkerInt → Option (ChonkerInt × ChonkerInt)
  | 0, _, _ => none
  | f + 1, d, s =>
    match remC d (fromIntC 2) with
    | none => none
    | some m =>
      if m = fromIntC 1 then
        match divC d (fromIntC 2) with
        | none => none
        | some d2 => mrSDLoop f d2 (addC s (fromIntC 1))
      else some (d, s)

/-- The s-and-d on entry to the witness loop of is_prime_probabilistic: d
starts as the target minus one, s as zero. -/
def mrSD (n : ChonkerInt) : Option (ChonkerInt × ChonkerInt) :=
  mrSDLoop (4 * n.digits.length + 8) (subC n (fromIntC 1)) newC

/-- Squaring phase of one Miller-Rabin trial: while the s counter is above
zero, square the trial result modulo the target; reaching target minus one
passes the trial (true), exhausting the counter declares composite (false). -/
def mrSquareLoop (targetOne n : ChonkerInt) : Nat → ChonkerInt → ChonkerInt → Option Bool
  | 0, _, _ => none
  | f + 1, sClone, trial =>
    if gtC sClone newC then
      match modpowC trial (fromIntC 2) n with
      | none => none
      | some t2 =>
        if t2 = targetOne then some true
        else mrSquareLoop targetOne n f (subC sClone (fromIntC 1)) t2
    else some false

/-- Witness loop of is_prime_probabilistic: per trial a random base from two
to the target minus two, the modpow to d, the early 1 and minus-one passes,
then the squaring phase; a failed trial is composite, surviving all trials is
probable prime. -/
def mrTrialsLoop (g : Nat → Nat) (d s targetOne n : ChonkerInt) :
    Nat → Nat → Option (Bool × Nat)
  | 0, k => some (true, k)
  | t + 1, k =>
    match newRandRangeValueC g (n.digits.length * 100 + 100) k (fromIntC 2)
        (subC n (fromIntC 2)) BigIntSign.Positive with
    | none => none
    | some (base, k2) =>
      match modpowC base d n with
      | none => none
      | some trial =>
        if trial = fromIntC 1 ∨ trial = targetOne then
          mrTrialsLoop g d s targetOne n t k2
        else
          match mrSquareLoop targetOne n (4 * s.digits.length + 8) s trial with
          | none => none
          | some true => mrTrialsLoop g d s targetOne n t k2
          | some false => some (false, k2)

/-- ChonkerInt::is_prime_probabilistic (prime.rs): fast rejections, the
two-and-three acceptances, divisibility screens, the decomposition loop and
the witness loop. -/
def isPrimeProbC (g : Nat → Nat) (k : Nat) (x : ChonkerInt) (trials : Nat) :
    Option (Bool × Nat) :=
  if x = fromIntC 1 ∨ x = newC ∨ x.sign = BigIntSign.Zero ∨ x.sign = BigIntSign.Negative then
    some (false, k)
  else if x = fromIntC 2 ∨ x = fromIntC 3 then some (true, k)
  else
    match remC x (fromIntC 2), remC x (fromIntC 3) with
    | some m2, some m3 =>
      if m2 = newC ∨ m3 = newC then some (false, k)
      else
        match mrSD x with
        | none => none
        | some (d, s) => mrTrialsLoop g d s (subC x (fromIntC 1)) x trials k
    | _, _ => none

/-- Candidate construction of ChonkerInt::new_prime for lengths above one:
an odd least significant digit, random middles, a non-zero top digit. -/
def newPrimeCandidate (g : Nat → Nat) (k len : Nat) : ChonkerInt × Nat :=
  let lsd := [(1 : Int), 3, 5, 7, 9].getD (g k % 5) 0
  let (mids, k2) := randFill g (k + 1) (len - 2)
  let top := randDraw g k2 1 9
  ({ digits := lsd :: (mids ++ [top]), sign := BigIntSign.Positive }, k2 + 1)

/-- Retry loop of ChonkerInt::new_prime: draw candidates until the
probabilistic test with five trials accepts. -/
def newPrimeLoop (g : Nat → Nat) (len : Nat) : Nat → Nat → Option (ChonkerInt × Nat)
  | 0, _ => none
  | f + 1, k =>
    let (cand, k2) := newPrimeCandidate g k len
    match isPrimeProbC g k2 cand 5 with
    | none => none
    | some (true, k3) => some (cand, k3)
    | some (false, k3) => newPrimeLoop g len f k3

/-- ChonkerInt::new_prime (prime.rs): zero length panics, length one picks
from the one-digit primes, longer lengths run the retry loop. -/
def newPrimeC (g : Nat → Nat) (fuel k len : Nat) : Option (ChonkerInt × Nat) :=
  if len = 0 then none
  else if len = 1 then
    some ({ digits := [[(2 : Int), 3, 5, 7].getD (g k % 4) 0], sign := BigIntSign.Positive },
      k + 1)
  else newPrimeLoop g len fuel k

/-- The repository sorts factor vectors with Vec::sort, which uses Ord::cmp
ascending; a stable merge sort over the derived less-or-equal models it. -/
def sortC (l : List ChonkerInt) : List ChonkerInt := List.mergeSort l leC

/-- Divisor loop of ChonkerInt::factor (factor.rs): candidates stepped by the
iterator while their square stays at most the absolute target, pushing each
divisor and its cofactor. -/
def factorLoop (x absTarget iterator : ChonkerInt) :
    Nat → ChonkerInt → List ChonkerInt → Option (List ChonkerInt)
  | 0, _, _ => none
  | f + 1, cand, acc =>
    match powC cand (fromIntC 2) with
    | none => none
    | some sq =>
      if leC sq absTarget then
        match remC x cand with
        | none => none
        | some m =>
          let acc2 :=
            if m = newC then
              match divC x cand with
              | none => none
              | some other =>
                some (if other ≠ cand then acc ++ [cand, other] else acc ++ [cand])
            else some acc
          match acc2 with
          | none => none
          | some acc3 => factorLoop x absTarget iterator f (addC cand iterator) acc3
      else some acc

/-- ChonkerInt::factor: zero and plus-minus-one specials, the probabilistic
prime short-circuit to an empty list, divisor enumeration to the square root,
negated copies for a negative target, ascending sort. -/
def factorC (g : Nat → Nat) (k fuel : Nat) (x : ChonkerInt) :
    Option (List ChonkerInt × Nat) :=
  let absTarget := setPos x
  if x = newC then some ([], k)
  else if x = fromIntC 1 then some ([fromIntC 1], k)
  else if x = fromIntC (-1) then some ([fromIntC (-1)], k)
  else
    match isPrimeProbC g k x 2 with
    | none => none
    | some (true, k2) => some ([], k2)
    | some (false, k2) =>
      match remC x (fromIntC 2) with
      | none => none
      | some m2 =>
        let start :=
          if m2 = newC then
            match divC x (fromIntC 2) with
            | none => none
            | some half =>
              some ([fromIntC 1, fromIntC 2, half, x], fromIntC 3, fromIntC 1)
          else some ([fromIntC 1, x], fromIntC 3, fromIntC 2)
        match start with
        | none => none
        | some (init, cand0, iter) =>
          match factorLoop x absTarget iter fuel cand0 init with
          | none => none
          | some lst =>
            let lst2 :=
              if x.sign = BigIntSign.Negative then lst ++ lst.map negC else lst
            some (sortC lst2, k2)

/-- Full-multiplicity strip of one candidate in ChonkerInt::prime_factor:
while the target is divisible, push the candidate and divide it out. -/
def primeFactorStrip (cand : ChonkerInt) :
    Nat → ChonkerInt → List ChonkerInt → Option (ChonkerInt × List ChonkerInt)
  | 0, _, _ => none
  | f + 1, target, acc =>
    match remC target cand with
    | none => none
    | some m =>
      if m = newC then
        match divC target cand with
        | none => none
        | some t2 => primeFactorStrip cand f t2 (acc ++ [cand])
      else some (target, acc)

/-- Odd-candidate loop of ChonkerInt::prime_factor from three upward in steps
of two, stripping each candidate with full multiplicity while its square is
at most the shrinking target. -/
def primeFactorLoop :
    Nat → ChonkerInt → ChonkerInt → List ChonkerInt → Option (ChonkerInt × List ChonkerInt)
  | 0, _, _, _ => none
  | f + 1, target, cand, acc =>
    match powC cand (fromIntC 2) with
    | none => none
    | some sq =>
      if leC sq target then
        match primeFactorStrip cand (f + 1) target acc with
        | none => none
        | some (t2, acc2) => primeFactorLoop f t2 (addC cand (fromIntC 2)) acc2
      else some (target, acc)

/-- ChonkerInt::prime_factor (factor.rs): negatives yield the empty list,
zero and one specials, the probabilistic short-circuit for primes, factors of
two stripped first, then odd candidates, with a residual prime above two
appended last. -/
def primeFactorC (g : Nat → Nat) (k fuel : Nat) (x : ChonkerInt) :
    Option (List ChonkerInt × Nat) :=
  if x.sign = BigIntSign.Negative then some ([], k)
  else if x = newC then some ([], k)
  else if x = fromIntC 1 then some ([fromIntC 1], k)
  else if x = fromIntC (-1) then some ([fromIntC (-1)], k)
  else
    match isPrimeProbC g k x 2 with
    | none => none
    | some (true, k2) => some ([], k2)
    | some (false, k2) =>
      match primeFactorStrip (fromIntC 2) fuel x [] with
      | none => none
      | some (target1, acc1) =>
        match primeFactorLoop fuel target1 (fromIntC 3) acc1 with
        | none => none
        | some (target2, acc2) =>
          if gtC target2 (fromIntC 2) then some (acc2 ++ [target2], k2)
          else some (acc2, k2)

/-- Odd-prime search loop of ChonkerInt::factor_rsa_modulus: candidates in
steps of two while their square is at most the absolute target, skipping
composites by a one-trial probabilistic test; on the first prime divisor the
cofactor is computed, a composite cofactor is the fatal panic, otherwise the
pair is returned. -/
def factorRsaLoop (g : Nat → Nat) (x absTarget : ChonkerInt) :
    Nat → Nat → ChonkerInt → Option (List ChonkerInt × Nat)
  | 0, _, _ => none
  | f + 1, k, cand =>
    match powC cand (fromIntC 2) with
    | none => none
    | some sq =>
      if leC sq absTarget then
        match isPrimeProbC g k cand 1 with
        | none => none
        | some (false, k2) => factorRsaLoop g x absTarget f k2 (addC cand (fromIntC 2))
        | some (true, k2) =>
          match remC x cand with
          | none => none
          | some m =>
            if m = newC then
              match divC x cand with
              | none => none
              | some other =>
                match isPrimeProbC g k2 other 2 with
                | none => none
                | some (false, _) => none
                | some (true, k3) => some ([cand, other], k3)
            else factorRsaLoop g x absTarget f k2 (addC cand (fromIntC 2))
      else some ([], k)

/-- ChonkerInt::factor_rsa_modulus (factor.rs): precondition panics for an
unusable starting point or target, the even shortcut when half the target is
prime, the odd adjustment of the starting point, the search loop, and the
ascending sort of the result. -/
def factorRsaModulusC (g : Nat → Nat) (k fuel : Nat) (x startPoint : ChonkerInt) :
    Option (List ChonkerInt × Nat) :=
  let absTarget := setPos x
  if startPoint = newC ∨ startPoint.sign = BigIntSign.Negative then none
  else
    match isPrimeProbC g k x 2 with
    | none => none
    | some (isP, k2) =>
      if x = newC ∨ x = fromIntC 1 ∨ x = fromIntC 2 ∨ isP then none
      else
        match remC x (fromIntC 2) with
        | none => none
        | some m2 =>
          let evenShortcut :=
            if m2 = newC then
              match divC x (fromIntC 2) with
              | none => none
              | some second =>
                match isPrimeProbC g k2 second 2 with
                | none => none
                | some (sp, k3) => some (sp, second, k3)
            else some (false, newC, k2)
          match evenShortcut with
          | none => none
          | some (true, second, k3) => some (sortC [fromIntC 2, second], k3)
          | some (false, _, k3) =>
            match remC startPoint (fromIntC 2) with
            | none => none
            | some ms =>
              let cand0 := if ms = newC then addC startPoint (fromIntC 1) else startPoint
              match factorRsaLoop g x absTarget fuel k3 cand0 with
              | none => none
              | some (lst, k4) => some (sortC lst, k4)

/-- fn encode_part_of_byte (encoding/mod.rs). -/
def encodePartOfByte (h : Nat) : Option Char :=
  if 10 ≤ h ∧ h ≤ 15 then some (Char.ofNat (h + 55))
  else if h ≤ 9 then some (Char.ofNat (h + 48))
  else none

/-- fn one_u8_to_hex: high then low nibble. -/
def oneU8ToHex (b : Nat) : Option (List Char) :=
  match encodePartOfByte (b / 16), encodePartOfByte (b % 16 % 16) with
  | some hi, some lo => some [hi, lo]
  | _, _ => none

/-- fn string_hex_encode over a byte vector. -/
def stringHexEncode : List Nat → Option (List Char)
  | [] => some []
  | b :: rest =>
    match oneU8ToHex b, stringHexEncode rest with
    | some pair, some tail1 => some (pair ++ tail1)
    | _, _ => none

/-- fn one_hex_to_u8 on a character code. -/
def oneHexToU8 (c : Nat) : Option Nat :=
  if 65 ≤ c ∧ c ≤ 70 then some (c - 65 + 10)
  else if 97 ≤ c ∧ c ≤ 102 then some (c - 97 + 10)
  else if 48 ≤ c ∧ c ≤ 57 then some (c - 48)
  else none

/-- Pairing loop of fn string_hex_decode over validated characters. -/
def hexPairs : List Nat → Option (List Nat)
  | [] => some []
  | c1 :: c2 :: rest =>
    match oneHexToU8 c1, oneHexToU8 c2, hexPairs rest with
    | some hi, some lo, some tail1 => some ((hi * 16 % 256 + lo) :: tail1)
    | _, _, _ => none
  | _ :: [] => some []

/-- fn string_hex_decode: even length and character validation, then nibble
pairs into bytes. -/
def stringHexDecode (s : List Char) : Option (List Nat) :=
  if s.length % 2 ≠ 0 then none
  else if ¬(s.all (fun c => (65 ≤ c.toNat ∧ c.toNat ≤ 70) ∨ (97 ≤ c.toNat ∧ c.toNat ≤ 102)
      ∨ (48 ≤ c.toNat ∧ c.toNat ≤ 57))) then none
  else hexPairs (s.map Char.toNat)

/-- Split a byte list into exact chunks of the block size with a remainder,
mirroring slice::chunks_exact(16). -/
def chunksExactFuel : Nat → List Nat → List (List Nat) × List Nat
  | 0, l => ([], l)
  | f + 1, l =>
    if 16 ≤ l.length then
      let p := chunksExactFuel f (l.drop 16)
      (l.take 16 :: p.1, p.2)
    else ([], l)

/-- slice::chunks_exact(16) with its remainder, fuel covering the length. -/
def chunksExact16 (l : List Nat) : List (List Nat) × List Nat :=
  chunksExactFuel (l.length + 1) l

/-- Packing of block bytes into the running 16-byte unsigned integer of
rsa_encrypt: shift left one byte (u128 wrap) and or the byte in. -/
def packFold (acc : Nat) (bytes : List Nat) : Nat :=
  bytes.foldl (fun a b => (a * 256) % (2 ^ 128) + b) acc

/-- Cast of an i8 digit vector entry to u8, as the result mapping of
rsa_encrypt does; the block delimiter minus one becomes 255. -/
def i8ToU8 (d : Int) : Nat := (d.emod 256).toNat

/-- Full-block loop of rsa_encrypt: pack, encrypt with modpow, emit the
little-endian decimal digits followed by the delimiter. -/
def rsaEncryptBlocks (e n : ChonkerInt) :
    List (List Nat) → Nat → Option (List Int × Nat)
  | [], acc => some ([], acc)
  | chunk :: rest, acc =>
    let acc2 := packFold acc chunk
    match modpowC (fromIntC (Int.ofNat acc2)) e n with
    | none => none
    | some enc =>
      match rsaEncryptBlocks e n rest acc2 with
      | none => none
      | some (tail1, accF) => some (enc.digits ++ ((-1) :: tail1), accF)

/-- fn rsa_encrypt (rsa.rs): exact 16-byte blocks each followed by the 0xFF
delimiter, then the padded final partial block without a delimiter, the
whole digit stream hex encoded. -/
def rsaEncryptC (target : List Nat) (e n : ChonkerInt) : Option (List Char) :=
  let split := chunksExact16 target
  match rsaEncryptBlocks e n split.1 0 with
  | none => none
  | some (digitStream, acc) =>
    let withRem :=
      if ¬split.2.isEmpty then
        let padded := packFold (packFold acc split.2) (List.replicate (16 - split.2.length) 144)
        match modpowC (fromIntC (Int.ofNat padded)) e n with
        | none => none
        | some enc => some (digitStream ++ enc.digits)
      else some digitStream
    match withRem with
    | none => none
    | some ds => stringHexEncode (ds.map i8ToU8)

/-- Byte extraction of rsa_decrypt: left shift by eight times the index,
right shift by 120, over the 16-byte unsigned integer. -/
def extractByte (v i : Nat) : Nat := v * 2 ^ (8 * i) % 2 ^ 128 / 2 ^ 120

/-- Per-block unpacking scan of rsa_decrypt: sixteen bytes high to low, with
the whole decryption stopped at the first padding byte 0x90. -/
def unpackScan (v : Nat) : Nat → Nat → List Nat × Bool
  | 0, _ => ([], false)
  | c + 1, i =>
    let b := extractByte v i
    if b = 144 then ([], true)
    else
      let (rest, hit) := unpackScan v c (i + 1)
      (b :: rest, hit)

/-- Group loop of rsa_decrypt: each delimiter-separated digit group is
rebuilt through the little-endian slice constructor, decrypted with modpow,
converted to the 16-byte integer and unpacked; a padding byte ends the whole
loop with the bytes collected so far. -/
def rsaDecryptGroups (d n : ChonkerInt) : List (List Nat) → Option (List Nat)
  | [] => some []
  | gbytes :: rest =>
    match fromSliceC gbytes with
    | none => none
    | some bi =>
      match modpowC bi d n with
      | none => none
      | some m =>
        match toDigitC m with
        | none => none
        | some v =>
          let scan := unpackScan v 16 0
          if scan.2 then some scan.1
          else
            match rsaDecryptGroups d n rest with
            | none => none
            | some more => some (scan.1 ++ more)

/-- fn rsa_decrypt (rsa.rs): hex decode, split the byte stream on the 0xFF
delimiter, decrypt and unpack each group.  The result is the decrypted byte
vector that the source then reinterprets as a UTF-8 string unchecked. -/
def rsaDecryptC (target : List Char) (d n : ChonkerInt) : Option (List Nat) :=
  match stringHexDecode target with
  | none => none
  | some bytes => rsaDecryptGroups d n (bytes.splitOnP (fun b => b == 255))

/-- One dispatched search job of rsa_bruteforce: the closure captures the
starting point and the cloned exponent and modulus, and runs
factor_rsa_modulus of the modulus from the starting point. -/
structure BruteforceJob : Type where
  starting_point : ChonkerInt
  key_exponent : ChonkerInt
  key_modulus : ChonkerInt
deriving DecidableEq, Repr

/-- Job dispatch of rsa_bruteforce (rsa.rs lines 384 to 484): the all-nines
ceiling of half the modulus length divided by the fixed reference worker
count eight gives the step; the dispatch loop runs over the fixed constant
BRUTEFORCE_THREAD_COUNT = 8, regardless of the requested worker count, with
each starting point bumped by one when even. -/
def rsaBruteforceJobs (e n : ChonkerInt) : Option (List BruteforceJob) :=
  let halfLen := n.digits.length / 2
  let ceiling : List Nat := List.replicate halfLen 9
  match fromSliceC ceiling with
  | none => none
  | some ceilingB =>
    match divC ceilingB (fromIntC 8) with
    | none => none
    | some step =>
      (List.range 8).mapM (fun thread => do
        let sp := addC (fromIntC 3) (mulC step (fromIntC (Int.ofNat thread)))
        let m ← remC sp (fromIntC 2)
        let sp2 := if m = newC then addC sp (fromIntC 1) else sp
        pure { starting_point := sp2, key_exponent := e, key_modulus := n })

/-- Starting-point value that claim C9 predicts for worker i: three plus i
times the step, the step being the all-nines value of half the modulus
length divided by the reference worker count, incremented by one if even.
This definition follows the words of the claim, for comparison with the
embedded dispatch. -/
def claimC9StartValue (n : ChonkerInt) (i : Nat) : Int :=
  let step := (10 ^ (n.digits.length / 2) - 1) / 8
  let s : Int := 3 + Int.ofNat i * step
  if s % 2 = 0 then s + 1 else s

/-- The dispatch property claim C9 asserts for a requested worker count W:
every index below W gets a job with the predicted starting point, running
factor_rsa_modulus of the modulus from it. -/
def claimC9Holds (e n : ChonkerInt) (w : Nat) : Prop :=
  ∀ jl, rsaBruteforceJobs e n = some jl →
    ∀ i < w, ∃ job, jl.get? i = some job ∧ job.key_exponent = e ∧
      job.key_modulus = n ∧ valC job.starting_point = claimC9StartValue n i

/-! Basic facts about digit vectors. -/

theorem digitsVal_nil : digitsVal [] = 0 := rfl

theorem digitsVal_cons (d : Int) (l : List Int) :
    digitsVal (d :: l) = d + 10 * digitsVal l := rfl

theorem digitsVal_append (l1 l2 : List Int) :
    digitsVal (l1 ++ l2) = digitsVal l1 + 10 ^ l1.length * digitsVal l2 := by
  induction l1 with
  | nil => simp [digitsVal]
  | cons d l ih => simp [digitsVal, ih, pow_succ]; ring

theorem digOk_iff (l : List Int) : digOk l ↔ ∀ d ∈ l, 0 ≤ d ∧ d ≤ 9 := by
  simp [digOk, List.all_eq_true]

theorem digOk_cons {d : Int} {l : List Int} :
    digOk (d :: l) ↔ (0 ≤ d ∧ d ≤ 9) ∧ digOk l := by
  simp [digOk_iff]

theorem digOk_append {l1 l2 : List Int} :
    digOk (l1 ++ l2) ↔ digOk l1 ∧ digOk l2 := by
  simp only [digOk_iff, List.mem_append]
  constructor
  · intro h
    exact ⟨fun d hd => h d (Or.inl hd), fun d hd => h d (Or.inr hd)⟩
  · intro h d hd
    rcases hd with hd | hd
    · exact h.1 d hd
    · exact h.2 d hd

theorem digitsVal_nonneg {l : List Int} (h : digOk l) : 0 ≤ digitsVal l := by
  induction l with
  | nil => simp [digitsVal]
  | cons d t ih =>
    rw [digOk_cons] at h
    have := ih h.2
    simp only [digitsVal]
    nlinarith [h.1.1]

theorem digitsVal_lt_pow {l : List Int} (h : digOk l) :
    digitsVal l < 10 ^ l.length := by
  induction l with
  | nil => simp [digitsVal]
  | cons d t ih =>
    rw [digOk_cons] at h
    have := ih h.2
    simp only [digitsVal, List.length_cons, pow_succ]
    nlinarith [h.1.2]

theorem getLast_eq_of_concat (l : List Int) (d : Int) :
    (l ++ [d]).getLast? = some d := by
  simp [List.getLast?_append]

theorem topNonzero_iff {l : List Int} {d : Int} (h : digOk (l ++ [d])) :
    ((l ++ [d]).getLast? ≠ some 0) ↔ 10 ^ l.length ≤ digitsVal (l ++ [d]) := by
  rw [getLast_eq_of_concat]
  rw [digOk_append] at h
  have hl := digitsVal_nonneg h.1
  have hu := digitsVal_lt_pow h.1
  have hd := (digOk_cons.mp h.2).1
  rw [digitsVal_append]
  simp only [digitsVal]
  constructor
  · intro hne
    have : d ≠ 0 := by intro hc; exact hne (by rw [hc])
    have : 1 ≤ d := by omega
    nlinarith
  · intro hge hc
    simp at hc
    rw [hc] at hge
    simp at hge
    omega

theorem digitsVal_eq_zero_of_all_zero {l : List Int}
    (h : ∀ d ∈ l, d = 0) : digitsVal l = 0 := by
  induction l with
  | nil => rfl
  | cons d t ih =>
    simp only [digitsVal]
    rw [h d (by simp), ih (fun x hx => h x (by simp [hx]))]
    ring

/-! Normalization: dropping most-significant zeros keeps the value, and on
in-range digits produces a vector with no most-significant zero. -/

theorem normalizeDigits_val (l : List Int) :
    digitsVal (normalizeDigits l) = digitsVal l := by
  unfold normalizeDigits
  induction l using List.reverseRecOn with
  | nil => simp
  | append_singleton l d ih =>
    by_cases hd : d = 0
    · subst hd
      rw [List.reverse_append]
      simp only [List.reverse_singleton, List.singleton_append, List.dropWhile]
      simp only [beq_self_eq_true]
      rw [digitsVal_append]
      simpa [digitsVal] using ih
    · rw [List.reverse_append]
      simp only [List.reverse_singleton, List.singleton_append, List.dropWhile]
      have : (d == 0) = false := by simp [hd]
      rw [this]
      simp

theorem normalizeDigits_getLast {l : List Int} :
    (normalizeDigits l).getLast? ≠ some 0 := by
  unfold normalizeDigits
  intro hc
  rw [List.getLast?_reverse] at hc
  match hh : List.dropWhile (fun d => d == 0) l.reverse with
  | [] => rw [hh] at hc; simp at hc
  | e :: rest =>
    rw [hh] at hc
    have := List.head?_dropWhile_not (fun d => d == 0) l.reverse
    rw [hh] at this
    simp at this hc
    rw [hc] at this
    simp at this

theorem normalizeDigits_digOk {l : List Int} (h : digOk l) :
    digOk (normalizeDigits l) := by
  rw [digOk_iff] at h ⊢
  intro d hd
  apply h
  unfold normalizeDigits at hd
  rw [List.mem_reverse] at hd
  have := List.dropWhile_sublist (l := l.reverse) (p := fun d => d == 0)
  exact List.mem_reverse.mp (this.mem hd)

theorem normalizeDigits_nil_iff {l : List Int} (h : digOk l) :
    normalizeDigits l = [] ↔ digitsVal l = 0 := by
  constructor
  · intro he
    have := normalizeDigits_val l
    rw [he] at this
    simpa [digitsVal] using this.symm
  · intro hv
    unfold normalizeDigits
    have hall : ∀ d ∈ l, d = 0 := by
      intro d hd
      by_contra hne
      -- a non-zero digit makes the value positive
      obtain ⟨l1, l2, rfl⟩ := List.append_of_mem hd
      rw [digitsVal_append] at hv
      simp only [digitsVal] at hv
      have h1 := digitsVal_nonneg (digOk_append.mp h).1
      have h2 := (digOk_cons.mp (digOk_append.mp h).2)
      have h3 := digitsVal_nonneg h2.2
      have hdpos : 1 ≤ d := by omega
      nlinarith [pow_pos (show (0:Int) < 10 by norm_num) l1.length]
    have : ∀ d ∈ l.reverse, (fun d => d == 0) d = true := by
      intro d hd; simp [hall d (List.mem_reverse.mp hd)]
    rw [List.dropWhile_eq_nil_iff.mpr (fun d hd => this d hd)]
    rfl

/-! Canonical digit vectors determine and are determined by their value. -/

theorem valC_eq_pos {x : ChonkerInt} (hs : x.sign = BigIntSign.Positive) :
    valC x = digitsVal x.digits := by
  unfold valC; rw [hs]

theorem valC_eq_zero {x : ChonkerInt} (hs : x.sign = BigIntSign.Zero) :
    valC x = 0 := by
  unfold valC; rw [hs]

theorem valC_eq_neg {x : ChonkerInt} (hs : x.sign = BigIntSign.Negative) :
    valC x = - digitsVal x.digits := by
  unfold valC; rw [hs]

theorem digitsVal_pos_of_top {l : List Int} (h : digOk l) (hne : l ≠ [])
    (ht : l.getLast? ≠ some 0) : 0 < digitsVal l := by
  rcases (List.eq_nil_or_concat l) with rfl | ⟨l2, d, rfl⟩
  · exact absurd rfl hne
  · rw [List.concat_eq_append] at h ht ⊢
    have := (topNonzero_iff h).mp ht
    have := pow_pos (show (0:Int) < 10 by norm_num) l2.length
    omega

theorem digitsVal_ge_pow {l : List Int} (h : digOk l) (hne : l ≠ [])
    (ht : l.getLast? ≠ some 0) : 10 ^ (l.length - 1) ≤ digitsVal l := by
  rcases (List.eq_nil_or_concat l) with rfl | ⟨l2, d, rfl⟩
  · exact absurd rfl hne
  · rw [List.concat_eq_append] at h ht ⊢
    have := (topNonzero_iff h).mp ht
    simpa using this

theorem digits_unique : ∀ l1 l2 : List Int, digOk l1 → digOk l2 →
    l1.getLast? ≠ some 0 → l2.getLast? ≠ some 0 →
    digitsVal l1 = digitsVal l2 → l1 = l2 := by
  intro l1
  induction l1 with
  | nil =>
    intro l2 _ h2 _ t2 hv
    rcases l2 with _ | ⟨d2, r2⟩
    · rfl
    · have := digitsVal_pos_of_top h2 (by simp) t2
      rw [← hv] at this
      simp [digitsVal] at this
  | cons d1 r1 ih =>
    intro l2 h1 h2 t1 t2 hv
    rcases l2 with _ | ⟨d2, r2⟩
    · have := digitsVal_pos_of_top h1 (by simp) t1
      rw [hv] at this
      simp [digitsVal] at this
    · obtain ⟨hd1, hr1⟩ := digOk_cons.mp h1
      obtain ⟨hd2, hr2⟩ := digOk_cons.mp h2
      simp only [digitsVal] at hv
      have hA1 := digitsVal_nonneg hr1
      have hA2 := digitsVal_nonneg hr2
      have hdeq : d1 = d2 ∧ digitsVal r1 = digitsVal r2 := by
        constructor <;> omega
      rcases r1 with _ | ⟨e1, s1⟩
      · rcases r2 with _ | ⟨e2, s2⟩
        · simp [hdeq.1]
        · have hpos := digitsVal_pos_of_top hr2 (by simp)
            (by rw [← List.getLast?_cons_cons]; exact t2)
          rw [← hdeq.2] at hpos
          simp [digitsVal] at hpos
      · rcases r2 with _ | ⟨e2, s2⟩
        · have hpos := digitsVal_pos_of_top hr1 (by simp)
            (by rw [← List.getLast?_cons_cons]; exact t1)
          rw [hdeq.2] at hpos
          simp [digitsVal] at hpos
        · have := ih (e2 :: s2) hr1 hr2
            (by rw [← List.getLast?_cons_cons]; exact t1)
            (by rw [← List.getLast?_cons_cons]; exact t2) hdeq.2
          rw [hdeq.1, this]

/-! Value facts for canonical ChonkerInts. -/

theorem valC_newC : valC newC = 0 := rfl

theorem repOk_newC : repOk newC = true := rfl

theorem repOk_parts {x : ChonkerInt} (h : repOk x) :
    digOk x.digits ∧ canonC x := by
  simpa [repOk] using h

theorem canonC_zero_arm {x : ChonkerInt} (h : canonC x) (hs : x.sign = BigIntSign.Zero) :
    x.digits = [] := by
  unfold canonC at h
  rw [hs] at h
  simpa using h

theorem canonC_pos_arm {x : ChonkerInt} (h : canonC x) (hs : x.sign ≠ BigIntSign.Zero) :
    x.digits ≠ [] ∧ x.digits.getLast? ≠ some 0 := by
  unfold canonC at h
  rcases hsx : x.sign with _ | _ | _ <;> rw [hsx] at h
  · rw [Bool.and_eq_true] at h
    refine ⟨?_, ?_⟩
    · intro hc
      have h1 := h.1
      rw [hc] at h1
      simp at h1
    · intro hc
      have h2 := h.2
      rw [hc] at h2
      simp at h2
  · exact absurd hsx hs
  · rw [Bool.and_eq_true] at h
    refine ⟨?_, ?_⟩
    · intro hc
      have h1 := h.1
      rw [hc] at h1
      simp at h1
    · intro hc
      have h2 := h.2
      rw [hc] at h2
      simp at h2

theorem valC_pos_of_repOk {x : ChonkerInt} (h : repOk x)
    (hs : x.sign = BigIntSign.Positive) : 0 < valC x := by
  obtain ⟨hd, hc⟩ := repOk_parts h
  obtain ⟨hne, ht⟩ := canonC_pos_arm hc (by rw [hs]; simp)
  have := digitsVal_pos_of_top hd hne ht
  rw [valC_eq_pos hs]
  exact this

theorem valC_neg_of_repOk {x : ChonkerInt} (h : repOk x)
    (hs : x.sign = BigIntSign.Negative) : valC x < 0 := by
  obtain ⟨hd, hc⟩ := repOk_parts h
  obtain ⟨hne, ht⟩ := canonC_pos_arm hc (by rw [hs]; simp)
  have := digitsVal_pos_of_top hd hne ht
  rw [valC_eq_neg hs]
  omega

theorem sign_pos_iff {x : ChonkerInt} (h : repOk x) :
    x.sign = BigIntSign.Positive ↔ 0 < valC x := by
  constructor
  · exact valC_pos_of_repOk h
  · intro hv
    rcases hs : x.sign with _ | _ | _
    · rfl
    · rw [valC_eq_zero hs] at hv; omega
    · have := valC_neg_of_repOk h hs; omega

theorem sign_zero_iff {x : ChonkerInt} (h : repOk x) :
    x.sign = BigIntSign.Zero ↔ valC x = 0 := by
  constructor
  · exact valC_eq_zero
  · intro hv
    rcases hs : x.sign with _ | _ | _
    · have := valC_pos_of_repOk h hs; omega
    · rfl
    · have := valC_neg_of_repOk h hs; omega

theorem sign_neg_iff {x : ChonkerInt} (h : repOk x) :
    x.sign = BigIntSign.Negative ↔ valC x < 0 := by
  constructor
  · exact valC_neg_of_repOk h
  · intro hv
    rcases hs : x.sign with _ | _ | _
    · have := valC_pos_of_repOk h hs; omega
    · rw [valC_eq_zero hs] at hv; omega
    · rfl

theorem chonk_unique {x y : ChonkerInt} (hx : repOk x) (hy : repOk y)
    (hv : valC x = valC y) : x = y := by
  obtain ⟨hxd, hxc⟩ := repOk_parts hx
  obtain ⟨hyd, hyc⟩ := repOk_parts hy
  have hsign : x.sign = y.sign := by
    rcases hs : x.sign with _ | _ | _
    · have h1 := (sign_pos_iff hx).mp hs
      rw [hv] at h1
      exact ((sign_pos_iff hy).mpr h1).symm
    · have h1 := (sign_zero_iff hx).mp hs
      rw [hv] at h1
      exact ((sign_zero_iff hy).mpr h1).symm
    · have h1 := (sign_neg_iff hx).mp hs
      rw [hv] at h1
      exact ((sign_neg_iff hy).mpr h1).symm
  have hdig : x.digits = y.digits := by
    rcases hs : x.sign with _ | _ | _ <;>
      (have hys : y.sign = x.sign := hsign.symm; rw [hs] at hys)
    · obtain ⟨hne1, ht1⟩ := canonC_pos_arm hxc (by rw [hs]; simp)
      obtain ⟨hne2, ht2⟩ := canonC_pos_arm hyc (by rw [hys]; simp)
      apply digits_unique _ _ hxd hyd ht1 ht2
      rw [valC_eq_pos hs, valC_eq_pos hys] at hv
      exact hv
    · rw [canonC_zero_arm hxc hs, canonC_zero_arm hyc hys]
    · obtain ⟨hne1, ht1⟩ := canonC_pos_arm hxc (by rw [hs]; simp)
      obtain ⟨hne2, ht2⟩ := canonC_pos_arm hyc (by rw [hys]; simp)
      apply digits_unique _ _ hxd hyd ht1 ht2
      rw [valC_eq_neg hs, valC_eq_neg hys] at hv
      omega
  cases x; cases y
  simp_all

/-! Comparison correctness: cmpBE, ordDet and cmpC compute the comparison of
the represented values. -/

theorem digOk_reverse {l : List Int} : digOk l.reverse = digOk l := by
  simp [digOk]

theorem compare_int_shift (a b c : Int) : compare (a + c) (b + c) = compare a b := by
  rcases lt_trichotomy a b with h | h | h
  · rw [compare_lt_iff_lt.mpr h, compare_lt_iff_lt.mpr (by omega)]
  · rw [compare_eq_iff_eq.mpr h, compare_eq_iff_eq.mpr (by omega)]
  · rw [compare_gt_iff_gt.mpr h, compare_gt_iff_gt.mpr (by omega)]

theorem digitsVal_one (d : Int) : digitsVal [d] = d := by simp [digitsVal]

theorem cmpBE_val : ∀ a b : List Int, a.length = b.length → digOk a → digOk b →
    cmpBE a b = compare (digitsVal a.reverse) (digitsVal b.reverse) := by
  intro a
  induction a with
  | nil =>
    intro b hlen _ _
    rcases b with _ | ⟨b0, bs⟩
    · rw [show cmpBE [] [] = Ordering.eq from rfl]
      exact (compare_eq_iff_eq.mpr rfl).symm
    · simp at hlen
  | cons a0 as1 ih =>
    intro b hlen ha hb
    rcases b with _ | ⟨b0, bs⟩
    · simp at hlen
    · obtain ⟨ha0, has⟩ := digOk_cons.mp ha
      obtain ⟨hb0, hbs⟩ := digOk_cons.mp hb
      have hlen2 : as1.length = bs.length := by simpa using hlen
      have hAd : digOk as1.reverse := by rw [digOk_reverse]; exact has
      have hBd : digOk bs.reverse := by rw [digOk_reverse]; exact hbs
      have hA0 := digitsVal_nonneg hAd
      have hB0 := digitsVal_nonneg hBd
      have hA1 : digitsVal as1.reverse < 10 ^ bs.length := by
        have := digitsVal_lt_pow hAd
        simpa [List.length_reverse, hlen2] using this
      have hB1 : digitsVal bs.reverse < 10 ^ bs.length := by
        have := digitsVal_lt_pow hBd
        simpa [List.length_reverse] using this
      have hP : (0:Int) < 10 ^ bs.length := pow_pos (by norm_num) _
      have hstep : ∀ o : Ordering, compare a0 b0 = o →
          cmpBE (a0 :: as1) (b0 :: bs) =
            (match o with
             | Ordering.lt => Ordering.lt
             | Ordering.gt => Ordering.gt
             | Ordering.eq => cmpBE as1 bs) := by
        intro o ho
        simp [cmpBE, ho]
      rw [List.reverse_cons, List.reverse_cons, digitsVal_append, digitsVal_append,
        List.length_reverse, List.length_reverse, hlen2, digitsVal_one, digitsVal_one]
      rcases lt_trichotomy a0 b0 with h | h | h
      · rw [hstep Ordering.lt (compare_lt_iff_lt.mpr h)]
        have hm : 10 ^ bs.length * (a0 + 1) ≤ 10 ^ bs.length * b0 :=
          mul_le_mul_of_nonneg_left (by omega) (le_of_lt hP)
        have hv : digitsVal as1.reverse + 10 ^ bs.length * a0 <
            digitsVal bs.reverse + 10 ^ bs.length * b0 := by nlinarith
        exact (compare_lt_iff_lt.mpr hv).symm
      · subst h
        rw [hstep Ordering.eq (compare_eq_iff_eq.mpr rfl), ih bs hlen2 has hbs]
        exact (compare_int_shift _ _ _).symm
      · rw [hstep Ordering.gt (compare_gt_iff_gt.mpr h)]
        have hm : 10 ^ bs.length * (b0 + 1) ≤ 10 ^ bs.length * a0 :=
          mul_le_mul_of_nonneg_left (by omega) (le_of_lt hP)
        have hv : digitsVal bs.reverse + 10 ^ bs.length * b0 <
            digitsVal as1.reverse + 10 ^ bs.length * a0 := by nlinarith
        exact (compare_gt_iff_gt.mpr hv).symm

theorem digitsVal_lt_of_len {xd yd : List Int} (hx : digOk xd) (hy : digOk yd)
    (hyt : yd.getLast? ≠ some 0) (hlen : xd.length < yd.length) :
    digitsVal xd < digitsVal yd := by
  have h1 := digitsVal_lt_pow hx
  have hne : yd ≠ [] := by
    intro h
    subst h
    simp at hlen
  have h2 := digitsVal_ge_pow hy hne hyt
  have h3 : (10:Int) ^ xd.length ≤ 10 ^ (yd.length - 1) :=
    pow_le_pow_right₀ (by norm_num) (by omega)
  linarith

theorem ordDet_val_pos {xd yd : List Int} (hx : digOk xd) (hy : digOk yd)
    (hxt : xd.getLast? ≠ some 0) (hyt : yd.getLast? ≠ some 0) :
    ordDet BigIntSign.Positive xd yd = compare (digitsVal xd) (digitsVal yd) := by
  have hstep : ∀ o : Ordering, compare xd.length yd.length = o →
      ordDet BigIntSign.Positive xd yd =
        (match o with
         | Ordering.lt => Ordering.lt
         | Ordering.gt => Ordering.gt
         | Ordering.eq => cmpBE xd.reverse yd.reverse) := by
    intro o ho
    simp [ordDet, ho]
  rcases lt_trichotomy xd.length yd.length with h | h | h
  · rw [hstep Ordering.lt (compare_lt_iff_lt.mpr h)]
    exact (compare_lt_iff_lt.mpr (digitsVal_lt_of_len hx hy hyt h)).symm
  · rw [hstep Ordering.eq (compare_eq_iff_eq.mpr h)]
    have := cmpBE_val xd.reverse yd.reverse (by simpa using h)
      (by rw [digOk_reverse]; exact hx) (by rw [digOk_reverse]; exact hy)
    simpa using this
  · rw [hstep Ordering.gt (compare_gt_iff_gt.mpr h)]
    exact (compare_gt_iff_gt.mpr (digitsVal_lt_of_len hy hx hxt h)).symm

theorem ordDet_neg_flip (xd yd : List Int) :
    ordDet BigIntSign.Negative xd yd = ordFlip (ordDet BigIntSign.Positive xd yd) := by
  unfold ordDet
  cases h : compare xd.length yd.length <;> simp [ordFlip]

theorem ordFlip_compare (a b : Int) : ordFlip (compare a b) = compare (-a) (-b) := by
  rcases lt_trichotomy a b with h | h | h
  · rw [compare_lt_iff_lt.mpr h, compare_gt_iff_gt.mpr (show -b < -a by omega)]
    rfl
  · rw [compare_eq_iff_eq.mpr h, compare_eq_iff_eq.mpr (show -a = -b by omega)]
    rfl
  · rw [compare_gt_iff_gt.mpr h, compare_lt_iff_lt.mpr (show -a < -b by omega)]
    rfl

theorem ordDet_val_neg {xd yd : List Int} (hx : digOk xd) (hy : digOk yd)
    (hxt : xd.getLast? ≠ some 0) (hyt : yd.getLast? ≠ some 0) :
    ordDet BigIntSign.Negative xd yd = compare (- digitsVal xd) (- digitsVal yd) := by
  rw [ordDet_neg_flip, ordDet_val_pos hx hy hxt hyt, ordFlip_compare]

/-! Operands reaching cmp in the source are either fully canonical values or
positive-signed normalized intermediates; both supply what cmpC needs. -/

theorem posNorm_parts {x : ChonkerInt} (h : posNorm x) :
    x.sign = BigIntSign.Positive ∧ digOk x.digits ∧ x.digits.getLast? ≠ some 0 := by
  unfold posNorm at h
  rw [Bool.and_eq_true, Bool.and_eq_true] at h
  refine ⟨by simpa using h.1.1, h.1.2, ?_⟩
  intro hc
  have h2 := h.2
  rw [hc] at h2
  simp at h2

theorem good_digOk {x : ChonkerInt} (h : repOk x ∨ posNorm x) : digOk x.digits := by
  rcases h with h | h
  · exact (repOk_parts h).1
  · exact (posNorm_parts h).2.1

theorem good_top {x : ChonkerInt} (h : repOk x ∨ posNorm x) :
    x.digits.getLast? ≠ some 0 := by
  rcases h with h | h
  · obtain ⟨_, hc⟩ := repOk_parts h
    rcases hs : x.sign with _ | _ | _
    · exact (canonC_pos_arm hc (by rw [hs]; simp)).2
    · rw [canonC_zero_arm hc hs]
      simp
    · exact (canonC_pos_arm hc (by rw [hs]; simp)).2
  · exact (posNorm_parts h).2.2

theorem good_zero_sign {x : ChonkerInt} (h : repOk x ∨ posNorm x)
    (hs : x.sign = BigIntSign.Zero) : x.digits = [] := by
  rcases h with h | h
  · exact canonC_zero_arm (repOk_parts h).2 hs
  · have := (posNorm_parts h).1
    rw [this] at hs
    cases hs

theorem good_not_neg {x : ChonkerInt} (h : repOk x ∨ posNorm x)
    (hs : x.sign = BigIntSign.Negative) : repOk x := by
  rcases h with h | h
  · exact h
  · have := (posNorm_parts h).1
    rw [this] at hs
    cases hs

theorem good_val_empty {x : ChonkerInt} (h : repOk x ∨ posNorm x)
    (he : x.digits = []) : valC x = 0 := by
  rcases hs : x.sign with _ | _ | _
  · rw [valC_eq_pos hs, he]
    rfl
  · exact valC_eq_zero hs
  · have hr := good_not_neg h hs
    obtain ⟨hne, _⟩ := canonC_pos_arm (repOk_parts hr).2 (by rw [hs]; simp)
    exact absurd he hne

theorem good_val_pos {x : ChonkerInt} (h : repOk x ∨ posNorm x)
    (hs : x.sign = BigIntSign.Positive) (hne : x.digits ≠ []) : 0 < valC x := by
  rw [valC_eq_pos hs]
  exact digitsVal_pos_of_top (good_digOk h) hne (good_top h)

theorem good_val_nonneg {x : ChonkerInt} (h : repOk x ∨ posNorm x)
    (hs : x.sign = BigIntSign.Positive) : 0 ≤ valC x := by
  rw [valC_eq_pos hs]
  exact digitsVal_nonneg (good_digOk h)

theorem cmpC_val {x y : ChonkerInt} (hx : repOk x ∨ posNorm x)
    (hy : repOk y ∨ posNorm y) :
    cmpC x y = compare (valC x) (valC y) := by
  unfold cmpC
  split
  case isTrue h1 =>
    rw [Bool.or_eq_true, Bool.and_eq_true, Bool.and_eq_true] at h1
    have hx0 : valC x = 0 := by
      rcases h1 with ⟨he1, _⟩ | ⟨hs1, _⟩
      · exact good_val_empty hx (List.isEmpty_iff.mp he1)
      · exact valC_eq_zero (by simpa using hs1)
    have hy0 : valC y = 0 := by
      rcases h1 with ⟨_, he2⟩ | ⟨_, hs2⟩
      · exact good_val_empty hy (List.isEmpty_iff.mp he2)
      · exact valC_eq_zero (by simpa using hs2)
    rw [hx0, hy0]
    exact (compare_eq_iff_eq.mpr rfl).symm
  case isFalse h1 =>
    rw [Bool.or_eq_true, Bool.and_eq_true, Bool.and_eq_true, not_or] at h1
    obtain ⟨hne, hnz⟩ := h1
    rw [not_and_or] at hne
    rw [not_and_or] at hnz
    by_cases hss : x.sign = y.sign
    · rw [if_pos hss]
      rcases hsx : x.sign with _ | _ | _
      · have hsy : y.sign = BigIntSign.Positive := by rw [← hss, hsx]
        rw [valC_eq_pos hsx, valC_eq_pos hsy]
        show ordDet BigIntSign.Positive x.digits y.digits = _
        exact ordDet_val_pos (good_digOk hx) (good_digOk hy) (good_top hx) (good_top hy)
      · have hsy : y.sign = BigIntSign.Zero := by rw [← hss, hsx]
        rcases hnz with h | h
        · exact absurd (by rw [hsx]; rfl) h
        · exact absurd (by rw [hsy]; rfl) h
      · have hsy : y.sign = BigIntSign.Negative := by rw [← hss, hsx]
        rw [valC_eq_neg hsx, valC_eq_neg hsy]
        show ordDet BigIntSign.Negative x.digits y.digits = _
        exact ordDet_val_neg (good_digOk hx) (good_digOk hy) (good_top hx) (good_top hy)
    · rw [if_neg hss]
      rcases hsx : x.sign with _ | _ | _ <;> rcases hsy : y.sign with _ | _ | _
      · exact absurd (hsx.trans hsy.symm) hss
      · have hyd : y.digits = [] := good_zero_sign hy hsy
        have hxd : x.digits ≠ [] := by
          rcases hne with h | h
          · intro hc
            exact h (by rw [hc]; rfl)
          · exact absurd (by rw [hyd]; rfl) h
        have hvx := good_val_pos hx hsx hxd
        have hvy := valC_eq_zero hsy
        show Ordering.gt = _
        exact (compare_gt_iff_gt.mpr (by omega)).symm
      · have hvx := good_val_nonneg hx hsx
        have hvy := valC_neg_of_repOk (good_not_neg hy hsy) hsy
        show Ordering.gt = _
        exact (compare_gt_iff_gt.mpr (by omega)).symm
      · have hxd : x.digits = [] := good_zero_sign hx hsx
        have hyd : y.digits ≠ [] := by
          rcases hne with h | h
          · exact absurd (by rw [hxd]; rfl) h
          · intro hc
            exact h (by rw [hc]; rfl)
        have hvy := good_val_pos hy hsy hyd
        have hvx := valC_eq_zero hsx
        show Ordering.lt = _
        exact (compare_lt_iff_lt.mpr (by omega)).symm
      · exact absurd (hsx.trans hsy.symm) hss
      · have hvx := valC_eq_zero hsx
        have hvy := valC_neg_of_repOk (good_not_neg hy hsy) hsy
        show Ordering.gt = _
        exact (compare_gt_iff_gt.mpr (by omega)).symm
      · have hvx := valC_neg_of_repOk (good_not_neg hx hsx) hsx
        have hvy := good_val_nonneg hy hsy
        show Ordering.lt = _
        exact (compare_lt_iff_lt.mpr (by omega)).symm
      · have hvx := valC_neg_of_repOk (good_not_neg hx hsx) hsx
        have hvy := valC_eq_zero hsy
        show Ordering.lt = _
        exact (compare_lt_iff_lt.mpr (by omega)).symm
      · exact absurd (hsx.trans hsy.symm) hss

theorem ordering_beq_iff (o o2 : Ordering) : ((o == o2) = true) ↔ o = o2 := by
  cases o <;> cases o2 <;> decide

theorem ordering_bne_gt (o : Ordering) : ((o != Ordering.gt) = true) ↔ o ≠ Ordering.gt := by
  cases o <;> decide

theorem ordering_bne_lt (o : Ordering) : ((o != Ordering.lt) = true) ↔ o ≠ Ordering.lt := by
  cases o <;> decide

theorem ltC_val {x y : ChonkerInt} (hx : repOk x ∨ posNorm x)
    (hy : repOk y ∨ posNorm y) : ltC x y = true ↔ valC x < valC y := by
  rw [ltC, cmpC_val hx hy, ordering_beq_iff]
  exact compare_lt_iff_lt

theorem gtC_val {x y : ChonkerInt} (hx : repOk x ∨ posNorm x)
    (hy : repOk y ∨ posNorm y) : gtC x y = true ↔ valC y < valC x := by
  rw [gtC, cmpC_val hx hy, ordering_beq_iff]
  exact compare_gt_iff_gt

theorem leC_val {x y : ChonkerInt} (hx : repOk x ∨ posNorm x)
    (hy : repOk y ∨ posNorm y) : leC x y = true ↔ valC x ≤ valC y := by
  rw [leC, cmpC_val hx hy, ordering_bne_gt]
  exact compare_le_iff_le

theorem geC_val {x y : ChonkerInt} (hx : repOk x ∨ posNorm x)
    (hy : repOk y ∨ posNorm y) : geC x y = true ↔ valC y ≤ valC x := by
  rw [geC, cmpC_val hx hy, ordering_bne_lt]
  exact compare_ge_iff_ge

theorem cmpC_eq_iff {x y : ChonkerInt} (hx : repOk x ∨ posNorm x)
    (hy : repOk y ∨ posNorm y) : cmpC x y = Ordering.eq ↔ valC x = valC y := by
  rw [cmpC_val hx hy]
  exact compare_eq_iff_eq

/-! Addition and subtraction digit loops: value, digit-range and length
characterizations. -/

theorem clip_overflow (s : Int) (h0 : 0 ≤ s) (h1 : s ≤ 19) :
    0 ≤ clipD s ∧ clipD s ≤ 9 ∧ (overflowD s = 0 ∨ overflowD s = 1) ∧
      clipD s + 10 * overflowD s = s := by
  have e1 : clipD s = s % 10 := rfl
  have e2 : overflowD s = (s - s % 10) / 10 := rfl
  rw [e1, e2]
  omega

theorem topNonzero_of_ge {l : List Int} (h : digOk l) (hne : l ≠ [])
    (hv : 10 ^ (l.length - 1) ≤ digitsVal l) : l.getLast? ≠ some 0 := by
  rcases List.eq_nil_or_concat l with rfl | ⟨l2, d, rfl⟩
  · exact absurd rfl hne
  · rw [List.concat_eq_append] at h hv ⊢
    rw [topNonzero_iff h]
    simpa using hv

theorem getLast?_cons_ne {d : Int} {l : List Int} (h : l ≠ []) :
    (d :: l).getLast? = l.getLast? := by
  rcases l with _ | ⟨e, t⟩
  · exact absurd rfl h
  · exact List.getLast?_cons_cons

theorem addTail_spec : ∀ (as1 : List Int) (c : Int), digOk as1 → (c = 0 ∨ c = 1) →
    digOk (addTail as1 c) ∧ digitsVal (addTail as1 c) = digitsVal as1 + c ∧
      ((addTail as1 c).length = as1.length ∨
        ((addTail as1 c).length = as1.length + 1 ∧
          (addTail as1 c).getLast? = some 1)) := by
  intro as1
  induction as1 with
  | nil =>
    intro c _ hc
    rcases hc with rfl | rfl
    · refine ⟨?_, ?_, Or.inl ?_⟩ <;> simp [addTail, digitsVal, digOk]
    · refine ⟨?_, ?_, Or.inr ⟨?_, ?_⟩⟩ <;> simp [addTail, digitsVal, digOk]
  | cons a as1 ih =>
    intro c hd hc
    obtain ⟨ha, has⟩ := digOk_cons.mp hd
    obtain ⟨h1, h2, h3, h4⟩ := clip_overflow (a + c) (by omega) (by omega)
    obtain ⟨ihd, ihv, ihl⟩ := ih (overflowD (a + c)) has h3
    have hun : addTail (a :: as1) c = clipD (a + c) :: addTail as1 (overflowD (a + c)) := rfl
    refine ⟨?_, ?_, ?_⟩
    · rw [hun]
      exact digOk_cons.mpr ⟨⟨h1, h2⟩, ihd⟩
    · rw [hun, digitsVal_cons, ihv, digitsVal_cons]
      nlinarith
    · rw [hun]
      rcases ihl with hl | ⟨hl, hg⟩
      · exact Or.inl (by simp [hl])
      · refine Or.inr ⟨by simp [hl], ?_⟩
        have hne : addTail as1 (overflowD (a + c)) ≠ [] := by
          intro hcon
          rw [hcon] at hl
          simp at hl
        rw [getLast?_cons_ne hne]
        exact hg

theorem addPair_spec : ∀ (bs as1 : List Int) (c : Int), digOk as1 → digOk bs →
    bs.length ≤ as1.length → (c = 0 ∨ c = 1) →
    digOk (addPair as1 bs c) ∧
      digitsVal (addPair as1 bs c) = digitsVal as1 + digitsVal bs + c ∧
      ((addPair as1 bs c).length = as1.length ∨
        ((addPair as1 bs c).length = as1.length + 1 ∧
          (addPair as1 bs c).getLast? = some 1)) := by
  intro bs
  induction bs with
  | nil =>
    intro as1 c ha _ _ hc
    obtain ⟨h1, h2, h3⟩ := addTail_spec as1 c ha hc
    have hun : addPair as1 [] c = addTail as1 c := by
      cases as1 <;> rfl
    rw [hun]
    refine ⟨h1, by rw [h2, digitsVal_nil]; ring, h3⟩
  | cons b bs ih =>
    intro as1 c ha hb hlen hc
    rcases as1 with _ | ⟨a, as1⟩
    · simp at hlen
    · obtain ⟨hba, hbs⟩ := digOk_cons.mp hb
      obtain ⟨haa, has⟩ := digOk_cons.mp ha
      obtain ⟨h1, h2, h3, h4⟩ := clip_overflow (a + b + c) (by omega) (by omega)
      obtain ⟨ihd, ihv, ihl⟩ := ih as1 (overflowD (a + b + c)) has hbs
        (by simpa using hlen) h3
      have hun : addPair (a :: as1) (b :: bs) c =
          clipD (a + b + c) :: addPair as1 bs (overflowD (a + b + c)) := rfl
      refine ⟨?_, ?_, ?_⟩
      · rw [hun]
        exact digOk_cons.mpr ⟨⟨h1, h2⟩, ihd⟩
      · rw [hun, digitsVal_cons, ihv, digitsVal_cons, digitsVal_cons]
        nlinarith
      · rw [hun]
        rcases ihl with hl | ⟨hl, hg⟩
        · exact Or.inl (by simp [hl])
        · refine Or.inr ⟨by simp [hl], ?_⟩
          have hne : addPair as1 bs (overflowD (a + b + c)) ≠ [] := by
            intro hcon
            rw [hcon] at hl
            simp at hl
          rw [getLast?_cons_ne hne]
          exact hg

theorem subTail_spec : ∀ (as1 : List Int) (brw : Int), digOk as1 → (brw = 0 ∨ brw = 1) →
    digOk (subTail as1 brw) ∧ (subTail as1 brw).length = as1.length ∧
      ∃ b2 : Int, (b2 = 0 ∨ b2 = 1) ∧
        digitsVal (subTail as1 brw) = digitsVal as1 - brw + 10 ^ as1.length * b2 ∧
        (brw ≤ digitsVal as1 → b2 = 0) := by
  intro as1
  induction as1 with
  | nil =>
    intro brw _ hb
    have hun : subTail [] brw = [] := rfl
    refine ⟨by rw [hun]; decide, by rw [hun], brw, hb, ?_, ?_⟩
    · rw [hun, digitsVal_nil]
      simp
    · intro h
      rw [digitsVal_nil] at h
      omega
  | cons a as1 ih =>
    intro brw hd hb
    obtain ⟨ha, has⟩ := digOk_cons.mp hd
    have hun : subTail (a :: as1) brw =
        if a - brw < 0 then (a - brw + 10) :: subTail as1 1
        else (a - brw) :: subTail as1 0 := rfl
    by_cases hlt : a - brw < 0
    · obtain ⟨ihd, ihl, b2, hb2, ihv, ihc⟩ := ih 1 has (Or.inr rfl)
      rw [hun, if_pos hlt]
      refine ⟨digOk_cons.mpr ⟨by omega, ihd⟩, by simp [ihl], b2, hb2, ?_, ?_⟩
      · rw [digitsVal_cons, ihv, digitsVal_cons, List.length_cons, pow_succ]
        ring
      · intro hcond
        rw [digitsVal_cons] at hcond
        have hV := digitsVal_nonneg has
        exact ihc (by omega)
    · obtain ⟨ihd, ihl, b2, hb2, ihv, ihc⟩ := ih 0 has (Or.inl rfl)
      have hb20 : b2 = 0 := ihc (digitsVal_nonneg has)
      rw [hun, if_neg hlt]
      refine ⟨digOk_cons.mpr ⟨by omega, ihd⟩, by simp [ihl], 0, Or.inl rfl, ?_,
        fun _ => rfl⟩
      rw [digitsVal_cons, ihv, hb20, digitsVal_cons]
      ring

theorem subPair_spec : ∀ (bs as1 : List Int) (brw : Int), digOk as1 → digOk bs →
    bs.length ≤ as1.length → (brw = 0 ∨ brw = 1) →
    digOk (subPair as1 bs brw) ∧ (subPair as1 bs brw).length = as1.length ∧
      ∃ b2 : Int, (b2 = 0 ∨ b2 = 1) ∧
        digitsVal (subPair as1 bs brw) =
          digitsVal as1 - digitsVal bs - brw + 10 ^ as1.length * b2 ∧
        (digitsVal bs + brw ≤ digitsVal as1 → b2 = 0) := by
  intro bs
  induction bs with
  | nil =>
    intro as1 brw ha _ _ hb
    obtain ⟨h1, h2, b2, hb2, hv, hc⟩ := subTail_spec as1 brw ha hb
    have hun : subPair as1 [] brw = subTail as1 brw := by
      cases as1 <;> rfl
    rw [hun]
    exact ⟨h1, h2, b2, hb2, by rw [hv, digitsVal_nil]; ring,
      fun h => hc (by rw [digitsVal_nil] at h; omega)⟩
  | cons b bs ih =>
    intro as1 brw ha hb hlen hbr
    rcases as1 with _ | ⟨a, as1⟩
    · simp at hlen
    · obtain ⟨hba, hbs⟩ := digOk_cons.mp hb
      obtain ⟨haa, has⟩ := digOk_cons.mp ha
      have hun : subPair (a :: as1) (b :: bs) brw =
          if a - b - brw < 0 then (a - b - brw + 10) :: subPair as1 bs 1
          else (a - b - brw) :: subPair as1 bs 0 := rfl
      by_cases hlt : a - b - brw < 0
      · obtain ⟨ihd, ihl, b2, hb2, ihv, ihc⟩ := ih as1 1 has hbs
          (by simpa using hlen) (Or.inr rfl)
        rw [hun, if_pos hlt]
        refine ⟨digOk_cons.mpr ⟨by omega, ihd⟩, by simp [ihl], b2, hb2, ?_, ?_⟩
        · rw [digitsVal_cons, ihv, digitsVal_cons, digitsVal_cons,
            List.length_cons, pow_succ]
          ring
        · intro hcond
          rw [digitsVal_cons, digitsVal_cons] at hcond
          exact ihc (by omega)
      · obtain ⟨ihd, ihl, b2, hb2, ihv, ihc⟩ := ih as1 0 has hbs
          (by simpa using hlen) (Or.inl rfl)
        rw [hun, if_neg hlt]
        refine ⟨digOk_cons.mpr ⟨by omega, ihd⟩, by simp [ihl], b2, hb2, ?_, ?_⟩
        · rw [digitsVal_cons, ihv, digitsVal_cons, digitsVal_cons,
            List.length_cons, pow_succ]
          ring
        · intro hcond
          rw [digitsVal_cons, digitsVal_cons] at hcond
          exact ihc (by omega)

/-! Correctness of Add and Sub on ChonkerInts. -/

theorem posNorm_mk {dl : List Int} (hd : digOk dl) (ht : dl.getLast? ≠ some 0) :
    posNorm { digits := dl, sign := BigIntSign.Positive } := by
  unfold posNorm
  simp [hd, ht]

theorem posNorm_of_repOk_pos {x : ChonkerInt} (h : repOk x)
    (hs : x.sign = BigIntSign.Positive) : posNorm x := by
  obtain ⟨hd, hc⟩ := repOk_parts h
  obtain ⟨_, ht⟩ := canonC_pos_arm hc (by rw [hs]; simp)
  unfold posNorm
  simp [hs, hd, ht]

theorem repOk_mk {dl : List Int} {sg : BigIntSign} (hd : digOk dl)
    (hne : dl ≠ []) (ht : dl.getLast? ≠ some 0) (hs : sg ≠ BigIntSign.Zero) :
    repOk { digits := dl, sign := sg } := by
  unfold repOk canonC
  rcases sg with _ | _ | _
  · simp [hd, hne, ht]
  · exact absurd rfl hs
  · simp [hd, hne, ht]

theorem repOk_of_posNorm {x : ChonkerInt} (h : posNorm x) (hne : x.digits ≠ []) :
    repOk x := by
  obtain ⟨hs, hd, ht⟩ := posNorm_parts h
  obtain ⟨dl, sg⟩ := x
  simp only at hs hd ht hne
  subst hs
  exact repOk_mk hd hne ht (by simp)

theorem posNorm_nonempty_of_val_pos {x : ChonkerInt} (h : posNorm x)
    (hv : 0 < valC x) : x.digits ≠ [] := by
  intro hc
  rw [good_val_empty (Or.inr h) hc] at hv
  omega

theorem negC_spec {x : ChonkerInt} (h : repOk x) :
    repOk (negC x) ∧ valC (negC x) = - valC x := by
  obtain ⟨hd, hc⟩ := repOk_parts h
  rcases hs : x.sign with _ | _ | _
  · obtain ⟨hne, ht⟩ := canonC_pos_arm hc (by rw [hs]; simp)
    have hun : negC x = { digits := x.digits, sign := BigIntSign.Negative } := by
      unfold negC
      rw [hs]
    rw [hun]
    refine ⟨repOk_mk hd hne ht (by simp), ?_⟩
    rw [valC_eq_neg rfl, valC_eq_pos hs]
  · have hun : negC x = newC := by
      unfold negC
      rw [hs]
    rw [hun, valC_newC, valC_eq_zero hs]
    exact ⟨repOk_newC, by ring⟩
  · obtain ⟨hne, ht⟩ := canonC_pos_arm hc (by rw [hs]; simp)
    have hun : negC x = { digits := x.digits, sign := BigIntSign.Positive } := by
      unfold negC
      rw [hs]
    rw [hun]
    refine ⟨repOk_mk hd hne ht (by simp), ?_⟩
    rw [valC_eq_pos rfl, valC_eq_neg hs]
    ring

theorem negC_posNorm {x : ChonkerInt} (h : repOk x)
    (hs : x.sign = BigIntSign.Negative) :
    negC x = { digits := x.digits, sign := BigIntSign.Positive } ∧
      posNorm { digits := x.digits, sign := BigIntSign.Positive } := by
  obtain ⟨hd, hc⟩ := repOk_parts h
  obtain ⟨hne, ht⟩ := canonC_pos_arm hc (by rw [hs]; simp)
  constructor
  · unfold negC
    rw [hs]
  · exact posNorm_mk hd ht

theorem len_le_of_val_le {x y : ChonkerInt} (hx : repOk x ∨ posNorm x)
    (hy : repOk y ∨ posNorm y) (hv : valC x ≤ valC y)
    (hsx : x.sign = BigIntSign.Positive) (hsy : y.sign = BigIntSign.Positive) :
    x.digits.length ≤ y.digits.length := by
  by_contra hlt
  have := digitsVal_lt_of_len (good_digOk hy) (good_digOk hx) (good_top hx)
    (by omega)
  rw [valC_eq_pos hsx, valC_eq_pos hsy] at hv
  omega

theorem valC_mk_pos (dl : List Int) :
    valC { digits := dl, sign := BigIntSign.Positive } = digitsVal dl := rfl

theorem valC_mk_neg (dl : List Int) :
    valC { digits := dl, sign := BigIntSign.Negative } = - digitsVal dl := rfl

theorem addPair_top {as1 bs : List Int} (ha : digOk as1) (hb : digOk bs)
    (hlen : bs.length ≤ as1.length) (hta : as1.getLast? ≠ some 0) :
    (addPair as1 bs 0).getLast? ≠ some 0 := by
  obtain ⟨had, hav, hal⟩ := addPair_spec bs as1 0 ha hb hlen (Or.inl rfl)
  rcases hal with hl | ⟨hl, hg⟩
  · by_cases hnil : addPair as1 bs 0 = []
    · rw [hnil]
      simp
    · apply topNonzero_of_ge had hnil
      have hne : as1 ≠ [] := by
        intro hc
        apply hnil
        have hlz : (addPair as1 bs 0).length = 0 := by
          rw [hl, hc]
          rfl
        exact List.length_eq_zero.mp hlz
      have hgey := digitsVal_ge_pow ha hne hta
      have hbx := digitsVal_nonneg hb
      rw [hl, hav]
      linarith
  · rw [hg]
    simp

theorem normalized_repOk {dl : List Int} {sg : BigIntSign} (hd : digOk dl)
    (hv : 0 < digitsVal dl) (hs : sg ≠ BigIntSign.Zero) :
    repOk { digits := normalizeDigits dl, sign := sg } ∧
      digitsVal (normalizeDigits dl) = digitsVal dl := by
  have hdn := normalizeDigits_digOk hd
  have hne : normalizeDigits dl ≠ [] := by
    intro hc
    rw [normalizeDigits_nil_iff hd] at hc
    omega
  exact ⟨repOk_mk hdn hne normalizeDigits_getLast hs, normalizeDigits_val dl⟩

theorem addFuel_pos (f : Nat) (x y : ChonkerInt) (hx : posNorm x) (hy : posNorm y) :
    posNorm (addFuel (f + 1) x y) ∧
      valC (addFuel (f + 1) x y) = valC x + valC y := by
  obtain ⟨hsx, hdx, htx⟩ := posNorm_parts hx
  obtain ⟨hsy, hdy, hty⟩ := posNorm_parts hy
  have hun : addFuel (f + 1) x y =
      { digits :=
          if cmpC x y != Ordering.lt then addPair x.digits y.digits 0
          else addPair y.digits x.digits 0,
        sign := BigIntSign.Positive } := by
    rw [show addFuel (f + 1) x y = (if x.sign = BigIntSign.Zero then y
        else if y.sign = BigIntSign.Zero then x
        else if x.sign ≠ y.sign then
          (if x.sign = BigIntSign.Positive then subFuel f x (negC y)
           else subFuel f y (negC x))
        else if x.sign = BigIntSign.Negative then negC (addFuel f (negC x) (negC y))
        else { digits :=
                 if cmpC x y != Ordering.lt then addPair x.digits y.digits 0
                 else addPair y.digits x.digits 0,
               sign := BigIntSign.Positive }) from rfl, hsx, hsy]
    rw [if_neg (by decide), if_neg (by decide), if_neg (by decide), if_neg (by decide)]
  rw [hun]
  by_cases hvc : valC x < valC y
  · have hcm : cmpC x y = Ordering.lt := by
      rw [cmpC_val (Or.inr hx) (Or.inr hy)]
      exact compare_lt_iff_lt.mpr hvc
    rw [hcm, if_neg (by decide)]
    have hlen : x.digits.length ≤ y.digits.length :=
      len_le_of_val_le (Or.inr hx) (Or.inr hy) (le_of_lt hvc) hsx hsy
    obtain ⟨had, hav, _⟩ := addPair_spec x.digits y.digits 0 hdy hdx hlen (Or.inl rfl)
    refine ⟨posNorm_mk had (addPair_top hdy hdx hlen hty), ?_⟩
    rw [valC_mk_pos, hav, valC_eq_pos hsx, valC_eq_pos hsy]
    ring
  · have hcm : cmpC x y ≠ Ordering.lt := by
      rw [cmpC_val (Or.inr hx) (Or.inr hy)]
      exact compare_ge_iff_ge.mpr (by omega)
    have hbne : (cmpC x y != Ordering.lt) = true := (ordering_bne_lt _).mpr hcm
    rw [hbne, if_pos rfl]
    have hlen : y.digits.length ≤ x.digits.length :=
      len_le_of_val_le (Or.inr hy) (Or.inr hx) (by omega) hsy hsx
    obtain ⟨had, hav, _⟩ := addPair_spec y.digits x.digits 0 hdx hdy hlen (Or.inl rfl)
    refine ⟨posNorm_mk had (addPair_top hdx hdy hlen htx), ?_⟩
    rw [valC_mk_pos, hav, valC_eq_pos hsx, valC_eq_pos hsy]
    ring

theorem subFuel_pos (f : Nat) (x y : ChonkerInt) (hx : posNorm x) (hy : posNorm y) :
    repOk (subFuel (f + 1) x y) ∧
      valC (subFuel (f + 1) x y) = valC x - valC y := by
  obtain ⟨hsx, hdx, htx⟩ := posNorm_parts hx
  obtain ⟨hsy, hdy, hty⟩ := posNorm_parts hy
  have hun : subFuel (f + 1) x y =
      (match cmpC x y with
       | Ordering.lt =>
         normalizeC { digits := subPair y.digits x.digits 0, sign := BigIntSign.Negative }
       | Ordering.eq => newC
       | Ordering.gt =>
         normalizeC { digits := subPair x.digits y.digits 0, sign := BigIntSign.Positive }) := by
    rw [show subFuel (f + 1) x y = (if x.sign = BigIntSign.Zero ∧
          (y.sign = BigIntSign.Negative ∨ y.sign = BigIntSign.Positive) then negC y
        else if y.sign = BigIntSign.Zero then x
        else if x.sign ≠ y.sign then
          (if x.sign = BigIntSign.Positive then addFuel f x (negC y)
           else negC (addFuel f (negC x) y))
        else if x.sign = BigIntSign.Negative then negC (subFuel f (negC x) (negC y))
        else
          match cmpC x y with
          | Ordering.lt =>
            normalizeC { digits := subPair y.digits x.digits 0, sign := BigIntSign.Negative }
          | Ordering.eq => newC
          | Ordering.gt =>
            normalizeC { digits := subPair x.digits y.digits 0, sign := BigIntSign.Positive })
      from rfl, hsx, hsy]
    rw [if_neg (by decide), if_neg (by decide), if_neg (by decide), if_neg (by decide)]
  rw [hun]
  rcases lt_trichotomy (valC x) (valC y) with hvc | hvc | hvc
  · have hcm : cmpC x y = Ordering.lt := by
      rw [cmpC_val (Or.inr hx) (Or.inr hy)]
      exact compare_lt_iff_lt.mpr hvc
    rw [hcm]
    have hlen : x.digits.length ≤ y.digits.length :=
      len_le_of_val_le (Or.inr hx) (Or.inr hy) (le_of_lt hvc) hsx hsy
    obtain ⟨had, hal, b2, hb2, hav, hbc⟩ :=
      subPair_spec x.digits y.digits 0 hdy hdx hlen (Or.inl rfl)
    have hvxy : valC x = digitsVal x.digits := valC_eq_pos hsx
    have hvyy : valC y = digitsVal y.digits := valC_eq_pos hsy
    have hb20 : b2 = 0 := hbc (by omega)
    have hvv : digitsVal (subPair y.digits x.digits 0) =
        digitsVal y.digits - digitsVal x.digits := by
      rw [hav, hb20]
      ring
    have hpos : 0 < digitsVal (subPair y.digits x.digits 0) := by omega
    obtain ⟨hrep, hnv⟩ := normalized_repOk had hpos
      (show BigIntSign.Negative ≠ BigIntSign.Zero by decide)
    have hunn : normalizeC (ChonkerInt.mk (subPair y.digits x.digits 0) BigIntSign.Negative) = ChonkerInt.mk (normalizeDigits (subPair y.digits x.digits 0)) BigIntSign.Negative := rfl
    rw [hunn]
    refine ⟨hrep, ?_⟩
    rw [valC_mk_neg, hnv]
    omega
  · have hcm : cmpC x y = Ordering.eq := by
      rw [cmpC_val (Or.inr hx) (Or.inr hy)]
      exact compare_eq_iff_eq.mpr hvc
    rw [hcm]
    exact ⟨repOk_newC, by rw [valC_newC]; omega⟩
  · have hcm : cmpC x y = Ordering.gt := by
      rw [cmpC_val (Or.inr hx) (Or.inr hy)]
      exact compare_gt_iff_gt.mpr hvc
    rw [hcm]
    have hlen : y.digits.length ≤ x.digits.length :=
      len_le_of_val_le (Or.inr hy) (Or.inr hx) (le_of_lt hvc) hsy hsx
    obtain ⟨had, hal, b2, hb2, hav, hbc⟩ :=
      subPair_spec y.digits x.digits 0 hdx hdy hlen (Or.inl rfl)
    have hvxy : valC x = digitsVal x.digits := valC_eq_pos hsx
    have hvyy : valC y = digitsVal y.digits := valC_eq_pos hsy
    have hb20 : b2 = 0 := hbc (by omega)
    have hvv : digitsVal (subPair x.digits y.digits 0) =
        digitsVal x.digits - digitsVal y.digits := by
      rw [hav, hb20]
      ring
    have hpos : 0 < digitsVal (subPair x.digits y.digits 0) := by omega
    obtain ⟨hrep, hnv⟩ := normalized_repOk had hpos
      (show BigIntSign.Positive ≠ BigIntSign.Zero by decide)
    have hunn : normalizeC (ChonkerInt.mk (subPair x.digits y.digits 0) BigIntSign.Positive) = ChonkerInt.mk (normalizeDigits (subPair x.digits y.digits 0)) BigIntSign.Positive := rfl
    rw [hunn]
    refine ⟨hrep, ?_⟩
    rw [valC_mk_pos, hnv]
    omega

theorem addFuel_unfold (f : Nat) (x y : ChonkerInt) :
    addFuel (f + 1) x y =
      (if x.sign = BigIntSign.Zero then y
       else if y.sign = BigIntSign.Zero then x
       else if x.sign ≠ y.sign then
         (if x.sign = BigIntSign.Positive then subFuel f x (negC y)
          else subFuel f y (negC x))
       else if x.sign = BigIntSign.Negative then negC (addFuel f (negC x) (negC y))
       else { digits := if cmpC x y != Ordering.lt then addPair x.digits y.digits 0
                        else addPair y.digits x.digits 0,
              sign := BigIntSign.Positive }) := rfl

theorem subFuel_unfold (f : Nat) (x y : ChonkerInt) :
    subFuel (f + 1) x y =
      (if x.sign = BigIntSign.Zero ∧
          (y.sign = BigIntSign.Negative ∨ y.sign = BigIntSign.Positive) then negC y
       else if y.sign = BigIntSign.Zero then x
       else if x.sign ≠ y.sign then
         (if x.sign = BigIntSign.Positive then addFuel f x (negC y)
          else negC (addFuel f (negC x) y))
       else if x.sign = BigIntSign.Negative then negC (subFuel f (negC x) (negC y))
       else
         match cmpC x y with
         | Ordering.lt =>
           normalizeC { digits := subPair y.digits x.digits 0, sign := BigIntSign.Negative }
         | Ordering.eq => newC
         | Ordering.gt =>
           normalizeC { digits := subPair x.digits y.digits 0, sign := BigIntSign.Positive }) := rfl

theorem addC_spec (x y : ChonkerInt) (hx : repOk x) (hy : repOk y) :
    repOk (addC x y) ∧ valC (addC x y) = valC x + valC y := by
  have he : addC x y = addFuel (2 + 1) x y := rfl
  rcases hsx : x.sign with _ | _ | _ <;> rcases hsy : y.sign with _ | _ | _
  · -- positive, positive
    have hpx := posNorm_of_repOk_pos hx hsx
    have hpy := posNorm_of_repOk_pos hy hsy
    obtain ⟨hpn, hv⟩ := addFuel_pos 2 x y hpx hpy
    have hpn2 : posNorm (addC x y) := hpn
    have hv2 : valC (addC x y) = valC x + valC y := hv
    have hvx := valC_pos_of_repOk hx hsx
    have hvy := valC_pos_of_repOk hy hsy
    refine ⟨repOk_of_posNorm hpn2 ?_, hv2⟩
    exact posNorm_nonempty_of_val_pos hpn2 (by omega)
  · -- positive, zero
    rw [he, addFuel_unfold, hsx, hsy,
      if_neg (by decide), if_pos rfl]
    exact ⟨hx, by rw [valC_eq_zero hsy]; ring⟩
  · -- positive, negative
    rw [he, addFuel_unfold, hsx, hsy, if_neg (by decide), if_neg (by decide),
      if_pos (by decide), if_pos rfl]
    obtain ⟨hne, hpn⟩ := negC_posNorm hy hsy
    rw [hne]
    have hpx := posNorm_of_repOk_pos hx hsx
    obtain ⟨hr, hv⟩ := subFuel_pos 1 x (ChonkerInt.mk y.digits BigIntSign.Positive) hpx hpn
    have hr2 : repOk (subFuel 2 x (ChonkerInt.mk y.digits BigIntSign.Positive)) := hr
    have hv2 : valC (subFuel 2 x (ChonkerInt.mk y.digits BigIntSign.Positive)) =
        valC x - valC (ChonkerInt.mk y.digits BigIntSign.Positive) := hv
    refine ⟨hr2, ?_⟩
    rw [hv2, valC_eq_neg hsy, valC_mk_pos]
    ring
  · -- zero, positive
    rw [he, addFuel_unfold, hsx, if_pos rfl]
    exact ⟨hy, by rw [valC_eq_zero hsx]; ring⟩
  · -- zero, zero
    rw [he, addFuel_unfold, hsx, if_pos rfl]
    exact ⟨hy, by rw [valC_eq_zero hsx]; ring⟩
  · -- zero, negative
    rw [he, addFuel_unfold, hsx, if_pos rfl]
    exact ⟨hy, by rw [valC_eq_zero hsx]; ring⟩
  · -- negative, positive
    rw [he, addFuel_unfold, hsx, hsy, if_neg (by decide), if_neg (by decide),
      if_pos (by decide), if_neg (by decide)]
    obtain ⟨hne, hpn⟩ := negC_posNorm hx hsx
    rw [hne]
    have hpy := posNorm_of_repOk_pos hy hsy
    obtain ⟨hr, hv⟩ := subFuel_pos 1 y (ChonkerInt.mk x.digits BigIntSign.Positive) hpy hpn
    have hr2 : repOk (subFuel 2 y (ChonkerInt.mk x.digits BigIntSign.Positive)) := hr
    have hv2 : valC (subFuel 2 y (ChonkerInt.mk x.digits BigIntSign.Positive)) =
        valC y - valC (ChonkerInt.mk x.digits BigIntSign.Positive) := hv
    refine ⟨hr2, ?_⟩
    rw [hv2, valC_eq_neg hsx, valC_mk_pos]
    ring
  · -- negative, zero
    rw [he, addFuel_unfold, hsx, hsy,
      if_neg (by decide), if_pos rfl]
    exact ⟨hx, by rw [valC_eq_zero hsy]; ring⟩
  · -- negative, negative
    rw [he, addFuel_unfold, hsx, hsy, if_neg (by decide), if_neg (by decide),
      if_neg (by decide), if_pos rfl]
    obtain ⟨hnex, hpnx⟩ := negC_posNorm hx hsx
    obtain ⟨hney, hpny⟩ := negC_posNorm hy hsy
    rw [hnex, hney]
    obtain ⟨hpn, hv⟩ := addFuel_pos 1 (ChonkerInt.mk x.digits BigIntSign.Positive)
      (ChonkerInt.mk y.digits BigIntSign.Positive) hpnx hpny
    have hpn2 : posNorm (addFuel 2 (ChonkerInt.mk x.digits BigIntSign.Positive)
        (ChonkerInt.mk y.digits BigIntSign.Positive)) := hpn
    have hv2 : valC (addFuel 2 (ChonkerInt.mk x.digits BigIntSign.Positive)
        (ChonkerInt.mk y.digits BigIntSign.Positive)) =
        valC (ChonkerInt.mk x.digits BigIntSign.Positive) +
          valC (ChonkerInt.mk y.digits BigIntSign.Positive) := hv
    have hvx : valC x < 0 := valC_neg_of_repOk hx hsx
    have hvy : valC y < 0 := valC_neg_of_repOk hy hsy
    have hvx2 : valC x = - digitsVal x.digits := valC_eq_neg hsx
    have hvy2 : valC y = - digitsVal y.digits := valC_eq_neg hsy
    rw [valC_mk_pos, valC_mk_pos] at hv2
    have hinner : repOk (addFuel 2 (ChonkerInt.mk x.digits BigIntSign.Positive)
        (ChonkerInt.mk y.digits BigIntSign.Positive)) := by
      refine repOk_of_posNorm hpn2 (posNorm_nonempty_of_val_pos hpn2 ?_)
      rw [hv2]
      omega
    obtain ⟨hrn, hvn⟩ := negC_spec hinner
    refine ⟨hrn, ?_⟩
    rw [hvn, hv2]
    omega

theorem subC_spec (x y : ChonkerInt) (hx : repOk x) (hy : repOk y) :
    repOk (subC x y) ∧ valC (subC x y) = valC x - valC y := by
  have he : subC x y = subFuel (2 + 1) x y := rfl
  rcases hsx : x.sign with _ | _ | _ <;> rcases hsy : y.sign with _ | _ | _
  · -- positive, positive
    have hpx := posNorm_of_repOk_pos hx hsx
    have hpy := posNorm_of_repOk_pos hy hsy
    obtain ⟨hr, hv⟩ := subFuel_pos 2 x y hpx hpy
    exact ⟨hr, hv⟩
  · -- positive, zero
    rw [he, subFuel_unfold, hsx, hsy, if_neg (by decide), if_pos rfl]
    exact ⟨hx, by rw [valC_eq_zero hsy]; ring⟩
  · -- positive, negative
    rw [he, subFuel_unfold, hsx, hsy, if_neg (by decide), if_neg (by decide),
      if_pos (by decide), if_pos rfl]
    obtain ⟨hne, hpn⟩ := negC_posNorm hy hsy
    rw [hne]
    have hpx := posNorm_of_repOk_pos hx hsx
    obtain ⟨hpn2, hv⟩ := addFuel_pos 1 x (ChonkerInt.mk y.digits BigIntSign.Positive) hpx hpn
    have hpn3 : posNorm (addFuel 2 x (ChonkerInt.mk y.digits BigIntSign.Positive)) := hpn2
    have hv2 : valC (addFuel 2 x (ChonkerInt.mk y.digits BigIntSign.Positive)) =
        valC x + valC (ChonkerInt.mk y.digits BigIntSign.Positive) := hv
    rw [valC_mk_pos] at hv2
    have hvx := valC_pos_of_repOk hx hsx
    have hdy : 0 ≤ digitsVal y.digits := digitsVal_nonneg (repOk_parts hy).1
    have hrep : repOk (addFuel 2 x (ChonkerInt.mk y.digits BigIntSign.Positive)) := by
      refine repOk_of_posNorm hpn3 (posNorm_nonempty_of_val_pos hpn3 ?_)
      rw [hv2]
      omega
    refine ⟨hrep, ?_⟩
    rw [hv2, valC_eq_neg hsy]
    ring
  · -- zero, positive
    rw [he, subFuel_unfold, hsx, hsy, if_pos ⟨rfl, Or.inr rfl⟩]
    obtain ⟨hr, hv⟩ := negC_spec hy
    refine ⟨hr, ?_⟩
    rw [hv, valC_eq_zero hsx]
    ring
  · -- zero, zero
    rw [he, subFuel_unfold, hsx, hsy, if_neg (by simp), if_pos rfl]
    exact ⟨hx, by rw [valC_eq_zero hsx, valC_eq_zero hsy]; ring⟩
  · -- zero, negative
    rw [he, subFuel_unfold, hsx, hsy, if_pos ⟨rfl, Or.inl rfl⟩]
    obtain ⟨hr, hv⟩ := negC_spec hy
    refine ⟨hr, ?_⟩
    rw [hv, valC_eq_zero hsx]
    ring
  · -- negative, positive
    rw [he, subFuel_unfold, hsx, hsy, if_neg (by simp), if_neg (by decide),
      if_pos (by decide), if_neg (by decide)]
    obtain ⟨hne, hpn⟩ := negC_posNorm hx hsx
    rw [hne]
    have hpy := posNorm_of_repOk_pos hy hsy
    obtain ⟨hpn2, hv⟩ := addFuel_pos 1 (ChonkerInt.mk x.digits BigIntSign.Positive) y hpn hpy
    have hpn3 : posNorm (addFuel 2 (ChonkerInt.mk x.digits BigIntSign.Positive) y) := hpn2
    have hv2 : valC (addFuel 2 (ChonkerInt.mk x.digits BigIntSign.Positive) y) =
        valC (ChonkerInt.mk x.digits BigIntSign.Positive) + valC y := hv
    rw [valC_mk_pos] at hv2
    have hvy := valC_pos_of_repOk hy hsy
    have hdx : 0 ≤ digitsVal x.digits := digitsVal_nonneg (repOk_parts hx).1
    have hrep : repOk (addFuel 2 (ChonkerInt.mk x.digits BigIntSign.Positive) y) := by
      refine repOk_of_posNorm hpn3 (posNorm_nonempty_of_val_pos hpn3 ?_)
      rw [hv2]
      omega
    obtain ⟨hrn, hvn⟩ := negC_spec hrep
    refine ⟨hrn, ?_⟩
    rw [hvn, hv2, valC_eq_neg hsx]
    ring
  · -- negative, zero
    rw [he, subFuel_unfold, hsx, hsy, if_neg (by decide), if_pos rfl]
    exact ⟨hx, by rw [valC_eq_zero hsy]; ring⟩
  · -- negative, negative
    rw [he, subFuel_unfold, hsx, hsy, if_neg (by simp), if_neg (by decide),
      if_neg (by decide), if_pos rfl]
    obtain ⟨hnex, hpnx⟩ := negC_posNorm hx hsx
    obtain ⟨hney, hpny⟩ := negC_posNorm hy hsy
    rw [hnex, hney]
    obtain ⟨hr, hv⟩ := subFuel_pos 1 (ChonkerInt.mk x.digits BigIntSign.Positive)
      (ChonkerInt.mk y.digits BigIntSign.Positive) hpnx hpny
    have hr2 : repOk (subFuel 2 (ChonkerInt.mk x.digits BigIntSign.Positive)
        (ChonkerInt.mk y.digits BigIntSign.Positive)) := hr
    have hv2 : valC (subFuel 2 (ChonkerInt.mk x.digits BigIntSign.Positive)
        (ChonkerInt.mk y.digits BigIntSign.Positive)) =
        valC (ChonkerInt.mk x.digits BigIntSign.Positive) -
          valC (ChonkerInt.mk y.digits BigIntSign.Positive) := hv
    rw [valC_mk_pos, valC_mk_pos] at hv2
    obtain ⟨hrn, hvn⟩ := negC_spec hr2
    refine ⟨hrn, ?_⟩
    rw [hvn, hv2, valC_eq_neg hsx, valC_eq_neg hsy]
    ring

/-! Multiplication digit loops. -/

theorem clip_overflow89 (s : Int) (h0 : 0 ≤ s) (h1 : s ≤ 89) :
    0 ≤ clipD s ∧ clipD s ≤ 9 ∧ 0 ≤ overflowD s ∧ overflowD s ≤ 8 ∧
      clipD s + 10 * overflowD s = s := by
  have e1 : clipD s = s % 10 := rfl
  have e2 : overflowD s = (s - s % 10) / 10 := rfl
  rw [e1, e2]
  omega

theorem digitsVal_replicate_zero (k : Nat) : digitsVal (List.replicate k 0) = 0 := by
  induction k with
  | zero => rfl
  | succ k ih =>
    rw [List.replicate_succ, digitsVal_cons, ih]
    ring

theorem digOk_replicate_zero (k : Nat) : digOk (List.replicate k 0) := by
  rw [digOk_iff]
  intro d hd
  rw [List.eq_of_mem_replicate hd]
  omega

theorem mulPartDigits_spec : ∀ (as1 : List Int) (d c : Int), digOk as1 →
    0 ≤ d → d ≤ 9 → 0 ≤ c → c ≤ 8 →
    digOk (mulPartDigits as1 d c) ∧
      digitsVal (mulPartDigits as1 d c) = digitsVal as1 * d + c ∧
      ((mulPartDigits as1 d c).length = as1.length ∨
        ((mulPartDigits as1 d c).length = as1.length + 1 ∧
          ∃ t : Int, (mulPartDigits as1 d c).getLast? = some t ∧ 1 ≤ t ∧ t ≤ 8)) := by
  intro as1
  induction as1 with
  | nil =>
    intro d c _ _ _ hc0 hc1
    by_cases hc : 0 < c
    · have hun : mulPartDigits [] d c = [c] := by
        rw [show mulPartDigits [] d c = if 0 < c then [c] else [] from rfl, if_pos hc]
      rw [hun]
      refine ⟨by rw [digOk_iff]; intro e he; simp at he; omega,
        by rw [digitsVal_one, digitsVal_nil]; ring,
        Or.inr ⟨rfl, c, rfl, by omega, hc1⟩⟩
    · have hc2 : c = 0 := by omega
      subst hc2
      have hun : mulPartDigits [] d 0 = [] := by
        rw [show mulPartDigits [] d 0 = if (0:Int) < 0 then [0] else [] from rfl,
          if_neg (by omega)]
      rw [hun]
      exact ⟨by decide, by rw [digitsVal_nil]; ring, Or.inl rfl⟩
  | cons a as1 ih =>
    intro d c hdig hd0 hd1 hc0 hc1
    obtain ⟨ha, has⟩ := digOk_cons.mp hdig
    obtain ⟨h1, h2, h3, h4, h5⟩ := clip_overflow89 (a * d + c) (by nlinarith) (by nlinarith)
    obtain ⟨ihd, ihv, ihl⟩ := ih d (overflowD (a * d + c)) has hd0 hd1 h3 h4
    have hun : mulPartDigits (a :: as1) d c =
        clipD (a * d + c) :: mulPartDigits as1 d (overflowD (a * d + c)) := rfl
    refine ⟨by rw [hun]; exact digOk_cons.mpr ⟨⟨h1, h2⟩, ihd⟩, ?_, ?_⟩
    · rw [hun, digitsVal_cons, ihv, digitsVal_cons]
      nlinarith
    · rw [hun]
      rcases ihl with hl | ⟨hl, t, hg, ht1, ht2⟩
      · exact Or.inl (by simp [hl])
      · refine Or.inr ⟨by simp [hl], t, ?_, ht1, ht2⟩
        have hne : mulPartDigits as1 d (overflowD (a * d + c)) ≠ [] := by
          intro hcon
          rw [hcon] at hl
          simp at hl
        rw [getLast?_cons_ne hne]
        exact hg

theorem cmpC_pos_len_lt {x y : ChonkerInt} (hsx : x.sign = BigIntSign.Positive)
    (hsy : y.sign = BigIntSign.Positive) (hlen : x.digits.length < y.digits.length) :
    cmpC x y = Ordering.lt := by
  have hyne : y.digits ≠ [] := by
    intro h
    rw [h] at hlen
    simp at hlen
  unfold cmpC
  rw [if_neg ?hc]
  case hc =>
    rw [Bool.or_eq_true, Bool.and_eq_true, Bool.and_eq_true]
    intro h
    rcases h with ⟨_, h2⟩ | ⟨h1, _⟩
    · exact hyne (List.isEmpty_iff.mp h2)
    · rw [hsx] at h1
      simp at h1
  rw [if_pos (hsx.trans hsy.symm), hsx]
  show ordDet BigIntSign.Positive x.digits y.digits = Ordering.lt
  have hstep : ∀ o : Ordering, compare x.digits.length y.digits.length = o →
      ordDet BigIntSign.Positive x.digits y.digits =
        (match o with
         | Ordering.lt => Ordering.lt
         | Ordering.gt => Ordering.gt
         | Ordering.eq => cmpBE x.digits.reverse y.digits.reverse) := by
    intro o ho
    simp [ordDet, ho]
  rw [hstep Ordering.lt (compare_lt_iff_lt.mpr hlen)]

theorem cmpC_pos_len_gt {x y : ChonkerInt} (hsx : x.sign = BigIntSign.Positive)
    (hsy : y.sign = BigIntSign.Positive) (hlen : y.digits.length < x.digits.length) :
    cmpC x y = Ordering.gt := by
  have hxne : x.digits ≠ [] := by
    intro h
    rw [h] at hlen
    simp at hlen
  unfold cmpC
  rw [if_neg ?hc]
  case hc =>
    rw [Bool.or_eq_true, Bool.and_eq_true, Bool.and_eq_true]
    intro h
    rcases h with ⟨h2, _⟩ | ⟨h1, _⟩
    · exact hxne (List.isEmpty_iff.mp h2)
    · rw [hsx] at h1
      simp at h1
  rw [if_pos (hsx.trans hsy.symm), hsx]
  show ordDet BigIntSign.Positive x.digits y.digits = Ordering.gt
  have hstep : ∀ o : Ordering, compare x.digits.length y.digits.length = o →
      ordDet BigIntSign.Positive x.digits y.digits =
        (match o with
         | Ordering.lt => Ordering.lt
         | Ordering.gt => Ordering.gt
         | Ordering.eq => cmpBE x.digits.reverse y.digits.reverse) := by
    intro o ho
    simp [ordDet, ho]
  rw [hstep Ordering.gt (compare_gt_iff_gt.mpr hlen)]

theorem addFuel_posval (f : Nat) (x y : ChonkerInt)
    (hsx : x.sign = BigIntSign.Positive) (hsy : y.sign = BigIntSign.Positive)
    (hdx : digOk x.digits) (hdy : digOk y.digits) :
    (addFuel (f + 1) x y).sign = BigIntSign.Positive ∧
      digOk (addFuel (f + 1) x y).digits ∧
      digitsVal (addFuel (f + 1) x y).digits = digitsVal x.digits + digitsVal y.digits ∧
      ∃ D : Nat, (D = x.digits.length ∨ D = y.digits.length) ∧
        x.digits.length ≤ D ∧ y.digits.length ≤ D ∧
        ((addFuel (f + 1) x y).digits.length = D ∨
          ((addFuel (f + 1) x y).digits.length = D + 1 ∧
            (addFuel (f + 1) x y).digits.getLast? = some 1)) := by
  have hun : addFuel (f + 1) x y =
      { digits :=
          if cmpC x y != Ordering.lt then addPair x.digits y.digits 0
          else addPair y.digits x.digits 0,
        sign := BigIntSign.Positive } := by
    rw [addFuel_unfold, hsx, hsy]
    rw [if_neg (by decide), if_neg (by decide), if_neg (by decide), if_neg (by decide)]
  rcases Nat.lt_trichotomy x.digits.length y.digits.length with hlt | heq | hgt
  · have hcm : cmpC x y = Ordering.lt := cmpC_pos_len_lt hsx hsy hlt
    rw [hun, hcm, if_neg (by decide)]
    obtain ⟨h1, h2, h3⟩ := addPair_spec x.digits y.digits 0 hdy hdx (le_of_lt hlt)
      (Or.inl rfl)
    refine ⟨rfl, h1, by rw [h2]; ring, y.digits.length, Or.inr rfl, by omega, le_refl _, h3⟩
  · by_cases hb : (cmpC x y != Ordering.lt) = true
    · rw [hun, hb, if_pos rfl]
      obtain ⟨h1, h2, h3⟩ := addPair_spec y.digits x.digits 0 hdx hdy (by omega)
        (Or.inl rfl)
      refine ⟨rfl, h1, by rw [h2]; ring, x.digits.length, Or.inl rfl, le_refl _,
        by omega, h3⟩
    · rw [hun, if_neg hb]
      obtain ⟨h1, h2, h3⟩ := addPair_spec x.digits y.digits 0 hdy hdx (by omega)
        (Or.inl rfl)
      refine ⟨rfl, h1, by rw [h2]; ring, y.digits.length, Or.inr rfl, by omega,
        le_refl _, h3⟩
  · have hcm : cmpC x y = Ordering.gt := cmpC_pos_len_gt hsx hsy hgt
    rw [hun, hcm]
    rw [show ((Ordering.gt != Ordering.lt) = true) from rfl, if_pos rfl]
    obtain ⟨h1, h2, h3⟩ := addPair_spec y.digits x.digits 0 hdx hdy (le_of_lt hgt)
      (Or.inl rfl)
    refine ⟨rfl, h1, by rw [h2]; ring, x.digits.length, Or.inl rfl, le_refl _,
      by omega, h3⟩

set_option maxHeartbeats 1000000 in
theorem mulLoop_inv (selfD : List Int) (hds : digOk selfD) (hne : selfD ≠ [])
    (htop : selfD.getLast? ≠ some 0) :
    ∀ (ds : List Int) (shift : Nat) (acc : ChonkerInt), digOk ds →
      acc.sign = BigIntSign.Positive → digOk acc.digits →
      acc.digits.length ≤ selfD.length + shift →
      (mulLoop selfD ds shift acc).sign = BigIntSign.Positive ∧
        digOk (mulLoop selfD ds shift acc).digits ∧
        digitsVal (mulLoop selfD ds shift acc).digits =
          digitsVal acc.digits + digitsVal selfD * digitsVal ds * 10 ^ shift ∧
        (mulLoop selfD ds shift acc).digits.length ≤ selfD.length + shift + ds.length ∧
        (ds ≠ [] → ds.getLast? ≠ some 0 →
          (mulLoop selfD ds shift acc).digits.getLast? ≠ some 0) := by
  intro ds
  induction ds with
  | nil =>
    intro shift acc _ hs hd hl
    have hun : mulLoop selfD [] shift acc = acc := rfl
    rw [hun]
    exact ⟨hs, hd, by rw [digitsVal_nil]; ring, by omega, fun h _ => absurd rfl h⟩
  | cons d ds ih =>
    intro shift acc hdok hs hd hl
    obtain ⟨hd09, hdsok⟩ := digOk_cons.mp hdok
    obtain ⟨hmd, hmv, hml⟩ := mulPartDigits_spec selfD d 0 hds hd09.1 hd09.2
      (le_refl 0) (by norm_num)
    have hVs1 := digitsVal_ge_pow hds hne htop
    have hVs2 := digitsVal_lt_pow hds
    have hVs0 := digitsVal_nonneg hds
    have hLs1 : 1 ≤ selfD.length := by
      rcases selfD with _ | _
      · exact absurd rfl hne
      · simp
    set P : ChonkerInt :=
      ChonkerInt.mk (List.replicate shift 0 ++ mulPartDigits selfD d 0)
        BigIntSign.Positive with hPdef
    have hPd : digOk P.digits := digOk_append.mpr ⟨digOk_replicate_zero shift, hmd⟩
    have hPv : digitsVal P.digits = 10 ^ shift * (digitsVal selfD * d) := by
      show digitsVal (List.replicate shift 0 ++ mulPartDigits selfD d 0) = _
      rw [digitsVal_append, digitsVal_replicate_zero, List.length_replicate, hmv]
      ring
    have hPlen : P.digits.length = shift + (mulPartDigits selfD d 0).length := by
      show (List.replicate shift 0 ++ mulPartDigits selfD d 0).length = _
      rw [List.length_append, List.length_replicate]
    have hPlen1 : selfD.length + shift ≤ P.digits.length := by
      rcases hml with h | ⟨h, _⟩ <;> omega
    have hPlen2 : P.digits.length ≤ selfD.length + shift + 1 := by
      rcases hml with h | ⟨h, _⟩ <;> omega
    have hVP : 1 ≤ d → 10 ^ (P.digits.length - 1) ≤ digitsVal P.digits := by
      intro hd1
      rcases hml with h | ⟨h, t, hg, ht1, _⟩
      · have : (10:Int) ^ (selfD.length - 1) * 1 ≤ digitsVal selfD * d := by
          apply mul_le_mul hVs1 hd1 (by norm_num) hVs0
        rw [hPv, hPlen, h]
        have he : shift + selfD.length - 1 = shift + (selfD.length - 1) := by omega
        rw [he, pow_add]
        nlinarith [pow_pos (show (0:Int) < 10 by norm_num) shift]
      · have hmne : mulPartDigits selfD d 0 ≠ [] := by
          intro hc
          rw [hc] at h
          simp at h
        have hPt : P.digits.getLast? = some t := by
          show (List.replicate shift 0 ++ mulPartDigits selfD d 0).getLast? = some t
          rw [List.getLast?_append_of_ne_nil _ hmne]
          exact hg
        have hPne : P.digits ≠ [] := by
          intro hc
          rw [hc] at hPt
          simp at hPt
        exact digitsVal_ge_pow hPd hPne (by rw [hPt]; intro hc; cases hc; omega)
    -- the accumulated sum
    obtain ⟨ha1, ha2, ha3, D, hD1, hD2, hD3, hD4⟩ :=
      addFuel_posval 2 acc P hs rfl hd hPd
    have hz1 : (addC acc P).sign = BigIntSign.Positive := ha1
    have hz2 : digOk (addC acc P).digits := ha2
    have hz3 : digitsVal (addC acc P).digits = digitsVal acc.digits + digitsVal P.digits := ha3
    have hz4 : ((addC acc P).digits.length = D ∨
        ((addC acc P).digits.length = D + 1 ∧ (addC acc P).digits.getLast? = some 1)) := hD4
    have hDb : D ≤ selfD.length + shift + 1 := by
      rcases hD1 with h | h <;> omega
    have hVacc := digitsVal_lt_pow hd
    have hVacc0 := digitsVal_nonneg hd
    have hpowmono : (10:Int) ^ acc.digits.length ≤ 10 ^ (selfD.length + shift) :=
      pow_le_pow_right₀ (by norm_num) hl
    have hVPub : digitsVal P.digits ≤ 9 * 10 ^ (selfD.length + shift) := by
      rw [hPv, pow_add]
      have hsd : digitsVal selfD * d ≤ 9 * 10 ^ selfD.length := by nlinarith [hd09.2]
      nlinarith [pow_pos (show (0:Int) < 10 by norm_num) shift]
    have hlen2 : (addC acc P).digits.length ≤ selfD.length + (shift + 1) := by
      rcases hz4 with h | ⟨h, hg⟩
      · omega
      · have hnn : (addC acc P).digits ≠ [] := by
          intro hc
          rw [hc] at h
          simp at h
        have hge := digitsVal_ge_pow hz2 hnn (by rw [hg]; intro hc; cases hc)
        rw [h, hz3] at hge
        simp only [Nat.add_sub_cancel] at hge
        by_contra hcon
        have hDge : selfD.length + shift + 1 ≤ D := by omega
        have hmono : (10:Int) ^ (selfD.length + shift + 1) ≤ 10 ^ D :=
          pow_le_pow_right₀ (by norm_num) hDge
        have hpw : (0:Int) < 10 ^ (selfD.length + shift) :=
          pow_pos (by norm_num) _
        rw [pow_succ] at hmono
        have hacc : digitsVal acc.digits < 10 ^ (selfD.length + shift) :=
          lt_of_lt_of_le hVacc hpowmono
        linarith
    have hunf : mulLoop selfD (d :: ds) shift acc =
        mulLoop selfD ds (shift + 1) (addC acc P) := rfl
    obtain ⟨ih1, ih2, ih3, ih4, ih5⟩ := ih (shift + 1) (addC acc P) hdsok hz1 hz2 hlen2
    rw [hunf]
    refine ⟨ih1, ih2, ?_, by have := ih4; simp only [List.length_cons]; omega, ?_⟩
    · rw [ih3, hz3, hPv, digitsVal_cons]
      ring
    · intro _ htop2
      rcases hdsnil : ds with _ | ⟨d2, ds2⟩
      · -- this addition was the final one
        have hfin : mulLoop selfD ([] : List Int) (shift + 1) (addC acc P) = addC acc P := rfl
        rw [hfin]
        have hd1 : 1 ≤ d := by
          rw [hdsnil] at htop2
          have : d ≠ 0 := by
            intro hc
            apply htop2
            rw [hc]
            rfl
          omega
        rcases hz4 with h | ⟨_, hg⟩
        · have hDeq : D = P.digits.length := by
            rcases hD1 with hD | hD <;> omega
          have hnn : (addC acc P).digits ≠ [] := by
            intro hc
            rw [hc] at h
            simp at h
            omega
          apply topNonzero_of_ge hz2 hnn
          rw [h, hDeq, hz3]
          have := hVP hd1
          omega
        · rw [hg]
          intro hc
          cases hc
      · have hdsne : ds ≠ [] := by rw [hdsnil]; intro hc; cases hc
        rw [← hdsnil]
        apply ih5 hdsne
        rw [getLast?_cons_ne hdsne] at htop2
        exact htop2

theorem fromIntC_one_eq : fromIntC 1 = ChonkerInt.mk [1] BigIntSign.Positive := by decide

theorem fromIntC_negone_eq : fromIntC (-1) = ChonkerInt.mk [1] BigIntSign.Negative := by
  decide

theorem repOk_build {r : ChonkerInt} (hs : r.sign ≠ BigIntSign.Zero)
    (hd : digOk r.digits) (hne : r.digits ≠ []) (ht : r.digits.getLast? ≠ some 0) :
    repOk r := by
  obtain ⟨dl, sg⟩ := r
  exact repOk_mk hd hne ht hs

theorem mulNegate_spec {y : ChonkerInt} (h : repOk y) (hs : y.sign ≠ BigIntSign.Zero) :
    repOk (mulNegate y) ∧ valC (mulNegate y) = - valC y := by
  obtain ⟨hd, hc⟩ := repOk_parts h
  obtain ⟨hne, ht⟩ := canonC_pos_arm hc hs
  rcases hsy : y.sign with _ | _ | _
  · have hun : mulNegate y = setNeg y := by
      unfold mulNegate
      rw [hsy]
    rw [hun]
    have hssy : (setNeg y).sign = BigIntSign.Negative := rfl
    refine ⟨repOk_build (by rw [hssy]; intro hcon; cases hcon) hd hne ht, ?_⟩
    rw [valC_eq_neg hssy, valC_eq_pos hsy]
    rfl
  · exact absurd hsy hs
  · have hun : mulNegate y = setPos y := by
      unfold mulNegate
      rw [hsy]
    rw [hun]
    have hssy : (setPos y).sign = BigIntSign.Positive := rfl
    refine ⟨repOk_build (by rw [hssy]; intro hcon; cases hcon) hd hne ht, ?_⟩
    rw [valC_eq_pos hssy, valC_eq_neg hsy]
    show digitsVal y.digits = - - digitsVal y.digits
    ring

theorem mulLoop_main {x y : ChonkerInt} (hx : repOk x) (hy : repOk y)
    (hsx : x.sign ≠ BigIntSign.Zero) (hsy : y.sign ≠ BigIntSign.Zero) :
    (mulLoop x.digits y.digits 0 newC).sign = BigIntSign.Positive ∧
      digOk (mulLoop x.digits y.digits 0 newC).digits ∧
      digitsVal (mulLoop x.digits y.digits 0 newC).digits =
        digitsVal x.digits * digitsVal y.digits ∧
      (mulLoop x.digits y.digits 0 newC).digits ≠ [] ∧
      (mulLoop x.digits y.digits 0 newC).digits.getLast? ≠ some 0 := by
  obtain ⟨hdx, hcx⟩ := repOk_parts hx
  obtain ⟨hdy, hcy⟩ := repOk_parts hy
  obtain ⟨hnex, htx⟩ := canonC_pos_arm hcx hsx
  obtain ⟨hney, hty⟩ := canonC_pos_arm hcy hsy
  have hvx1 := digitsVal_ge_pow hdx hnex htx
  have hvx0 := digitsVal_pos_of_top hdx hnex htx
  rcases hyd : y.digits with _ | ⟨d0, ds⟩
  · exact absurd hyd hney
  · obtain ⟨hd0, hds⟩ := digOk_cons.mp (hyd ▸ hdy)
    obtain ⟨hmd, hmv, hml⟩ := mulPartDigits_spec x.digits d0 0 hdx hd0.1 hd0.2
      (le_refl 0) (by norm_num)
    have hun : mulLoop x.digits (d0 :: ds) 0 newC =
        mulLoop x.digits ds 1
          (ChonkerInt.mk (mulPartDigits x.digits d0 0) BigIntSign.Positive) := rfl
    have hlen0 : (ChonkerInt.mk (mulPartDigits x.digits d0 0)
        BigIntSign.Positive).digits.length ≤ x.digits.length + 1 := by
      rcases hml with h | ⟨h, _⟩ <;> simp [h]
    obtain ⟨hr1, hr2, hr3, _, hr5⟩ := mulLoop_inv x.digits hdx hnex htx ds 1
      (ChonkerInt.mk (mulPartDigits x.digits d0 0) BigIntSign.Positive) hds rfl hmd hlen0
    rw [hun]
    have hval : digitsVal (mulLoop x.digits ds 1
        (ChonkerInt.mk (mulPartDigits x.digits d0 0) BigIntSign.Positive)).digits =
        digitsVal x.digits * digitsVal (d0 :: ds) := by
      rw [hr3]
      show digitsVal (mulPartDigits x.digits d0 0) + _ = _
      rw [hmv, digitsVal_cons]
      ring
    refine ⟨hr1, hr2, hval, ?_, ?_⟩
    · intro hcon
      have := hval
      rw [hcon, digitsVal_nil] at this
      have hvy0 : 0 < digitsVal (d0 :: ds) := by
        rw [← hyd]
        exact digitsVal_pos_of_top hdy hney hty
      nlinarith
    · rcases hdsnil : ds with _ | ⟨d2, ds2⟩
      · -- single-digit multiplier: the loop returns the partial product itself
        subst hdsnil
        have hfin : mulLoop x.digits ([] : List Int) 1
            (ChonkerInt.mk (mulPartDigits x.digits d0 0) BigIntSign.Positive) =
            ChonkerInt.mk (mulPartDigits x.digits d0 0) BigIntSign.Positive := rfl
        rw [hfin]
        have hd0ne : d0 ≠ 0 := by
          intro hcon
          apply hty
          rw [hyd, hcon]
          rfl
        show (mulPartDigits x.digits d0 0).getLast? ≠ some 0
        rcases hml with h | ⟨h, t, hg, ht1, _⟩
        · have hnemp : mulPartDigits x.digits d0 0 ≠ [] := by
            intro hcon
            rw [hcon] at h
            simp at h
            exact hnex (List.length_eq_zero.mp h.symm)
          apply topNonzero_of_ge hmd hnemp
          rw [hmv, h]
          have hmul : 10 ^ (x.digits.length - 1) * 1 ≤ digitsVal x.digits * d0 :=
            mul_le_mul hvx1 (by omega) (by norm_num) (digitsVal_nonneg hdx)
          omega
        · rw [hg]
          intro hcon
          cases hcon
          omega
      · rw [← hdsnil]
        apply hr5 (by rw [hdsnil]; intro hcon; cases hcon)
        have : ds ≠ [] := by rw [hdsnil]; intro hcon; cases hcon
        rw [← getLast?_cons_ne (d := d0) this, ← hyd]
        exact hty

theorem mulC_spec (x y : ChonkerInt) (hx : repOk x) (hy : repOk y) :
    repOk (mulC x y) ∧ valC (mulC x y) = valC x * valC y := by
  unfold mulC
  by_cases h0 : x.sign = BigIntSign.Zero ∨ y.sign = BigIntSign.Zero
  · rw [if_pos h0]
    refine ⟨repOk_newC, ?_⟩
    rw [valC_newC]
    rcases h0 with h | h
    · rw [valC_eq_zero h]
      ring
    · rw [valC_eq_zero h]
      ring
  · rw [if_neg h0]
    rw [not_or] at h0
    obtain ⟨hsx0, hsy0⟩ := h0
    by_cases h1 : x = fromIntC 1
    · rw [if_pos h1]
      refine ⟨hy, ?_⟩
      rw [h1, show valC (fromIntC 1) = 1 from rfl]
      ring
    · rw [if_neg h1]
      by_cases h2 : x = fromIntC (-1)
      · rw [if_pos h2]
        obtain ⟨hr, hv⟩ := mulNegate_spec hy hsy0
        refine ⟨hr, ?_⟩
        rw [hv, h2, show valC (fromIntC (-1)) = -1 from rfl]
        ring
      · rw [if_neg h2]
        by_cases h3 : y = fromIntC 1
        · rw [if_pos h3]
          refine ⟨hx, ?_⟩
          rw [h3, show valC (fromIntC 1) = 1 from rfl]
          ring
        · rw [if_neg h3]
          by_cases h4 : y = fromIntC (-1)
          · rw [if_pos h4]
            obtain ⟨hr, hv⟩ := mulNegate_spec hx hsx0
            refine ⟨hr, ?_⟩
            rw [hv, h4, show valC (fromIntC (-1)) = -1 from rfl]
            ring
          · rw [if_neg h4]
            obtain ⟨hm1, hm2, hm3, hm4, hm5⟩ := mulLoop_main hx hy hsx0 hsy0
            show repOk (if x.sign ≠ y.sign then setNeg (mulLoop x.digits y.digits 0 newC)
                else mulLoop x.digits y.digits 0 newC) = true ∧
              valC (if x.sign ≠ y.sign then setNeg (mulLoop x.digits y.digits 0 newC)
                else mulLoop x.digits y.digits 0 newC) = valC x * valC y
            by_cases hss : x.sign ≠ y.sign
            · rw [if_pos hss]
              have hsn : (setNeg (mulLoop x.digits y.digits 0 newC)).sign =
                  BigIntSign.Negative := rfl
              refine ⟨repOk_build (by rw [hsn]; intro hcon; cases hcon) hm2 hm4 hm5, ?_⟩
              rw [valC_eq_neg hsn]
              show - digitsVal (mulLoop x.digits y.digits 0 newC).digits = _
              rw [hm3]
              rcases hsx : x.sign with _ | _ | _ <;> rcases hsy : y.sign with _ | _ | _
              · exact absurd (hsx.trans hsy.symm) hss
              · exact absurd hsy hsy0
              · rw [valC_eq_pos hsx, valC_eq_neg hsy]
                ring
              · exact absurd hsx hsx0
              · exact absurd hsx hsx0
              · exact absurd hsx hsx0
              · rw [valC_eq_neg hsx, valC_eq_pos hsy]
                ring
              · exact absurd hsy hsy0
              · exact absurd (hsx.trans hsy.symm) hss
            · rw [if_neg hss]
              rw [not_not] at hss
              refine ⟨repOk_build (by rw [hm1]; intro hcon; cases hcon) hm2 hm4 hm5, ?_⟩
              rw [valC_eq_pos hm1, hm3]
              rcases hsx : x.sign with _ | _ | _
              · have hsy : y.sign = BigIntSign.Positive := hss ▸ hsx
                rw [valC_eq_pos hsx, valC_eq_pos hsy]
              · exact absurd hsx hsx0
              · have hsy : y.sign = BigIntSign.Negative := hss ▸ hsx
                rw [valC_eq_neg hsx, valC_eq_neg hsy]
                ring

/-! Conversion from machine integers: the digit_convert loop. -/

theorem digitConvertLoop_inv (n : Nat) (hn : n < 10 ^ 39) :
    ∀ (fuel : Nat) (k : Nat) (acc : List Int), 1 ≤ k → k ≤ 37 → 39 ≤ k + fuel →
    10 ^ (k - 1) ≤ n →
    digOk acc → acc.length = k → digitsVal acc = ((n % 10 ^ k : Nat) : Int) →
    digOk (digitConvertLoop n fuel (10 ^ (k + 1)) (10 ^ k) (n % 10 ^ k) acc) ∧
      digitsVal (digitConvertLoop n fuel (10 ^ (k + 1)) (10 ^ k) (n % 10 ^ k) acc) = n ∧
      digitConvertLoop n fuel (10 ^ (k + 1)) (10 ^ k) (n % 10 ^ k) acc ≠ [] ∧
      ((n < 10 ^ 37 ∨ 10 ^ 38 ≤ n) →
        (digitConvertLoop n fuel (10 ^ (k + 1)) (10 ^ k) (n % 10 ^ k) acc).getLast? ≠
          some 0) := by
  intro fuel
  induction fuel with
  | zero =>
    intro k acc h1 h2 h3 _ _ _ _
    omega
  | succ fuel ih =>
    intro k acc h1 h2 h3 h4 hda hla hva
    by_cases hstop : n % 10 ^ k = n
    · have hun : digitConvertLoop n (fuel + 1) (10 ^ (k + 1)) (10 ^ k) (n % 10 ^ k) acc =
          acc := by
        rw [show digitConvertLoop n (fuel + 1) (10 ^ (k + 1)) (10 ^ k) (n % 10 ^ k) acc =
          (if n % 10 ^ k = n then acc else
            (let rem2 := n % 10 ^ (k + 1)
             let digit : Int := ((rem2 : Int) - ((n % 10 ^ k : Nat) : Int)) / ((10 ^ k : Nat) : Int)
             let acc2 := acc ++ [digit]
             if 10 ^ (k + 1) = 10 ^ 38 then
               acc2 ++ [((n : Int) - (rem2 : Int)) / (((10 ^ (k + 1) : Nat)) : Int)]
             else digitConvertLoop n fuel (10 ^ (k + 1) * 10) (10 ^ (k + 1)) rem2 acc2))
          from rfl, if_pos hstop]
      rw [hun]
      have hne : acc ≠ [] := by
        intro hc
        rw [hc] at hla
        simp at hla
        omega
      have hvn : digitsVal acc = (n : Int) := by rw [hva, hstop]
      refine ⟨hda, hvn, hne, fun _ => ?_⟩
      apply topNonzero_of_ge hda hne
      rw [hvn, hla]
      have : (10:Int) ^ (k - 1) ≤ (n : Int) := by exact_mod_cast h4
      simpa using this
    · have hge : 10 ^ k ≤ n := by
        rcases Nat.lt_or_ge n (10 ^ k) with h | h
        · exact absurd (Nat.mod_eq_of_lt h) hstop
        · exact h
      have hmm : n % 10 ^ (k + 1) = n % 10 ^ k + 10 ^ k * (n / 10 ^ k % 10) := by
        rw [pow_succ]
        exact Nat.mod_mul
      have hdig : ((n % 10 ^ (k + 1) : Nat) : Int) - ((n % 10 ^ k : Nat) : Int) =
          (10 ^ k : Nat) * ((n / 10 ^ k % 10 : Nat) : Int) := by
        rw [hmm]
        push_cast
        ring
      have hpk : (0:Int) < ((10 ^ k : Nat) : Int) := by positivity
      have hdigit : (((n % 10 ^ (k + 1) : Nat) : Int) - ((n % 10 ^ k : Nat) : Int)) /
          ((10 ^ k : Nat) : Int) = ((n / 10 ^ k % 10 : Nat) : Int) := by
        rw [hdig]
        exact Int.mul_ediv_cancel_left _ (by omega)
      have hd09 : 0 ≤ ((n / 10 ^ k % 10 : Nat) : Int) ∧
          ((n / 10 ^ k % 10 : Nat) : Int) ≤ 9 := by
        constructor
        · positivity
        · have : n / 10 ^ k % 10 ≤ 9 := by omega
          exact_mod_cast this
      have hacc2d : digOk (acc ++ [((n / 10 ^ k % 10 : Nat) : Int)]) :=
        digOk_append.mpr ⟨hda, by rw [digOk_iff]; intro e he; simp at he; omega⟩
      have hacc2v : digitsVal (acc ++ [((n / 10 ^ k % 10 : Nat) : Int)]) =
          ((n % 10 ^ (k + 1) : Nat) : Int) := by
        rw [digitsVal_append, hva, hla, digitsVal_one, hmm]
        push_cast
        ring
      have hacc2l : (acc ++ [((n / 10 ^ k % 10 : Nat) : Int)]).length = k + 1 := by
        rw [List.length_append, hla]
        rfl
      have hun : digitConvertLoop n (fuel + 1) (10 ^ (k + 1)) (10 ^ k) (n % 10 ^ k) acc =
          (if 10 ^ (k + 1) = 10 ^ 38 then
            (acc ++ [((n / 10 ^ k % 10 : Nat) : Int)]) ++
              [((n : Int) - ((n % 10 ^ (k + 1) : Nat) : Int)) / (((10 ^ (k + 1) : Nat)) : Int)]
          else digitConvertLoop n fuel (10 ^ (k + 1) * 10) (10 ^ (k + 1)) (n % 10 ^ (k + 1))
            (acc ++ [((n / 10 ^ k % 10 : Nat) : Int)])) := by
        rw [show digitConvertLoop n (fuel + 1) (10 ^ (k + 1)) (10 ^ k) (n % 10 ^ k) acc =
          (if n % 10 ^ k = n then acc else
            (if 10 ^ (k + 1) = 10 ^ 38 then
              (acc ++ [(((n % 10 ^ (k + 1) : Nat) : Int) - ((n % 10 ^ k : Nat) : Int)) /
                ((10 ^ k : Nat) : Int)]) ++
                [((n : Int) - ((n % 10 ^ (k + 1) : Nat) : Int)) / (((10 ^ (k + 1) : Nat)) : Int)]
             else digitConvertLoop n fuel (10 ^ (k + 1) * 10) (10 ^ (k + 1)) (n % 10 ^ (k + 1))
               (acc ++ [(((n % 10 ^ (k + 1) : Nat) : Int) - ((n % 10 ^ k : Nat) : Int)) /
                 ((10 ^ k : Nat) : Int)])))
          from rfl, if_neg hstop, hdigit]
      by_cases hcap : 10 ^ (k + 1) = 10 ^ 38
      · have hk37 : k = 37 := by
          have := Nat.pow_right_injective (by norm_num : 2 ≤ 10) hcap
          omega
        rw [hun, if_pos hcap]
        subst hk37
        have hmul : ((n : Int) - ((n % 10 ^ 38 : Nat) : Int)) =
            ((10 ^ 38 : Nat) : Int) * ((n / 10 ^ 38 : Nat) : Int) := by
          have hnn : n = n % 10 ^ 38 + 10 ^ 38 * (n / 10 ^ 38) :=
            (Nat.mod_add_div n (10 ^ 38)).symm
          push_cast
          omega
        have htop1 : ((n : Int) - ((n % 10 ^ (37 + 1) : Nat) : Int)) /
            (((10 ^ (37 + 1) : Nat)) : Int) = ((n / 10 ^ 38 : Nat) : Int) := by
          rw [show (37 + 1) = 38 from rfl, hmul]
          exact Int.mul_ediv_cancel_left _ (by positivity)
        rw [htop1]
        have htle : n / 10 ^ 38 ≤ 9 := by omega
        have hfd : digOk ((acc ++ [((n / 10 ^ 37 % 10 : Nat) : Int)]) ++
            [((n / 10 ^ 38 : Nat) : Int)]) := by
          refine digOk_append.mpr ⟨hacc2d, ?_⟩
          rw [digOk_iff]
          intro e he
          simp at he
          subst he
          constructor
          · positivity
          · exact_mod_cast htle
        have hfv : digitsVal ((acc ++ [((n / 10 ^ 37 % 10 : Nat) : Int)]) ++
            [((n / 10 ^ 38 : Nat) : Int)]) = (n : Int) := by
          rw [digitsVal_append, hacc2v, hacc2l, digitsVal_one]
          have hnn : n = n % 10 ^ 38 + 10 ^ 38 * (n / 10 ^ 38) :=
            (Nat.mod_add_div n (10 ^ 38)).symm
          push_cast
          omega
        refine ⟨hfd, hfv, by simp, ?_⟩
        intro hside
        rcases hside with hlo | hhi
        · exfalso
          have : 10 ^ 37 ≤ n := hge
          omega
        · rw [List.getLast?_append_of_ne_nil _ (by simp)]
          have ht1 : 1 ≤ n / 10 ^ 38 :=
            (Nat.one_le_div_iff (by positivity)).mpr hhi
          intro hc
          simp at hc
          omega
      · have hk36 : k ≤ 36 := by
          by_contra hcon
          have hk37 : k = 37 := by omega
          rw [hk37] at hcap
          exact hcap rfl
        rw [hun, if_neg hcap]
        have hrec := ih (k + 1) (acc ++ [((n / 10 ^ k % 10 : Nat) : Int)])
          (by omega) (by omega) (by omega)
          (by simpa using hge) hacc2d hacc2l hacc2v
        rw [show 10 ^ (k + 1) * 10 = 10 ^ (k + 1 + 1) from (pow_succ 10 (k + 1)).symm]
        exact hrec

theorem digitConvert_spec (n : Nat) (h1 : 1 ≤ n) (h2 : n < 10 ^ 39) :
    digOk (digitConvert n) ∧ digitsVal (digitConvert n) = n ∧ digitConvert n ≠ [] ∧
      ((n < 10 ^ 37 ∨ 10 ^ 38 ≤ n) → (digitConvert n).getLast? ≠ some 0) := by
  have hd1 : n % 10 ≤ 9 := by omega
  have hinv := digitConvertLoop_inv n h2 40 1 [((n % 10 : Nat) : Int)]
    (le_refl 1) (by norm_num) (by norm_num) (by simpa using h1)
    (by rw [digOk_iff]; intro e he; simp at he; subst he; omega)
    rfl (by rw [digitsVal_one, pow_one])
  have hee : digitConvert n =
      digitConvertLoop n 40 (10 ^ (1 + 1)) (10 ^ 1) (n % 10 ^ 1) [((n % 10 : Nat) : Int)] := by
    unfold digitConvert
    norm_num
  rw [hee]
  exact hinv

theorem fromIntC_val (z : Int) (hb : z.natAbs < 10 ^ 39) :
    valC (fromIntC z) = z := by
  by_cases hz : z = 0
  · rw [hz]
    rfl
  · have h1 : 1 ≤ z.natAbs := by omega
    obtain ⟨_, hv, _, _⟩ := digitConvert_spec z.natAbs h1 hb
    have hun : fromIntC z = ChonkerInt.mk (digitConvert z.natAbs) (if z < 0 then BigIntSign.Negative else BigIntSign.Positive) := by
      unfold fromIntC
      rw [if_neg hz]
    rw [hun]
    by_cases hneg : z < 0
    · rw [if_pos hneg]
      rw [valC_mk_neg, hv]
      omega
    · rw [if_neg hneg]
      rw [valC_mk_pos, hv]
      omega

theorem fromIntC_spec (z : Int) (hb : z.natAbs < 10 ^ 37) :
    repOk (fromIntC z) ∧ valC (fromIntC z) = z := by
  refine ⟨?_, fromIntC_val z (by omega)⟩
  by_cases hz : z = 0
  · rw [hz]
    exact repOk_newC
  · have h1 : 1 ≤ z.natAbs := by omega
    obtain ⟨hd, _, hne, ht⟩ := digitConvert_spec z.natAbs h1 (by omega)
    have hun : fromIntC z = ChonkerInt.mk (digitConvert z.natAbs) (if z < 0 then BigIntSign.Negative else BigIntSign.Positive) := by
      unfold fromIntC
      rw [if_neg hz]
    rw [hun]
    by_cases hneg : z < 0
    · rw [if_pos hneg]
      exact repOk_mk hd hne (ht (Or.inl hb)) (by intro hc; cases hc)
    · rw [if_neg hneg]
      exact repOk_mk hd hne (ht (Or.inl hb)) (by intro hc; cases hc)

/-! Quotient estimation: top-digit bounds and the finite estimate check. -/

theorem digitsVal_concat_bounds {l : List Int} {d : Int} (h : digOk (l ++ [d])) :
    d * 10 ^ l.length ≤ digitsVal (l ++ [d]) ∧
      digitsVal (l ++ [d]) < (d + 1) * 10 ^ l.length := by
  obtain ⟨h1, _⟩ := digOk_append.mp h
  have hv := digitsVal_lt_pow h1
  have hnn := digitsVal_nonneg h1
  rw [digitsVal_append, digitsVal_one]
  constructor <;> nlinarith [pow_pos (show (0:Int) < 10 by norm_num) l.length]

theorem len_eq_of_val_range {l : List Int} (hd : digOk l) (hne : l ≠ [])
    (ht : l.getLast? ≠ some 0) {k : Nat} (hk : 1 ≤ k)
    (h1 : 10 ^ (k - 1) ≤ digitsVal l) (h2 : digitsVal l < 10 ^ k) :
    l.length = k := by
  have ha := digitsVal_ge_pow hd hne ht
  have hb := digitsVal_lt_pow hd
  by_contra hcon
  rcases Nat.lt_or_ge l.length k with hlt | hge
  · have : (10:Int) ^ l.length ≤ 10 ^ (k - 1) :=
      pow_le_pow_right₀ (by norm_num) (by omega)
    omega
  · have hgt : k < l.length := by omega
    have : (10:Int) ^ k ≤ 10 ^ (l.length - 1) :=
      pow_le_pow_right₀ (by norm_num) (by omega)
    omega

theorem split_top_two {l : List Int} (h : 2 ≤ l.length) :
    ∃ (l4 : List Int) (d1 d2 : Int), l = l4 ++ [d1, d2] ∧ l.length = l4.length + 2 := by
  rcases List.eq_nil_or_concat l with rfl | ⟨l3, d2, rfl⟩
  · simp at h
  · rcases List.eq_nil_or_concat l3 with rfl | ⟨l4, d1, rfl⟩
    · rw [List.concat_eq_append] at h
      simp at h
    · rw [List.concat_eq_append, List.concat_eq_append, List.append_assoc]
      exact ⟨l4, d1, d2, rfl, by simp⟩

theorem estimate_gap (w2 b1 : Nat) (hw : w2 < 10 * (b1 + 1)) (hb1 : 5 ≤ b1)
    (hb2 : b1 ≤ 9) : w2 / b1 ≤ w2 / (b1 + 1) + 2 := by
  have h : ∀ b < 10, 5 ≤ b → ∀ w < 10 * (b + 1), w / b ≤ w / (b + 1) + 2 := by decide
  exact h b1 (by omega) hb1 w2 hw

theorem coefficient_facts (t : Int) (h1 : 1 ≤ t) (h2 : t ≤ 9) :
    1 ≤ 10 / (t + 1) ∧ (10 / (t + 1)) * (t + 1) ≤ 10 ∧ 5 ≤ (10 / (t + 1)) * t ∧
      10 / (t + 1) ≤ 5 ∧ (10 / (t + 1) ≤ 1 → 5 ≤ t) := by
  interval_cases t <;> decide

theorem valC_setPos (x : ChonkerInt) : valC (setPos x) = digitsVal x.digits := rfl

theorem setPos_repOk {x : ChonkerInt} (hd : digOk x.digits) (hne : x.digits ≠ [])
    (ht : x.digits.getLast? ≠ some 0) : repOk (setPos x) := by
  show repOk (ChonkerInt.mk x.digits BigIntSign.Positive) = true
  exact repOk_mk hd hne ht (by intro hc; cases hc)

theorem getLastD_concat (l : List Int) (d : Int) : (l ++ [d]).getLastD 0 = d := by
  rw [List.getLastD_eq_getLast?, List.getLast?_append_of_ne_nil _ (by simp)]
  rfl

theorem top_digit_facts {z : ChonkerInt} (hd : digOk z.digits) (hne : z.digits ≠ [])
    (ht : z.digits.getLast? ≠ some 0) :
    1 ≤ z.digits.getLastD 0 ∧ z.digits.getLastD 0 ≤ 9 ∧
      z.digits.getLastD 0 * 10 ^ (z.digits.length - 1) ≤ digitsVal z.digits ∧
      digitsVal z.digits < (z.digits.getLastD 0 + 1) * 10 ^ (z.digits.length - 1) := by
  rcases List.eq_nil_or_concat z.digits with hc | ⟨l, t, hc⟩
  · exact absurd hc hne
  · rw [List.concat_eq_append] at hc
    rw [hc] at hd ht ⊢
    rw [getLastD_concat]
    obtain ⟨hb1, hb2⟩ := digitsVal_concat_bounds hd
    have hlen : (l ++ [t]).length - 1 = l.length := by simp
    rw [hlen]
    have htr : t ≠ 0 := by
      intro hcc
      apply ht
      rw [List.getLast?_append_of_ne_nil _ (by simp), hcc]
      rfl
    have ht9 : t ≤ 9 ∧ 0 ≤ t := by
      have := (digOk_append.mp hd).2
      rw [digOk_iff] at this
      have h2 := this t (by simp)
      omega
    exact ⟨by omega, by omega, hb1, hb2⟩

theorem qeaScaled_spec (w y : ChonkerInt) (hdw : digOk w.digits) (hnew : w.digits ≠ [])
    (htw : w.digits.getLast? ≠ some 0) (hdy : digOk y.digits) (hney : y.digits ≠ [])
    (hty : y.digits.getLast? ≠ some 0) :
    ∃ (w2 y2 : ChonkerInt) (c : Int), qeaScaled (setPos w) (setPos y) = (w2, y2) ∧
      1 ≤ c ∧ c ≤ 5 ∧ repOk w2 ∧ repOk y2 ∧
      valC w2 = c * digitsVal w.digits ∧ valC y2 = c * digitsVal y.digits ∧
      5 * 10 ^ (y.digits.length - 1) ≤ c * digitsVal y.digits ∧
      c * digitsVal y.digits < 10 ^ y.digits.length := by
  obtain ⟨ht1, ht9, htlo, hthi⟩ := top_digit_facts hdy hney hty
  set t := y.digits.getLastD 0 with htdef
  obtain ⟨hc1, hc2, hc3, hc4, hc5⟩ := coefficient_facts t ht1 ht9
  have hYlo := digitsVal_pos_of_top hdy hney hty
  have hYhi := digitsVal_lt_pow hdy
  have hLpos : 1 ≤ y.digits.length := by
    rcases hyd : y.digits with _ | _
    · exact absurd hyd hney
    · simp
  have hsplit : y.digits.length = (y.digits.length - 1) + 1 := by omega
  have hpowsplit : (10:Int) ^ y.digits.length = 10 ^ (y.digits.length - 1) * 10 := by
    rw [hsplit, pow_succ]
    rw [← hsplit]
  have hwpos := setPos_repOk hdw hnew htw
  have hypos := setPos_repOk hdy hney hty
  have hcoef : (setPos y).digits.getLastD 0 = t := rfl
  by_cases hbig : 10 / (t + 1) > 1
  · have hun : qeaScaled (setPos w) (setPos y) =
        (mulC (setPos w) (fromIntC (10 / (t + 1))),
         mulC (setPos y) (fromIntC (10 / (t + 1)))) := by
      unfold qeaScaled
      rw [hcoef, if_pos hbig]
    obtain ⟨hfr, hfv⟩ := fromIntC_spec (10 / (t + 1)) (by
      have : (0:Int) ≤ 10 / (t + 1) := by omega
      have h37 : (10:Int) / (t + 1) < 10 ^ 37 := by
        calc (10:Int) / (t + 1) ≤ 5 := hc4
        _ < 10 ^ 37 := by norm_num
      omega)
    obtain ⟨hr1, hv1⟩ := mulC_spec (setPos w) (fromIntC (10 / (t + 1))) hwpos hfr
    obtain ⟨hr2, hv2⟩ := mulC_spec (setPos y) (fromIntC (10 / (t + 1))) hypos hfr
    refine ⟨_, _, 10 / (t + 1), hun, hc1, hc4, hr1, hr2, ?_, ?_, ?_, ?_⟩
    · rw [hv1, hfv, valC_setPos]
      ring
    · rw [hv2, hfv, valC_setPos]
      ring
    · have : 5 * 10 ^ (y.digits.length - 1) ≤ (10 / (t + 1)) * t * 10 ^ (y.digits.length - 1) := by
        have hp : (0:Int) < 10 ^ (y.digits.length - 1) := pow_pos (by norm_num) _
        nlinarith
      nlinarith [pow_pos (show (0:Int) < 10 by norm_num) (y.digits.length - 1), hc1]
    · have hp : (0:Int) < 10 ^ (y.digits.length - 1) := pow_pos (by norm_num) _
      rw [hpowsplit]
      nlinarith
  · have hceq : 10 / (t + 1) = 1 := by omega
    have ht5 : 5 ≤ t := hc5 (by omega)
    have hun : qeaScaled (setPos w) (setPos y) = (setPos w, setPos y) := by
      unfold qeaScaled
      rw [hcoef, if_neg hbig]
    refine ⟨_, _, 1, hun, le_refl 1, by norm_num, hwpos, hypos, ?_, ?_, ?_, ?_⟩
    · rw [valC_setPos]
      ring
    · rw [valC_setPos]
      ring
    · have hp : (0:Int) < 10 ^ (y.digits.length - 1) := pow_pos (by norm_num) _
      nlinarith
    · rw [one_mul]
      exact hYhi

theorem estimate_gap_int (w2 b1 : Int) (hw0 : 0 ≤ w2) (hw : w2 < 10 * (b1 + 1))
    (hb1 : 5 ≤ b1) (hb2 : b1 ≤ 9) : w2 / b1 ≤ w2 / (b1 + 1) + 2 := by
  interval_cases b1 <;> omega

set_option maxHeartbeats 1600000 in
theorem qeaEstimate_spec (w2 y2 : ChonkerInt) (L : Nat) (hL : 1 ≤ L)
    (hrw : repOk w2) (hry : repOk y2)
    (hYlo : 5 * 10 ^ (L - 1) ≤ valC y2) (hYhi : valC y2 < 10 ^ L)
    (hWlo : 10 ^ (L - 1) ≤ valC w2) (hWhi : valC w2 < 10 * valC y2) :
    ∃ est : Int, qeaEstimate w2 y2 = Except.ok est ∧ 0 ≤ est ∧
      valC w2 / valC y2 ≤ est ∧ est ≤ valC w2 / valC y2 + 2 := by
  have hP : (0:Int) < 10 ^ (L - 1) := pow_pos (by norm_num) _
  have hYpos : 0 < valC y2 := by omega
  have hWpos : 0 < valC w2 := by omega
  have hsy : y2.sign = BigIntSign.Positive := (sign_pos_iff hry).mpr hYpos
  have hsw : w2.sign = BigIntSign.Positive := (sign_pos_iff hrw).mpr hWpos
  obtain ⟨hdy, hcy⟩ := repOk_parts hry
  obtain ⟨hdw, hcw⟩ := repOk_parts hrw
  obtain ⟨hney, hty⟩ := canonC_pos_arm hcy (by rw [hsy]; intro hc; cases hc)
  obtain ⟨hnew, htw⟩ := canonC_pos_arm hcw (by rw [hsw]; intro hc; cases hc)
  have hvy : valC y2 = digitsVal y2.digits := valC_eq_pos hsy
  have hvw : valC w2 = digitsVal w2.digits := valC_eq_pos hsw
  have hpows : (10:Int) ^ L = 10 ^ (L - 1) * 10 := by
    rw [show L = (L - 1) + 1 from by omega, pow_succ]
    congr 1
  have hLy : y2.digits.length = L :=
    len_eq_of_val_range hdy hney hty hL (by omega) (by omega)
  obtain ⟨hb1a, hb1b, hblo, hbhi⟩ := top_digit_facts hdy hney hty
  set b1 := y2.digits.getLastD 0 with hb1def
  rw [hLy] at hblo hbhi
  have hb5 : 5 ≤ b1 := by nlinarith
  -- extract the top one or two digits of the dividend
  have hWT : ∃ WT : Int, 0 ≤ WT ∧
      WT * 10 ^ (L - 1) ≤ valC w2 ∧ valC w2 < (WT + 1) * 10 ^ (L - 1) ∧
      qeaEstimate w2 y2 = Except.ok (WT / b1) := by
    by_cases hsmall : valC w2 < 10 ^ L
    · have hLw : w2.digits.length = L :=
        len_eq_of_val_range hdw hnew htw hL (by omega) (by omega)
      obtain ⟨hwa, hwb, hwlo, hwhi⟩ := top_digit_facts hdw hnew htw
      refine ⟨w2.digits.getLastD 0, by omega, by rw [hvw, ← hLw]; exact hwlo,
        by rw [hvw, ← hLw]; exact hwhi, ?_⟩
      unfold qeaEstimate
      rw [hLy, hLw, if_neg (by omega), if_pos rfl]
    · have hLw : w2.digits.length = L + 1 := by
        apply len_eq_of_val_range hdw hnew htw (by omega) _ _
        · rw [show L + 1 - 1 = L from by omega]
          omega
        · rw [show L + 1 = (L - 1) + 2 from by omega, pow_add]
          have h100 : valC y2 * 10 < 10 ^ (L - 1) * 10 * 10 := by nlinarith
          nlinarith
      obtain ⟨l4, d1, d2, hsplit2, hlen4⟩ := split_top_two (l := w2.digits) (by omega)
      have hl4len : l4.length = L - 1 := by omega
      have hget2 : w2.digits.getLastD 0 = d2 := by
        rw [hsplit2, show l4 ++ [d1, d2] = (l4 ++ [d1]) ++ [d2] from by simp]
        exact getLastD_concat _ _
      have hget1 : w2.digits.getD (w2.digits.length - 2) 0 = d1 := by
        rw [hsplit2]
        rw [show (l4 ++ [d1, d2]).length - 2 = l4.length from by simp]
        unfold List.getD
        rw [List.get?_append_right (le_refl _)]
        simp
      have hvsplit : digitsVal w2.digits = digitsVal l4 + 10 ^ (L - 1) * (d1 + 10 * d2) := by
        rw [hsplit2, digitsVal_append, hl4len]
        congr 1
        have : digitsVal [d1, d2] = d1 + 10 * d2 := by
          simp [digitsVal]
        rw [this]
      have hl4ok : digOk l4 := by
        rw [hsplit2] at hdw
        exact (digOk_append.mp hdw).1
      have hl4lo := digitsVal_nonneg hl4ok
      have hl4hi := digitsVal_lt_pow hl4ok
      rw [hl4len] at hl4hi
      refine ⟨d2 * 10 + d1, ?_, ?_, ?_, ?_⟩
      · rw [hsplit2] at hdw
        have := (digOk_append.mp hdw).2
        rw [digOk_iff] at this
        have h1 := this d1 (by simp)
        have h2 := this d2 (by simp)
        omega
      · rw [hvw, hvsplit]
        nlinarith
      · rw [hvw, hvsplit]
        nlinarith
      · unfold qeaEstimate
        rw [hget2, hget1, hLy, hLw, if_pos rfl]
  obtain ⟨WT, hWT0, hWTlo, hWThi, hWTeq⟩ := hWT
  refine ⟨WT / b1, hWTeq, Int.ediv_nonneg hWT0 (by omega), ?_, ?_⟩
  · have hq0 : 0 ≤ valC w2 / valC y2 := Int.ediv_nonneg (by omega) (by omega)
    have hqm : valC w2 / valC y2 * valC y2 ≤ valC w2 := Int.ediv_mul_le _ (by omega)
    have hstep : valC w2 / valC y2 * (b1 * 10 ^ (L - 1)) ≤ valC w2 / valC y2 * valC y2 := by
      apply mul_le_mul_of_nonneg_left _ hq0
      omega
    have hlt : valC w2 / valC y2 * b1 < WT + 1 := by
      have h1 : valC w2 / valC y2 * b1 * 10 ^ (L - 1) < (WT + 1) * 10 ^ (L - 1) := by
        nlinarith
      exact lt_of_mul_lt_mul_right h1 (by positivity)
    rw [Int.le_ediv_iff_mul_le (by omega : (0:Int) < b1)]
    omega
  · have hWTbound : WT < 10 * (b1 + 1) := by
      have h2 : valC y2 < (b1 + 1) * 10 ^ (L - 1) := by
        rw [hvy]
        exact hbhi
      have h1 : WT * 10 ^ (L - 1) < 10 * (b1 + 1) * 10 ^ (L - 1) := by
        rw [mul_assoc]
        linarith
      exact lt_of_mul_lt_mul_right h1 (by positivity)
    have hgap := estimate_gap_int WT b1 hWT0 hWTbound hb5 hb1b
    have hk : WT / (b1 + 1) ≤ valC w2 / valC y2 := by
      rw [Int.le_ediv_iff_mul_le (by omega : (0:Int) < valC y2)]
      have hk0 : 0 ≤ WT / (b1 + 1) := Int.ediv_nonneg hWT0 (by omega)
      have hkm : WT / (b1 + 1) * (b1 + 1) ≤ WT := Int.ediv_mul_le _ (by omega)
      have : WT / (b1 + 1) * valC y2 ≤ WT / (b1 + 1) * ((b1 + 1) * 10 ^ (L - 1)) := by
        apply mul_le_mul_of_nonneg_left _ hk0
        omega
      nlinarith
    omega

theorem setPos_eq_self {p : ChonkerInt} (hs : p.sign = BigIntSign.Positive) :
    setPos p = p := by
  obtain ⟨dl, sg⟩ := p
  simp only at hs
  subst hs
  rfl

theorem val_zero_eq_newC {q : ChonkerInt} (hq : repOk q) (hv : valC q = 0) : q = newC :=
  chonk_unique hq repOk_newC (by rw [hv, valC_newC])

theorem qeaAdjust_spec : ∀ (dl : Nat) (q p w0 y0 : ChonkerInt),
    repOk q → repOk p → repOk w0 → repOk y0 →
    1 ≤ valC y0 → 0 ≤ valC w0 →
    valC p = valC q * valC y0 →
    valC w0 / valC y0 ≤ valC q →
    valC q ≤ valC w0 / valC y0 + ((dl : Int) - 1) →
    1 ≤ dl →
    ∃ qf, qeaAdjust dl q p w0 y0 = Except.ok qf ∧ repOk qf ∧
      valC qf = valC w0 / valC y0 := by
  intro dl
  induction dl with
  | zero =>
    intro q p w0 y0 _ _ _ _ _ _ _ _ _ hdl
    omega
  | succ n ih =>
    intro q p w0 y0 hq hp hw0 hy0 hY hW hpv hge hle _
    have hqhat0 : 0 ≤ valC w0 / valC y0 := Int.ediv_nonneg hW (by omega)
    have hun : qeaAdjust (n + 1) q p w0 y0 =
        (if q = newC then Except.ok q
         else if leC (setPos p) w0 then Except.ok q
         else if n = 0 then Except.error QErr.fatalBad
         else qeaAdjust n (subC q (fromIntC 1)) (subC (setPos p) y0) w0 y0) := rfl
    by_cases hq0 : q = newC
    · rw [hun, if_pos hq0]
      refine ⟨q, rfl, hq, ?_⟩
      have : valC q = 0 := by rw [hq0, valC_newC]
      omega
    · rw [hun, if_neg hq0]
      have hv1 : 1 ≤ valC q := by
        rcases lt_or_le (valC q) 1 with h | h
        · have hv0 : valC q = 0 := by omega
          exact absurd (val_zero_eq_newC hq hv0) hq0
        · exact h
      have hppos : 0 < valC p := by
        rw [hpv]
        nlinarith
      have hps : p.sign = BigIntSign.Positive := (sign_pos_iff hp).mpr hppos
      rw [setPos_eq_self hps]
      by_cases hle2 : leC p w0 = true
      · rw [if_pos hle2]
        have hvle : valC p ≤ valC w0 := (leC_val (Or.inl hp) (Or.inl hw0)).mp hle2
        have hqle : valC q ≤ valC w0 / valC y0 := by
          rw [Int.le_ediv_iff_mul_le (by omega : (0:Int) < valC y0)]
          rw [hpv] at hvle
          omega
        exact ⟨q, rfl, hq, by omega⟩
      · rw [if_neg hle2]
        have hvgt : valC w0 < valC p := by
          rcases lt_or_le (valC w0) (valC p) with h | h
          · exact h
          · exact absurd ((leC_val (Or.inl hp) (Or.inl hw0)).mpr h) hle2
        have hqgt : valC w0 / valC y0 < valC q := by
          rcases lt_or_le (valC w0 / valC y0) (valC q) with h | h
          · exact h
          · exfalso
            have h1 : valC q * valC y0 ≤ valC w0 / valC y0 * valC y0 :=
              mul_le_mul_of_nonneg_right h (by omega)
            have h2 : valC w0 / valC y0 * valC y0 ≤ valC w0 :=
              Int.ediv_mul_le _ (by omega)
            rw [hpv] at hvgt
            omega
        have hn0 : n ≠ 0 := by
          intro hc
          subst hc
          simp at hle
          omega
        rw [if_neg hn0]
        obtain ⟨hfr, hfv⟩ := fromIntC_spec 1 (by norm_num)
        obtain ⟨hq2r, hq2v⟩ := subC_spec q (fromIntC 1) hq hfr
        obtain ⟨hp2r, hp2v⟩ := subC_spec p y0 hp hy0
        refine ih (subC q (fromIntC 1)) (subC p y0) w0 y0 hq2r hp2r hw0 hy0 hY hW
          ?_ ?_ ?_ (by omega)
        · rw [hp2v, hq2v, hpv, hfv]
          ring
        · rw [hq2v, hfv]
          omega
        · rw [hq2v, hfv]
          push_cast
          omega

theorem digitsVal_of_repOk_nonneg {r : ChonkerInt} (hr : repOk r) (hv : 0 ≤ valC r) :
    digitsVal r.digits = valC r := by
  rcases hs : r.sign with _ | _ | _
  · rw [valC_eq_pos hs]
  · rw [valC_eq_zero hs, canonC_zero_arm (repOk_parts hr).2 hs]
    rfl
  · have := valC_neg_of_repOk hr hs
    omega

set_option maxHeartbeats 1600000 in
theorem qeaC_spec (w y : ChonkerInt) (hdw : digOk w.digits) (hnew : w.digits ≠ [])
    (htw : w.digits.getLast? ≠ some 0) (hdy : digOk y.digits) (hney : y.digits ≠ [])
    (hty : y.digits.getLast? ≠ some 0)
    (hlen : w.digits.length = y.digits.length ∨ w.digits.length = y.digits.length + 1)
    (hrange : digitsVal w.digits < 10 * digitsVal y.digits) :
    ∃ q r, qeaC w y = Except.ok (q, r) ∧
      q.digits = [digitsVal w.digits / digitsVal y.digits] ∧
      repOk r ∧ valC r = digitsVal w.digits % digitsVal y.digits ∧
      digitsVal r.digits = digitsVal w.digits % digitsVal y.digits := by
  set W := digitsVal w.digits with hWdef
  set Y := digitsVal y.digits with hYdef
  set L := y.digits.length with hLdef
  have hYpos : 0 < Y := digitsVal_pos_of_top hdy hney hty
  have hWpos : 0 < W := digitsVal_pos_of_top hdw hnew htw
  have hL1 : 1 ≤ L := by
    rcases hc : y.digits with _ | _
    · exact absurd hc hney
    · rw [hLdef, hc]
      simp
  obtain ⟨w2, y2, c, hsc, hc1, hc5, hrw2, hry2, hvw2, hvy2, hy2lo, hy2hi⟩ :=
    qeaScaled_spec w y hdw hnew htw hdy hney hty
  rw [← hLdef] at hy2lo hy2hi
  have hsc1 : (qeaScaled (setPos w) (setPos y)).1 = w2 := by rw [hsc]
  have hsc2 : (qeaScaled (setPos w) (setPos y)).2 = y2 := by rw [hsc]
  have hWlen : L ≤ w.digits.length := by omega
  have hWge : (10:Int) ^ (L - 1) ≤ W := by
    have h1 := digitsVal_ge_pow hdw hnew htw
    have h2 : (10:Int) ^ (L - 1) ≤ 10 ^ (w.digits.length - 1) :=
      pow_le_pow_right₀ (by norm_num) (by omega)
    omega
  obtain ⟨est, hest, hest0, hestlo, hesthi⟩ :=
    qeaEstimate_spec w2 y2 L hL1 hrw2 hry2 (by rw [hvy2]; omega) (by rw [hvy2]; omega)
      (by rw [hvw2]; nlinarith) (by rw [hvw2, hvy2]; nlinarith)
  have hcancel : valC w2 / valC y2 = W / Y := by
    rw [hvw2, hvy2]
    exact Int.mul_ediv_mul_of_pos W Y (by omega)
  rw [hcancel] at hestlo hesthi
  have hqhat0 : 0 ≤ W / Y := Int.ediv_nonneg (by omega) (by omega)
  have hqhat9 : W / Y < 10 := by
    rw [Int.ediv_lt_iff_lt_mul (by omega : (0:Int) < Y)]
    omega
  obtain ⟨hq0r, hq0v⟩ := fromIntC_spec est (by
    have : est ≤ 11 := by omega
    omega)
  have hy0r : repOk (setPos y) := setPos_repOk hdy hney hty
  have hw0r : repOk (setPos w) := setPos_repOk hdw hnew htw
  obtain ⟨hp0r, hp0v⟩ := mulC_spec (fromIntC est) (setPos y) hq0r hy0r
  have hvy0 : valC (setPos y) = Y := valC_setPos y
  have hvw0 : valC (setPos w) = W := valC_setPos w
  obtain ⟨qf, hadj, hqfr, hqfv⟩ := qeaAdjust_spec 4 (fromIntC est)
    (mulC (fromIntC est) (setPos y)) (setPos w) (setPos y) hq0r hp0r hw0r hy0r
    (by omega) (by omega) (by rw [hp0v, hq0v, hvy0]) (by rw [hq0v, hvw0, hvy0]; omega)
    (by rw [hq0v, hvw0, hvy0]; push_cast; omega) (by norm_num)
  rw [hvw0, hvy0] at hqfv
  have hun : qeaC w y =
      (match qeaEstimate (qeaScaled (setPos w) (setPos y)).1
          (qeaScaled (setPos w) (setPos y)).2 with
       | Except.error e => Except.error e
       | Except.ok est2 =>
         match qeaAdjust 4 (fromIntC est2) (mulC (fromIntC est2) (setPos y))
             (setPos w) (setPos y) with
         | Except.error e => Except.error e
         | Except.ok q =>
           Except.ok ((if q = newC then { q with digits := q.digits ++ [0] } else q),
             subC (setPos w) (mulC q (setPos y)))) := rfl
  have hstep : qeaC w y =
      Except.ok ((if qf = newC then { qf with digits := qf.digits ++ [0] } else qf),
        subC (setPos w) (mulC qf (setPos y))) := by
    rw [hun, hsc1, hsc2, hest]
    show (match qeaAdjust 4 (fromIntC est) (mulC (fromIntC est) (setPos y))
        (setPos w) (setPos y) with
      | Except.error e => Except.error e
      | Except.ok q =>
        Except.ok ((if q = newC then { q with digits := q.digits ++ [0] } else q),
          subC (setPos w) (mulC q (setPos y)))) = _
    rw [hadj]
  obtain ⟨hmr, hmv⟩ := mulC_spec qf (setPos y) hqfr hy0r
  obtain ⟨hrr, hrv⟩ := subC_spec (setPos w) (mulC qf (setPos y)) hw0r hmr
  have hremv : valC (subC (setPos w) (mulC qf (setPos y))) = W % Y := by
    rw [hrv, hmv, hqfv, hvw0, hvy0, Int.emod_def]
    ring
  have hrem0 : 0 ≤ W % Y := Int.emod_nonneg W (by omega)
  refine ⟨_, _, hstep, ?_, hrr, hremv, ?_⟩
  · by_cases hqz : qf = newC
    · rw [if_pos hqz]
      have hq0 : W / Y = 0 := by
        rw [← hqfv, hqz, valC_newC]
      rw [hq0, hqz]
      rfl
    · rw [if_neg hqz]
      have hqge1 : 1 ≤ W / Y := by
        rcases lt_or_le (W / Y) 1 with h | h
        · exfalso
          exact hqz (val_zero_eq_newC hqfr (by omega))
        · exact h
      have hmk : repOk (ChonkerInt.mk [W / Y] BigIntSign.Positive) := by
        apply repOk_mk _ (by intro hc; cases hc) _ (by intro hc; cases hc)
        · rw [digOk_iff]
          intro d hd
          simp at hd
          omega
        · intro hc
          simp at hc
          omega
      have hqeq : qf = ChonkerInt.mk [W / Y] BigIntSign.Positive := by
        apply chonk_unique hqfr hmk
        rw [hqfv, valC_mk_pos, digitsVal_one]
      rw [hqeq]
  · rw [digitsVal_of_repOk_nonneg hrr (by omega), hremv]

/-! The shared long-division loop. -/

theorem window_facts (dl : List Int) (hd : digOk dl) :
    posNorm (ChonkerInt.mk (normalizeDigits dl) BigIntSign.Positive) ∧
      valC (ChonkerInt.mk (normalizeDigits dl) BigIntSign.Positive) = digitsVal dl ∧
      digOk (normalizeDigits dl) ∧
      (repOk (ChonkerInt.mk (normalizeDigits dl) BigIntSign.Positive) ∨
        ChonkerInt.mk (normalizeDigits dl) BigIntSign.Positive =
          ChonkerInt.mk [] BigIntSign.Positive) := by
  have hnd := normalizeDigits_digOk hd
  have hnt : (normalizeDigits dl).getLast? ≠ some 0 := normalizeDigits_getLast
  refine ⟨?_, ?_, hnd, ?_⟩
  · unfold posNorm
    simp [hnd, hnt]
  · rw [valC_mk_pos]
    exact normalizeDigits_val dl
  · by_cases he : normalizeDigits dl = []
    · right
      rw [he]
    · left
      exact repOk_mk hnd he hnt (by intro hc; cases hc)

set_option maxHeartbeats 1600000 in
theorem divLoop_inv (aD : List Int) (y : ChonkerInt)
    (hdy : digOk y.digits) (hney : y.digits ≠ []) (hty : y.digits.getLast? ≠ some 0)
    (hda : digOk aD) :
    ∀ (idx : Nat) (cut : ChonkerInt) (qacc : List Int), idx ≤ aD.length →
      digOk cut.digits →
      digitsVal cut.digits = digitsVal (aD.drop idx) % digitsVal y.digits →
      (repOk cut ∨ cut = ChonkerInt.mk [] BigIntSign.Positive) →
      cut.sign ≠ BigIntSign.Negative →
      ∃ (qds : List Int) (rem : ChonkerInt),
        divLoop aD y (setPos y) idx cut qacc = Except.ok (qacc ++ qds, rem) ∧
        qds.length = idx ∧ digOk qds ∧
        digitsVal qds.reverse =
          digitsVal aD / digitsVal y.digits -
            digitsVal (aD.drop idx) / digitsVal y.digits * 10 ^ idx ∧
        digOk rem.digits ∧
        digitsVal rem.digits = digitsVal aD % digitsVal y.digits ∧
        (repOk rem ∨ rem = ChonkerInt.mk [] BigIntSign.Positive) ∧
        rem.sign ≠ BigIntSign.Negative := by
  have hY1 : 0 < digitsVal y.digits := digitsVal_pos_of_top hdy hney hty
  set Y := digitsVal y.digits with hYdef
  set L := y.digits.length with hLdef
  have hL1 : 1 ≤ L := by
    rcases hc : y.digits with _ | _
    · exact absurd hc hney
    · rw [hLdef, hc]
      simp
  have hYlo : (10:Int) ^ (L - 1) ≤ Y := digitsVal_ge_pow hdy hney hty
  have hYhi : Y < 10 ^ L := digitsVal_lt_pow hdy
  intro idx
  induction idx with
  | zero =>
    intro cut qacc _ hdc hvc hrep hsgn
    refine ⟨[], cut, ?_, rfl, by decide, ?_, hdc, ?_, hrep, hsgn⟩
    · rw [List.append_nil]
      rfl
    · rw [List.drop_zero, show ([] : List Int).reverse = [] from rfl, digitsVal_nil]
      ring
    · rw [List.drop_zero] at hvc
      exact hvc
  | succ idx ih =>
    intro cut qacc hidx hdc hvc hrep hsgn
    have hidx2 : idx < aD.length := by omega
    have hdig : aD.getD idx 0 = aD.get ⟨idx, hidx2⟩ := List.getD_eq_get aD 0 hidx2
    have hdrop : aD.drop idx = aD.get ⟨idx, hidx2⟩ :: aD.drop (idx + 1) := by
      rw [List.drop_eq_get_cons hidx2]
    have hdigOk : 0 ≤ aD.get ⟨idx, hidx2⟩ ∧ aD.get ⟨idx, hidx2⟩ ≤ 9 := by
      rw [digOk_iff] at hda
      exact hda _ (List.get_mem aD idx hidx2)
    set a0 := aD.get ⟨idx, hidx2⟩ with ha0def
    set C := digitsVal cut.digits with hCdef
    have hC0 : 0 ≤ C := digitsVal_nonneg hdc
    have hCY : C < Y := by
      rw [hvc]
      exact Int.emod_lt_of_pos _ (by omega)
    set w1 : Int := a0 + 10 * C with hw1def
    have hw10 : 0 ≤ w1 := by omega
    have hw1hi : w1 < 10 * Y := by omega
    have hwdOk : digOk (a0 :: cut.digits) := digOk_cons.mpr ⟨hdigOk, hdc⟩
    have hwdVal : digitsVal (a0 :: cut.digits) = w1 := by
      rw [digitsVal_cons]
    obtain ⟨hpn1, hvc1, hdc1, hrep1⟩ := window_facts (a0 :: cut.digits) hwdOk
    set cut1 := ChonkerInt.mk (normalizeDigits (a0 :: cut.digits)) BigIntSign.Positive
      with hcut1def
    have hvcut1 : valC cut1 = w1 := by rw [hvc1, hwdVal]
    have hdvcut1 : digitsVal cut1.digits = w1 := by
      show digitsVal (normalizeDigits (a0 :: cut.digits)) = w1
      rw [normalizeDigits_val, hwdVal]
    have hcut1eq : normalizeC (setPos { cut with digits := aD.getD idx 0 :: cut.digits }) =
        cut1 := by
      rw [hcut1def, hdig]
      rfl
    -- the modulus relation for the extended window
    have hDrel : digitsVal (aD.drop idx) = a0 + 10 * digitsVal (aD.drop (idx + 1)) := by
      rw [hdrop, digitsVal_cons]
    have hmodrel : w1 % Y = digitsVal (aD.drop idx) % Y := by
      rw [hDrel, hw1def, hvc]
      conv_rhs => rw [show digitsVal (aD.drop (idx+1)) =
        Y * (digitsVal (aD.drop (idx+1)) / Y) + digitsVal (aD.drop (idx+1)) % Y from
        (Int.ediv_add_emod _ _).symm]
      rw [show a0 + 10 * (Y * (digitsVal (aD.drop (idx+1)) / Y) +
          digitsVal (aD.drop (idx+1)) % Y) =
        a0 + 10 * (digitsVal (aD.drop (idx+1)) % Y) +
          (10 * (digitsVal (aD.drop (idx+1)) / Y)) * Y from by ring]
      rw [Int.add_mul_emod_self]
    have hdivrel : digitsVal (aD.drop idx) / Y =
        10 * (digitsVal (aD.drop (idx + 1)) / Y) + w1 / Y := by
      rw [hDrel, hw1def, hvc]
      conv_lhs => rw [show digitsVal (aD.drop (idx+1)) =
        Y * (digitsVal (aD.drop (idx+1)) / Y) + digitsVal (aD.drop (idx+1)) % Y from
        (Int.ediv_add_emod _ _).symm]
      rw [show a0 + 10 * (Y * (digitsVal (aD.drop (idx+1)) / Y) +
          digitsVal (aD.drop (idx+1)) % Y) =
        a0 + 10 * (digitsVal (aD.drop (idx+1)) % Y) +
          (10 * (digitsVal (aD.drop (idx+1)) / Y)) * Y from by ring]
      rw [Int.add_mul_ediv_right _ _ (by omega : Y ≠ 0)]
      ring
    have hun : divLoop aD y (setPos y) (idx + 1) cut qacc =
        (if ltC (normalizeC (setPos { cut with digits := aD.getD idx 0 :: cut.digits }))
            (setPos y) then
          divLoop aD y (setPos y) idx
            (normalizeC (setPos { cut with digits := aD.getD idx 0 :: cut.digits }))
            (qacc ++ [0])
        else
          match qeaC (normalizeC (setPos { cut with digits := aD.getD idx 0 :: cut.digits }))
              y with
          | Except.error e => Except.error e
          | Except.ok (qd, rem1) =>
            divLoop aD y (setPos y) idx rem1
              (qacc ++ (if qd.digits.length > 1 then qd.digits.reverse else qd.digits))) :=
      rfl
    rw [hun, hcut1eq]
    have hyrep : repOk (setPos y) := setPos_repOk hdy hney hty
    by_cases hlt : ltC cut1 (setPos y) = true
    · rw [if_pos hlt]
      have hw1Y : w1 < Y := by
        have := (ltC_val (Or.inr hpn1) (Or.inl hyrep)).mp hlt
        rw [hvcut1, valC_setPos] at this
        exact this
      have hq0 : w1 / Y = 0 := Int.ediv_eq_zero_of_lt hw10 hw1Y
      obtain ⟨qds, rem, hloop, hlen, hdq, hbe, hdr, hvr, hrr, hsr⟩ :=
        ih cut1 (qacc ++ [0]) (by omega) hdc1
          (by rw [hdvcut1, ← hmodrel]; exact (Int.emod_eq_of_lt hw10 hw1Y).symm) hrep1
          (by intro hcon; exact BigIntSign.noConfusion hcon)
      refine ⟨[0] ++ qds, rem, ?_, by simp [hlen], ?_, ?_, hdr, hvr, hrr, hsr⟩
      · rw [hloop, List.append_assoc]
      · rw [digOk_iff]
        intro d hd
        simp at hd
        rcases hd with h | h
        · omega
        · rw [digOk_iff] at hdq
          exact hdq d h
      · rw [List.reverse_append, show ([(0:Int)]).reverse = [0] from rfl,
          digitsVal_append, hbe, List.length_reverse, hlen, hdivrel, hq0,
          show digitsVal [(0:Int)] = 0 from by norm_num [digitsVal]]
        ring
    · rw [if_neg hlt]
      have hw1Y : Y ≤ w1 := by
        rcases le_or_lt Y w1 with h | h
        · exact h
        · exfalso
          apply hlt
          apply (ltC_val (Or.inr hpn1) (Or.inl hyrep)).mpr
          rw [hvcut1, valC_setPos]
          exact h
      have hcut1ne : cut1.digits ≠ [] := by
        intro hc
        have : digitsVal cut1.digits = 0 := by rw [hc]; rfl
        omega
      have hcut1top : cut1.digits.getLast? ≠ some 0 := normalizeDigits_getLast
      have hlenc : cut1.digits.length = L ∨ cut1.digits.length = L + 1 := by
        by_cases hsmall : w1 < 10 ^ L
        · left
          apply len_eq_of_val_range hdc1 hcut1ne hcut1top hL1 _ (by rw [hdvcut1]; omega)
          rw [hdvcut1]
          omega
        · right
          apply len_eq_of_val_range hdc1 hcut1ne hcut1top (by omega) _ _
          · rw [hdvcut1, show L + 1 - 1 = L from by omega]
            omega
          · rw [hdvcut1, show L + 1 = (L - 1) + 2 from by omega, pow_add]
            have : w1 < 10 * Y := hw1hi
            have h2 : (10:Int) * Y < 10 * 10 ^ L := by omega
            have h3 : (10:Int) ^ ((L - 1) + 2) = 10 ^ L * 10 := by
              rw [show (L - 1) + 2 = L + 1 from by omega, pow_succ]
            rw [← pow_add, h3]
            omega
      obtain ⟨qd, rem1, hqea, hqdig, hremr, hremv, hremdv⟩ :=
        qeaC_spec cut1 y hdc1 hcut1ne hcut1top hdy hney hty hlenc (by rw [hdvcut1]; omega)
      rw [hdvcut1] at hqdig hremv hremdv
      have hstep : (match qeaC cut1 y with
          | Except.error e => Except.error e
          | Except.ok (qd, rem1) =>
            divLoop aD y (setPos y) idx rem1
              (qacc ++ (if qd.digits.length > 1 then qd.digits.reverse else qd.digits))) =
          divLoop aD y (setPos y) idx rem1
            (qacc ++ (if qd.digits.length > 1 then qd.digits.reverse else qd.digits)) := by
        rw [hqea]
      rw [hstep, hqdig]
      rw [if_neg (show ¬(([w1 / Y] : List Int).length > 1) from by simp)]
      have hq9 : w1 / Y ≤ 9 := by
        have h1 : w1 / Y < 10 := by
          rw [Int.ediv_lt_iff_lt_mul (by omega : (0:Int) < Y)]
          omega
        omega
      have hq0' : 0 ≤ w1 / Y := Int.ediv_nonneg (by omega) (by omega)
      obtain ⟨qds, rem, hloop, hlen, hdq, hbe, hdr, hvr, hrr, hsr⟩ :=
        ih rem1 (qacc ++ [w1 / Y]) (by omega) (repOk_parts hremr).1
          (by rw [hremdv, hmodrel]) (Or.inl hremr)
          (by
            intro hcon
            have hneg := valC_neg_of_repOk hremr hcon
            have hEq : valC rem1 = digitsVal rem1.digits := hremv.trans hremdv.symm
            have h0 : 0 ≤ digitsVal rem1.digits := digitsVal_nonneg (repOk_parts hremr).1
            omega)
      refine ⟨[w1 / Y] ++ qds, rem, ?_, by simp [hlen], ?_, ?_, hdr, hvr, hrr, hsr⟩
      · rw [hloop, List.append_assoc]
      · rw [digOk_iff]
        intro d hd
        simp at hd
        rcases hd with h | h
        · omega
        · rw [digOk_iff] at hdq
          exact hdq d h
      · rw [List.reverse_append, show ([w1 / Y]).reverse = [w1 / Y] from rfl,
          digitsVal_append, hbe, List.length_reverse, hlen, hdivrel,
          digitsVal_one]
        ring

theorem normalizeDigits_of_top {l : List Int} (ht : l.getLast? ≠ some 0) :
    normalizeDigits l = l := by
  rcases List.eq_nil_or_concat l with rfl | ⟨l2, d, rfl⟩
  · rfl
  · have hd0 : d ≠ 0 := by
      intro hc
      apply ht
      rw [List.concat_eq_append, hc, List.getLast?_append_of_ne_nil _ (by simp)]
      rfl
    unfold normalizeDigits
    rw [List.concat_eq_append, List.reverse_append,
      show ([d] : List Int).reverse = [d] from rfl, List.singleton_append,
      List.dropWhile_cons, if_neg (by simpa using hd0), List.reverse_cons,
      List.reverse_reverse]

theorem normalizeC_of_repOk {x : ChonkerInt} (h : repOk x) : normalizeC x = x := by
  have hnd : normalizeDigits x.digits = x.digits := by
    obtain ⟨hd, hc⟩ := repOk_parts h
    rcases hs : x.sign with _ | _ | _
    · exact normalizeDigits_of_top (canonC_pos_arm hc (by rw [hs]; intro hcon; cases hcon)).2
    · rw [canonC_zero_arm hc hs]
      rfl
    · exact normalizeDigits_of_top (canonC_pos_arm hc (by rw [hs]; intro hcon; cases hcon)).2
  show { x with digits := normalizeDigits x.digits } = x
  rw [hnd]

theorem subTail_id : ∀ (l : List Int), digOk l → subTail l 0 = l := by
  intro l
  induction l with
  | nil => intro _; rfl
  | cons a t ih =>
    intro h
    rw [digOk_cons] at h
    rw [show subTail (a :: t) 0 =
      (if a - 0 < 0 then (a - 0 + 10) :: subTail t 1 else (a - 0) :: subTail t 0) from rfl,
      if_neg (by omega)]
    rw [sub_zero, ih h.2]

theorem digOk_drop {l : List Int} (n : Nat) (h : digOk l) : digOk (l.drop n) := by
  rw [digOk_iff] at h ⊢
  intro d hd
  exact h d (List.mem_of_mem_drop hd)

theorem getLast?_drop_ne {l : List Int} {n : Nat} (h : l.drop n ≠ []) :
    (l.drop n).getLast? = l.getLast? := by
  conv_rhs => rw [← List.take_append_drop n l]
  rw [List.getLast?_append_of_ne_nil _ h]

theorem addC_negE (y : ChonkerInt) (hy : repOk y) (hs : y.sign = BigIntSign.Positive) :
    addC (ChonkerInt.mk [] BigIntSign.Negative) y = y := by
  obtain ⟨hdy, hcy⟩ := repOk_parts hy
  obtain ⟨hney, hty⟩ := canonC_pos_arm hcy (by rw [hs]; intro hcon; cases hcon)
  have h1 : addC (ChonkerInt.mk [] BigIntSign.Negative) y =
      subFuel 2 y (negC (ChonkerInt.mk [] BigIntSign.Negative)) := by
    rw [show addC (ChonkerInt.mk [] BigIntSign.Negative) y =
      addFuel (2 + 1) (ChonkerInt.mk [] BigIntSign.Negative) y from rfl, addFuel_unfold]
    rw [if_neg (by intro hcon; cases hcon), if_neg (by rw [hs]; intro hcon; cases hcon),
      if_pos (by rw [hs]; intro hcon; cases hcon), if_neg (by intro hcon; cases hcon)]
  rw [h1, show negC (ChonkerInt.mk [] BigIntSign.Negative) =
    ChonkerInt.mk [] BigIntSign.Positive from rfl]
  rw [show subFuel 2 y (ChonkerInt.mk [] BigIntSign.Positive) =
    subFuel (1 + 1) y (ChonkerInt.mk [] BigIntSign.Positive) from rfl, subFuel_unfold]
  rw [if_neg (by rw [hs]; intro hcon; exact BigIntSign.noConfusion hcon.1),
    if_neg (by intro hcon; cases hcon), if_neg (by rw [hs]; simp),
    if_neg (by rw [hs]; intro hcon; cases hcon)]
  have hcmp : cmpC y (ChonkerInt.mk [] BigIntSign.Positive) = Ordering.gt := by
    apply cmpC_pos_len_gt hs rfl
    show 0 < y.digits.length
    rcases hly : y.digits with _ | _
    · exact absurd hly hney
    · simp
  rw [hcmp]
  show normalizeC { digits := subPair y.digits [] 0, sign := BigIntSign.Positive } = y
  rw [show subPair y.digits [] 0 = subTail y.digits 0 from by
    rcases y.digits with _ | _ <;> rfl]
  rw [subTail_id y.digits hdy]
  have : normalizeC { digits := y.digits, sign := BigIntSign.Positive } =
      { digits := normalizeDigits y.digits, sign := BigIntSign.Positive } := rfl
  rw [this, normalizeDigits_of_top hty]
  obtain ⟨dl, sg⟩ := y
  simp only at hs
  rw [hs]

theorem addC_posE (y : ChonkerInt) (hy : repOk y) (hs : y.sign = BigIntSign.Negative) :
    addC (ChonkerInt.mk [] BigIntSign.Positive) y = y := by
  obtain ⟨hdy, hcy⟩ := repOk_parts hy
  obtain ⟨hney, hty⟩ := canonC_pos_arm hcy (by rw [hs]; intro hcon; cases hcon)
  have h1 : addC (ChonkerInt.mk [] BigIntSign.Positive) y =
      subFuel 2 (ChonkerInt.mk [] BigIntSign.Positive) (negC y) := by
    rw [show addC (ChonkerInt.mk [] BigIntSign.Positive) y =
      addFuel (2 + 1) (ChonkerInt.mk [] BigIntSign.Positive) y from rfl, addFuel_unfold]
    rw [if_neg (by intro hcon; cases hcon), if_neg (by rw [hs]; intro hcon; cases hcon),
      if_pos (by rw [hs]; intro hcon; cases hcon), if_pos rfl]
  have hneg : negC y = ChonkerInt.mk y.digits BigIntSign.Positive := by
    unfold negC
    rw [hs]
  rw [h1, hneg]
  rw [show subFuel 2 (ChonkerInt.mk [] BigIntSign.Positive)
      (ChonkerInt.mk y.digits BigIntSign.Positive) =
    subFuel (1 + 1) (ChonkerInt.mk [] BigIntSign.Positive)
      (ChonkerInt.mk y.digits BigIntSign.Positive) from rfl, subFuel_unfold]
  rw [if_neg (by intro hcon; exact BigIntSign.noConfusion hcon.1),
    if_neg (by intro hcon; cases hcon), if_neg (by simp),
    if_neg (by intro hcon; cases hcon)]
  have hcmp : cmpC (ChonkerInt.mk [] BigIntSign.Positive)
      (ChonkerInt.mk y.digits BigIntSign.Positive) = Ordering.lt := by
    apply cmpC_pos_len_lt rfl rfl
    show 0 < y.digits.length
    rcases hly : y.digits with _ | _
    · exact absurd hly hney
    · simp
  rw [hcmp]
  show normalizeC { digits := subPair y.digits [] 0, sign := BigIntSign.Negative } = y
  rw [show subPair y.digits [] 0 = subTail y.digits 0 from by
    rcases y.digits with _ | _ <;> rfl]
  rw [subTail_id y.digits hdy]
  have : normalizeC { digits := y.digits, sign := BigIntSign.Negative } =
      { digits := normalizeDigits y.digits, sign := BigIntSign.Negative } := rfl
  rw [this, normalizeDigits_of_top hty]
  obtain ⟨dl, sg⟩ := y
  simp only at hs
  rw [hs]

set_option maxHeartbeats 1600000 in
theorem divMain_spec (x y : ChonkerInt)
    (hdx : digOk x.digits) (hnex : x.digits ≠ []) (htx : x.digits.getLast? ≠ some 0)
    (hdy : digOk y.digits) (hney : y.digits ≠ []) (hty : y.digits.getLast? ≠ some 0)
    (hlen : y.digits.length < x.digits.length) :
    ∃ (qacc : List Int) (rem : ChonkerInt),
      divMain x y (setPos x) (setPos y) = Except.ok (qacc, rem) ∧
      qacc ≠ [] ∧ digOk qacc ∧
      digitsVal qacc.reverse = digitsVal x.digits / digitsVal y.digits ∧
      digOk rem.digits ∧
      digitsVal rem.digits = digitsVal x.digits % digitsVal y.digits ∧
      (repOk rem ∨ rem = ChonkerInt.mk [] BigIntSign.Positive) ∧
      rem.sign ≠ BigIntSign.Negative := by
  set A := digitsVal x.digits with hAdef
  set Y := digitsVal y.digits with hYdef
  set L := y.digits.length with hLdef
  have hY1 : 0 < Y := digitsVal_pos_of_top hdy hney hty
  have hL1 : 1 ≤ L := by
    rcases hc : y.digits with _ | _
    · exact absurd hc hney
    · rw [hLdef, hc]
      simp
  have hYlo : (10:Int) ^ (L - 1) ≤ Y := digitsVal_ge_pow hdy hney hty
  have hgt : gtC (setPos x) (setPos y) = true := by
    unfold gtC
    rw [cmpC_pos_len_gt rfl rfl (show (setPos y).digits.length < (setPos x).digits.length
      from hlen)]
    rfl
  have hfw : firstWindow x y (setPos x) (setPos y) = L := by
    unfold firstWindow
    rw [if_pos (Or.inr hgt)]
  set n0 := x.digits.length - L with hn0def
  have hn01 : 1 ≤ n0 := by omega
  set chunk := x.digits.drop n0 with hchunkdef
  have hchunklen : chunk.length = L := by
    rw [hchunkdef, List.length_drop]
    omega
  have hchunkne : chunk ≠ [] := by
    intro hc
    rw [hc] at hchunklen
    simp at hchunklen
    omega
  have hchunktop : chunk.getLast? ≠ some 0 := by
    rw [hchunkdef, getLast?_drop_ne (hchunkdef ▸ hchunkne)]
    exact htx
  have hchunkd : digOk chunk := digOk_drop n0 hdx
  set W0 := digitsVal chunk with hW0def
  have hW0hi : W0 < 10 * Y := by
    have h1 : W0 < 10 ^ L := by
      rw [hW0def, ← hchunklen]
      exact digitsVal_lt_pow hchunkd
    have h2 : (10:Int) ^ L = 10 * 10 ^ (L - 1) := by
      conv_lhs => rw [show L = (L - 1) + 1 from by omega]
      rw [pow_succ]
      ring
    omega
  have hW00 : 0 ≤ W0 := digitsVal_nonneg hchunkd
  set cut0 := ChonkerInt.mk chunk BigIntSign.Positive with hcut0def
  obtain ⟨qd0, rem0, hqea, hqdig, hremr0, hremv0, hremdv0⟩ :=
    qeaC_spec cut0 y hchunkd hchunkne hchunktop hdy hney hty (Or.inl hchunklen)
      (by rw [show cut0.digits = chunk from rfl]; omega)
  rw [show digitsVal cut0.digits = W0 from rfl] at hqdig hremv0 hremdv0
  have hun : divMain x y (setPos x) (setPos y) =
      (match qeaC (ChonkerInt.mk
          (x.digits.drop (x.digits.length - firstWindow x y (setPos x) (setPos y)))
          BigIntSign.Positive) y with
       | Except.error e => Except.error e
       | Except.ok (qd, rem1) =>
         divLoop x.digits y (setPos y)
           (x.digits.length - firstWindow x y (setPos x) (setPos y)) rem1
           (if qd.digits.length > 1 then qd.digits.reverse else qd.digits)) := rfl
  rw [hun, hfw]
  have hstep : (match qeaC (ChonkerInt.mk (x.digits.drop (x.digits.length - L))
        BigIntSign.Positive) y with
       | Except.error e => Except.error e
       | Except.ok (qd, rem1) =>
         divLoop x.digits y (setPos y) (x.digits.length - L) rem1
           (if qd.digits.length > 1 then qd.digits.reverse else qd.digits)) =
      divLoop x.digits y (setPos y) n0 rem0
        (if qd0.digits.length > 1 then qd0.digits.reverse else qd0.digits) := by
    rw [show ChonkerInt.mk (x.digits.drop (x.digits.length - L)) BigIntSign.Positive =
      cut0 from rfl, hqea]
  rw [hstep, hqdig]
  rw [if_neg (show ¬(([W0 / Y] : List Int).length > 1) from by simp)]
  have hq9 : W0 / Y ≤ 9 := by
    have h1 : W0 / Y < 10 := by
      rw [Int.ediv_lt_iff_lt_mul (by omega : (0:Int) < Y)]
      omega
    omega
  have hq0 : 0 ≤ W0 / Y := Int.ediv_nonneg (by omega) (by omega)
  obtain ⟨qds, rem, hloop, hlenq, hdq, hbe, hdr, hvr, hrr, hsr⟩ :=
    divLoop_inv x.digits y hdy hney hty hdx n0 rem0 [W0 / Y] (by omega)
      (repOk_parts hremr0).1 hremdv0 (Or.inl hremr0)
      (by
        intro hcon
        have hneg := valC_neg_of_repOk hremr0 hcon
        have hEq : valC rem0 = digitsVal rem0.digits := hremv0.trans hremdv0.symm
        have h0 : 0 ≤ digitsVal rem0.digits := digitsVal_nonneg (repOk_parts hremr0).1
        omega)
  refine ⟨[W0 / Y] ++ qds, rem, hloop, by simp, ?_, ?_, hdr, hvr, hrr, hsr⟩
  · rw [digOk_iff]
    intro d hd
    simp at hd
    rcases hd with h | h
    · omega
    · rw [digOk_iff] at hdq
      exact hdq d h
  · rw [List.reverse_append, show ([W0 / Y]).reverse = [W0 / Y] from rfl,
      digitsVal_append, hbe, List.length_reverse, hlenq, digitsVal_one,
      show digitsVal (x.digits.drop n0) = W0 from rfl]
    ring

theorem pushVec_newC (l : List Int) :
    pushVec newC l = ChonkerInt.mk l BigIntSign.Positive := rfl

theorem tdiv_by_signs (x y : ChonkerInt) (hx : repOk x) (hy : repOk y)
    (hsx : x.sign ≠ BigIntSign.Zero) (hsy : y.sign ≠ BigIntSign.Zero) :
    Int.tdiv (valC x) (valC y) =
      (if x.sign = y.sign then digitsVal x.digits / digitsVal y.digits
       else -(digitsVal x.digits / digitsVal y.digits)) := by
  have hA0 : 0 ≤ digitsVal x.digits := digitsVal_nonneg (repOk_parts hx).1
  have hB0 : 0 ≤ digitsVal y.digits := digitsVal_nonneg (repOk_parts hy).1
  rcases hsx1 : x.sign with _ | _ | _
  · rcases hsy1 : y.sign with _ | _ | _
    · rw [valC_eq_pos hsx1, valC_eq_pos hsy1, if_pos rfl, Int.tdiv_eq_ediv hA0 hB0]
    · exact absurd hsy1 hsy
    · rw [valC_eq_pos hsx1, valC_eq_neg hsy1, if_neg (by intro hc; cases hc),
        Int.tdiv_neg, Int.tdiv_eq_ediv hA0 hB0]
  · exact absurd hsx1 hsx
  · rcases hsy1 : y.sign with _ | _ | _
    · rw [valC_eq_neg hsx1, valC_eq_pos hsy1, if_neg (by intro hc; cases hc),
        Int.neg_tdiv, Int.tdiv_eq_ediv hA0 hB0]
    · exact absurd hsy1 hsy
    · rw [valC_eq_neg hsx1, valC_eq_neg hsy1, if_pos rfl, Int.neg_tdiv, Int.tdiv_neg,
        Int.tdiv_eq_ediv hA0 hB0, neg_neg]

set_option maxHeartbeats 1600000 in
theorem divC_spec (x y : ChonkerInt) (hx : repOk x) (hy : repOk y) (hvy : valC y ≠ 0) :
    ∃ q, divC x y = some q ∧ repOk q ∧ valC q = Int.tdiv (valC x) (valC y) := by
  have hsy : y.sign ≠ BigIntSign.Zero := by
    intro hc
    exact hvy (valC_eq_zero hc)
  obtain ⟨hdy, hcy⟩ := repOk_parts hy
  obtain ⟨hney, hty⟩ := canonC_pos_arm hcy hsy
  have hB1 : 0 < digitsVal y.digits := digitsVal_pos_of_top hdy hney hty
  have hynew : y ≠ newC := by
    intro hc
    rw [hc] at hvy
    exact hvy rfl
  have hun : divC x y =
      (if y = newC ∨ y.digits.isEmpty then none
       else if x = newC ∨ x.digits.isEmpty then some newC
       else if ltC (setPos x) (setPos y) then some newC
       else if x = y ∧ x = setPos y then some (fromIntC 1)
       else if x ≠ y ∧ x = setPos y then some (fromIntC (-1))
       else if x = y ∧ x ≠ setPos y then some (fromIntC 1)
       else if x ≠ y ∧ setPos x = y then some (fromIntC (-1))
       else
         match (if x.digits.length > y.digits.length then
             match divMain x y (setPos x) (setPos y) with
             | Except.error _ => none
             | Except.ok (qacc, _) => some (pushVec newC qacc.reverse)
           else
             match qeaC x y with
             | Except.error _ => none
             | Except.ok (qd, _) => some (pushVec newC qd.digits)) with
         | none => none
         | some quotient =>
           some (normalizeC
             (if ¬quotient.digits.isEmpty then
               (if x.sign ≠ y.sign then setNeg quotient else setPos quotient)
              else quotient))) := rfl
  rw [hun, if_neg (show ¬(y = newC ∨ y.digits.isEmpty = true) from by
    intro h
    rcases h with h | h
    · exact hynew h
    · exact hney (List.isEmpty_iff.mp h))]
  by_cases hx0 : x.sign = BigIntSign.Zero
  · have hdx0 : x.digits = [] := canonC_zero_arm (repOk_parts hx).2 hx0
    have hxnew : x = newC := by
      obtain ⟨dl, sg⟩ := x
      simp only at hdx0 hx0
      rw [show newC = ChonkerInt.mk [] BigIntSign.Zero from rfl, hdx0, hx0]
    rw [if_pos (Or.inl hxnew)]
    refine ⟨newC, rfl, repOk_newC, ?_⟩
    rw [valC_eq_zero hx0, Int.zero_tdiv]
    rfl
  · obtain ⟨hdx, hcx⟩ := repOk_parts hx
    obtain ⟨hnex, htx⟩ := canonC_pos_arm hcx hx0
    have hA1 : 0 < digitsVal x.digits := digitsVal_pos_of_top hdx hnex htx
    have hxnew : x ≠ newC := by
      intro hc
      rw [hc] at hx0
      exact hx0 rfl
    rw [if_neg (show ¬(x = newC ∨ x.digits.isEmpty = true) from by
      intro h
      rcases h with h | h
      · exact hxnew h
      · exact hnex (List.isEmpty_iff.mp h))]
    have hxrep : repOk (setPos x) := setPos_repOk hdx hnex htx
    have hyrep : repOk (setPos y) := setPos_repOk hdy hney hty
    have htd := tdiv_by_signs x y hx hy hx0 hsy
    by_cases hAB : digitsVal x.digits < digitsVal y.digits
    · rw [if_pos ((ltC_val (Or.inl hxrep) (Or.inl hyrep)).mpr
        (by rw [valC_setPos, valC_setPos]; exact hAB))]
      refine ⟨newC, rfl, repOk_newC, ?_⟩
      rw [htd, Int.ediv_eq_zero_of_lt (by omega) hAB]
      by_cases hss : x.sign = y.sign
      · rw [if_pos hss]
        rfl
      · rw [if_neg hss]
        decide
    · rw [if_neg (show ¬(ltC (setPos x) (setPos y) = true) from by
        intro h
        have := (ltC_val (Or.inl hxrep) (Or.inl hyrep)).mp h
        rw [valC_setPos, valC_setPos] at this
        exact hAB this)]
      by_cases hABeq : digitsVal x.digits = digitsVal y.digits
      · have hdeq : x.digits = y.digits := digits_unique _ _ hdx hdy htx hty hABeq
        rcases hsx1 : x.sign with _ | _ | _
        · rcases hsy1 : y.sign with _ | _ | _
          · -- positive / positive: x = y = setPos y
            have hxy : x = y := chonk_unique hx hy
              (by rw [valC_eq_pos hsx1, valC_eq_pos hsy1, hABeq])
            rw [if_pos ⟨hxy, by rw [setPos_eq_self hsy1]; exact hxy⟩]
            refine ⟨fromIntC 1, rfl, by decide, ?_⟩
            rw [hxy, Int.tdiv_self hvy]
            decide
          · exact absurd hsy1 hsy
          · -- positive / negative: x = setPos y, x ≠ y
            have hxay : x = setPos y := by
              obtain ⟨dl, sg⟩ := x
              simp only at hsx1 hdeq
              show ChonkerInt.mk dl sg = ChonkerInt.mk y.digits BigIntSign.Positive
              rw [hdeq, hsx1]
            have hxny : x ≠ y := by
              intro hc
              rw [hc] at hsx1
              rw [hsx1] at hsy1
              cases hsy1
            rw [if_neg (by intro hc; exact hxny hc.1), if_pos ⟨hxny, hxay⟩]
            refine ⟨fromIntC (-1), rfl, by decide, ?_⟩
            have hXY : valC x = -valC y := by
              rw [valC_eq_pos hsx1, valC_eq_neg hsy1, hABeq]
              ring
            rw [hXY, Int.neg_tdiv, Int.tdiv_self hvy]
            decide
        · exact absurd hsx1 hx0
        · rcases hsy1 : y.sign with _ | _ | _
          · -- negative / positive: setPos x = y, x ≠ y
            have hxay : setPos x = y := by
              obtain ⟨dl, sg⟩ := y
              simp only at hsy1 hdeq
              show ChonkerInt.mk x.digits BigIntSign.Positive = ChonkerInt.mk dl sg
              rw [← hdeq, hsy1]
            have hxny : x ≠ y := by
              intro hc
              rw [← hc] at hsy1
              rw [hsy1] at hsx1
              cases hsx1
            have hxnay : x ≠ setPos y := by
              intro hc
              have : x.sign = BigIntSign.Positive := by rw [hc]; rfl
              rw [this] at hsx1
              cases hsx1
            rw [if_neg (by intro hc; exact hxny hc.1),
              if_neg (by intro hc; exact hxnay hc.2),
              if_neg (by intro hc; exact hxny hc.1),
              if_pos ⟨hxny, hxay⟩]
            refine ⟨fromIntC (-1), rfl, by decide, ?_⟩
            have hXY : valC x = -valC y := by
              rw [valC_eq_neg hsx1, valC_eq_pos hsy1, hABeq]
            rw [hXY, Int.neg_tdiv, Int.tdiv_self hvy]
            decide
          · exact absurd hsy1 hsy
          · -- negative / negative: x = y, x ≠ setPos y
            have hxy : x = y := chonk_unique hx hy
              (by rw [valC_eq_neg hsx1, valC_eq_neg hsy1, hABeq])
            have hxnay : x ≠ setPos y := by
              intro hc
              have : x.sign = BigIntSign.Positive := by rw [hc]; rfl
              rw [this] at hsx1
              cases hsx1
            rw [if_neg (by intro hc; exact hxnay hc.2),
              if_neg (by intro hc; exact hxnay hc.2),
              if_pos ⟨hxy, hxnay⟩]
            refine ⟨fromIntC 1, rfl, by decide, ?_⟩
            rw [hxy, Int.tdiv_self hvy]
            decide
      · -- strict main branch: digitsVal y.digits < digitsVal x.digits
        have hBA : digitsVal y.digits < digitsVal x.digits := by omega
        have hnxy : x ≠ y := by
          intro hc
          rw [hc] at hABeq
          exact hABeq rfl
        have hnxay : x ≠ setPos y := by
          intro hc
          have hcd : x.digits = y.digits := by
            rw [hc]
            rfl
          exact hABeq (congrArg digitsVal hcd)
        have hnaxy : setPos x ≠ y := by
          intro hc
          have hcd : x.digits = y.digits := by
            rw [← hc]
            rfl
          exact hABeq (congrArg digitsVal hcd)
        rw [if_neg (by intro hc; exact hnxy hc.1),
          if_neg (by intro hc; exact hnxay hc.2),
          if_neg (by intro hc; exact hnxy hc.1),
          if_neg (by intro hc; exact hnaxy hc.2)]
        have hq1 : 1 ≤ digitsVal x.digits / digitsVal y.digits := by
          rw [Int.le_ediv_iff_mul_le hB1]
          omega
        have hmain : ∃ l : List Int,
            (if x.digits.length > y.digits.length then
              match divMain x y (setPos x) (setPos y) with
              | Except.error _ => none
              | Except.ok (qacc, _) => some (pushVec newC qacc.reverse)
            else
              match qeaC x y with
              | Except.error _ => none
              | Except.ok (qd, _) => some (pushVec newC qd.digits)) =
              some (ChonkerInt.mk l BigIntSign.Positive) ∧
            digOk l ∧ digitsVal l = digitsVal x.digits / digitsVal y.digits := by
          by_cases hlen2 : x.digits.length > y.digits.length
          · obtain ⟨qacc, rem, hdm, hqne, hqd, hqv, _, _, _, _⟩ :=
              divMain_spec x y hdx hnex htx hdy hney hty hlen2
            refine ⟨qacc.reverse, ?_, ?_, hqv⟩
            · rw [if_pos hlen2]
              have hstep : (match divMain x y (setPos x) (setPos y) with
                  | Except.error _ => none
                  | Except.ok (qacc, _) => some (pushVec newC qacc.reverse)) =
                  some (pushVec newC qacc.reverse) := by rw [hdm]
              rw [hstep, pushVec_newC]
            · rw [digOk_reverse]
              exact hqd
          · have hlenge : y.digits.length ≤ x.digits.length := by
              have h := len_le_of_val_le (Or.inl hyrep) (Or.inl hxrep)
                (by rw [valC_setPos, valC_setPos]; omega) rfl rfl
              exact h
            have hleneq : x.digits.length = y.digits.length := by omega
            have hrange : digitsVal x.digits < 10 * digitsVal y.digits := by
              have h1 : digitsVal x.digits < 10 ^ x.digits.length := digitsVal_lt_pow hdx
              have h2 : (10:Int) ^ (y.digits.length - 1) ≤ digitsVal y.digits :=
                digitsVal_ge_pow hdy hney hty
              have hL1 : 1 ≤ y.digits.length := by
                rcases hc : y.digits with _ | _
                · exact absurd hc hney
                · simp
              have h3 : (10:Int) ^ x.digits.length = 10 * 10 ^ (y.digits.length - 1) := by
                rw [hleneq]
                conv_lhs => rw [show y.digits.length = (y.digits.length - 1) + 1 from by omega]
                rw [pow_succ]
                ring
              omega
            obtain ⟨qd, rem, hqea, hqdig, _, _, _⟩ :=
              qeaC_spec x y hdx hnex htx hdy hney hty (Or.inl hleneq) hrange
            refine ⟨[digitsVal x.digits / digitsVal y.digits], ?_, ?_, digitsVal_one _⟩
            · rw [if_neg hlen2]
              have hstep : (match qeaC x y with
                  | Except.error _ => none
                  | Except.ok (qd, _) => some (pushVec newC qd.digits)) =
                  some (pushVec newC qd.digits) := by rw [hqea]
              rw [hstep, hqdig, pushVec_newC]
            · rw [digOk_iff]
              intro d hd
              simp at hd
              have h9 : digitsVal x.digits / digitsVal y.digits ≤ 9 := by
                have h1 : digitsVal x.digits / digitsVal y.digits < 10 := by
                  rw [Int.ediv_lt_iff_lt_mul hB1]
                  omega
                omega
              omega
        obtain ⟨l, hcoll, hld, hlv⟩ := hmain
        have hstep2 : (match (if x.digits.length > y.digits.length then
              match divMain x y (setPos x) (setPos y) with
              | Except.error _ => none
              | Except.ok (qacc, _) => some (pushVec newC qacc.reverse)
            else
              match qeaC x y with
              | Except.error _ => none
              | Except.ok (qd, _) => some (pushVec newC qd.digits)) with
          | none => none
          | some quotient =>
            some (normalizeC
              (if ¬quotient.digits.isEmpty then
                (if x.sign ≠ y.sign then setNeg quotient else setPos quotient)
               else quotient))) =
            some (normalizeC
              (if ¬(ChonkerInt.mk l BigIntSign.Positive).digits.isEmpty then
                (if x.sign ≠ y.sign then setNeg (ChonkerInt.mk l BigIntSign.Positive)
                 else setPos (ChonkerInt.mk l BigIntSign.Positive))
               else ChonkerInt.mk l BigIntSign.Positive)) := by
          rw [hcoll]
        rw [hstep2]
        have hlne : l ≠ [] := by
          intro hc
          rw [hc, show digitsVal ([] : List Int) = 0 from rfl] at hlv
          omega
        rw [if_pos (show ¬((ChonkerInt.mk l BigIntSign.Positive).digits.isEmpty = true) from by
          rw [List.isEmpty_iff]
          exact hlne)]
        have hnl : normalizeDigits l ≠ [] := by
          intro hc
          have hv := normalizeDigits_val l
          rw [hc, show digitsVal ([] : List Int) = 0 from rfl] at hv
          omega
        have hvn : digitsVal (normalizeDigits l) = digitsVal x.digits / digitsVal y.digits := by
          rw [normalizeDigits_val]
          exact hlv
        by_cases hss : x.sign = y.sign
        · rw [if_neg (show ¬(x.sign ≠ y.sign) from by intro hc; exact hc hss)]
          have hred : normalizeC (setPos (ChonkerInt.mk l BigIntSign.Positive)) =
              ChonkerInt.mk (normalizeDigits l) BigIntSign.Positive := rfl
          rw [hred]
          refine ⟨_, rfl, repOk_mk (normalizeDigits_digOk hld) hnl normalizeDigits_getLast
            (by intro hc; cases hc), ?_⟩
          rw [htd, if_pos hss, valC_mk_pos, hvn]
        · rw [if_pos hss]
          have hred : normalizeC (setNeg (ChonkerInt.mk l BigIntSign.Positive)) =
              ChonkerInt.mk (normalizeDigits l) BigIntSign.Negative := rfl
          rw [hred]
          refine ⟨_, rfl, repOk_mk (normalizeDigits_digOk hld) hnl normalizeDigits_getLast
            (by intro hc; cases hc), ?_⟩
          rw [htd, if_neg hss, valC_mk_neg, hvn]

set_option maxHeartbeats 3200000 in
theorem remC_spec (x y : ChonkerInt) (hx : repOk x) (hy : repOk y) (hvy : valC y ≠ 0) :
    ∃ r, remC x y = some r ∧ digOk r.digits ∧
      valC y ∣ (valC x - valC r) ∧
      (¬ valC y ∣ valC x →
        repOk r ∧
        (0 < valC y → 0 < valC r ∧ valC r < valC y) ∧
        (valC y < 0 → valC y < valC r ∧ valC r < 0)) ∧
      (valC y ∣ valC x →
        valC r = 0 ∨ (valC r = valC y ∧ ¬ x.sign = y.sign ∧ valC x ≠ 0)) ∧
      (valC r = 0 → r.digits = []) := by
  have hsy : y.sign ≠ BigIntSign.Zero := fun hc => hvy (valC_eq_zero hc)
  obtain ⟨hdy, hcy⟩ := repOk_parts hy
  obtain ⟨hney, hty⟩ := canonC_pos_arm hcy hsy
  have hB1 : 0 < digitsVal y.digits := digitsVal_pos_of_top hdy hney hty
  have hynew : y ≠ newC := by
    intro hc
    rw [hc] at hvy
    exact hvy rfl
  have habsy : |valC y| = digitsVal y.digits := by
    rcases hs : y.sign with _ | _ | _
    · rw [valC_eq_pos hs]
      exact abs_of_nonneg (digitsVal_nonneg hdy)
    · exact absurd hs hsy
    · rw [valC_eq_neg hs, abs_neg]
      exact abs_of_nonneg (digitsVal_nonneg hdy)
  have hun : remC x y =
      (if y = newC ∨ y.digits.isEmpty then none
       else if x = newC ∨ x.digits.isEmpty then some newC
       else if ltC (setPos x) (setPos y) then
         if (x.sign = BigIntSign.Negative ∧ y.sign = BigIntSign.Positive)
             ∨ (x.sign = BigIntSign.Positive ∧ y.sign = BigIntSign.Negative) then
           some (addC y x)
         else if x.sign = BigIntSign.Negative ∧ y.sign = BigIntSign.Negative then some x
         else some x
       else
         match (if x.digits.length > y.digits.length then
             match divMain x y (setPos x) (setPos y) with
             | Except.error _ => none
             | Except.ok (_, rem1) => some rem1
           else
             match qeaC x y with
             | Except.error _ => none
             | Except.ok (_, rem1) => some rem1) with
         | none => none
         | some remainder =>
           some (normalizeC
             (if remainder ≠ newC then
               (if x.sign = BigIntSign.Negative ∧ y.sign = BigIntSign.Positive then
                 addC (setNeg remainder) y
                else if x.sign = BigIntSign.Positive ∧ y.sign = BigIntSign.Negative then
                 addC remainder y
                else if x.sign = BigIntSign.Negative ∧ y.sign = BigIntSign.Negative then
                 setNeg remainder
                else remainder)
              else remainder))) := rfl
  rw [hun, if_neg (show ¬(y = newC ∨ y.digits.isEmpty = true) from by
    intro h
    rcases h with h | h
    · exact hynew h
    · exact hney (List.isEmpty_iff.mp h))]
  by_cases hx0 : x.sign = BigIntSign.Zero
  · have hdx0 : x.digits = [] := canonC_zero_arm (repOk_parts hx).2 hx0
    have hxnew : x = newC := by
      obtain ⟨dl, sg⟩ := x
      simp only at hdx0 hx0
      rw [show newC = ChonkerInt.mk [] BigIntSign.Zero from rfl, hdx0, hx0]
    rw [if_pos (Or.inl hxnew)]
    refine ⟨newC, rfl, by decide, ?_, ?_, ?_, ?_⟩
    · rw [valC_eq_zero hx0, show valC newC = 0 from rfl, sub_zero]
      exact dvd_zero _
    · intro hnd
      exact absurd (by rw [valC_eq_zero hx0]; exact dvd_zero _) hnd
    · intro _
      exact Or.inl rfl
    · intro _
      rfl
  · obtain ⟨hdx, hcx⟩ := repOk_parts hx
    obtain ⟨hnex, htx⟩ := canonC_pos_arm hcx hx0
    have hA1 : 0 < digitsVal x.digits := digitsVal_pos_of_top hdx hnex htx
    have hxnew : x ≠ newC := by
      intro hc
      rw [hc] at hx0
      exact hx0 rfl
    rw [if_neg (show ¬(x = newC ∨ x.digits.isEmpty = true) from by
      intro h
      rcases h with h | h
      · exact hxnew h
      · exact hnex (List.isEmpty_iff.mp h))]
    have hxrep : repOk (setPos x) := setPos_repOk hdx hnex htx
    have hyrep : repOk (setPos y) := setPos_repOk hdy hney hty
    have habsx : |valC x| = digitsVal x.digits := by
      rcases hs : x.sign with _ | _ | _
      · rw [valC_eq_pos hs]
        exact abs_of_nonneg (digitsVal_nonneg hdx)
      · exact absurd hs hx0
      · rw [valC_eq_neg hs, abs_neg]
        exact abs_of_nonneg (digitsVal_nonneg hdx)
    have hdvd_iff : (valC y ∣ valC x) ↔
        digitsVal x.digits % digitsVal y.digits = 0 := by
      rw [← abs_dvd, ← dvd_abs, habsx, habsy, Int.dvd_iff_emod_eq_zero]
    by_cases hAB : digitsVal x.digits < digitsVal y.digits
    · -- quick branch: |x| < |y|
      rw [if_pos ((ltC_val (Or.inl hxrep) (Or.inl hyrep)).mpr
        (by rw [valC_setPos, valC_setPos]; exact hAB))]
      have hndqk : ¬ valC y ∣ valC x := by
        intro hd
        have h1 : |valC y| ∣ |valC x| := (dvd_abs _ _).mpr ((abs_dvd _ _).mpr hd)
        have h2 : 0 < |valC x| := by
          rw [habsx]
          exact hA1
        have h3 := Int.le_of_dvd h2 h1
        rw [habsx, habsy] at h3
        omega
      rcases hsx1 : x.sign with _ | _ | _
      · rcases hsy1 : y.sign with _ | _ | _
        · -- positive / positive: result x itself
          rw [if_neg (by decide), if_neg (by decide)]
          refine ⟨x, rfl, hdx, by rw [sub_self]; exact dvd_zero _, ?_, ?_, ?_⟩
          · intro _
            refine ⟨hx, ?_, ?_⟩
            · intro _
              rw [valC_eq_pos hsx1, valC_eq_pos hsy1]
              exact ⟨hA1, hAB⟩
            · intro hyneg
              rw [valC_eq_pos hsy1] at hyneg
              omega
          · intro hd
            exact absurd hd hndqk
          · intro h0
            rw [valC_eq_pos hsx1] at h0
            omega
        · exact absurd hsy1 hsy
        · -- positive / negative: result y + x
          rw [if_pos (by decide)]
          obtain ⟨hra, hva⟩ := addC_spec y x hy hx
          refine ⟨addC y x, rfl, (repOk_parts hra).1, ?_, ?_, ?_, ?_⟩
          · rw [hva]
            exact ⟨-1, by ring⟩
          · intro _
            refine ⟨hra, ?_, ?_⟩
            · intro hypos
              rw [valC_eq_neg hsy1] at hypos
              omega
            · intro _
              rw [hva, valC_eq_pos hsx1, valC_eq_neg hsy1]
              omega
          · intro hd
            exact absurd hd hndqk
          · intro h0
            rw [hva, valC_eq_pos hsx1, valC_eq_neg hsy1] at h0
            omega
      · exact absurd hsx1 hx0
      · rcases hsy1 : y.sign with _ | _ | _
        · -- negative / positive: result y + x
          rw [if_pos (by decide)]
          obtain ⟨hra, hva⟩ := addC_spec y x hy hx
          refine ⟨addC y x, rfl, (repOk_parts hra).1, ?_, ?_, ?_, ?_⟩
          · rw [hva]
            exact ⟨-1, by ring⟩
          · intro _
            refine ⟨hra, ?_, ?_⟩
            · intro _
              rw [hva, valC_eq_neg hsx1, valC_eq_pos hsy1]
              omega
            · intro hyneg
              rw [valC_eq_pos hsy1] at hyneg
              omega
          · intro hd
            exact absurd hd hndqk
          · intro h0
            rw [hva, valC_eq_neg hsx1, valC_eq_pos hsy1] at h0
            omega
        · exact absurd hsy1 hsy
        · -- negative / negative: result x itself
          rw [if_neg (by decide), if_pos (by decide)]
          refine ⟨x, rfl, hdx, by rw [sub_self]; exact dvd_zero _, ?_, ?_, ?_⟩
          · intro _
            refine ⟨hx, ?_, ?_⟩
            · intro hypos
              rw [valC_eq_neg hsy1] at hypos
              omega
            · intro _
              rw [valC_eq_neg hsx1, valC_eq_neg hsy1]
              omega
          · intro hd
            exact absurd hd hndqk
          · intro h0
            rw [valC_eq_neg hsx1] at h0
            omega
    · -- main branch: |y| ≤ |x|
      rw [if_neg (show ¬(ltC (setPos x) (setPos y) = true) from by
        intro h
        have := (ltC_val (Or.inl hxrep) (Or.inl hyrep)).mp h
        rw [valC_setPos, valC_setPos] at this
        exact hAB this)]
      have hmain : ∃ rem : ChonkerInt,
          (if x.digits.length > y.digits.length then
            match divMain x y (setPos x) (setPos y) with
            | Except.error _ => none
            | Except.ok (_, rem1) => some rem1
          else
            match qeaC x y with
            | Except.error _ => none
            | Except.ok (_, rem1) => some rem1) = some rem ∧
          digOk rem.digits ∧
          digitsVal rem.digits = digitsVal x.digits % digitsVal y.digits ∧
          (repOk rem ∨ rem = ChonkerInt.mk [] BigIntSign.Positive) ∧
          rem.sign ≠ BigIntSign.Negative := by
        by_cases hlen2 : x.digits.length > y.digits.length
        · obtain ⟨qacc, rem, hdm, _, _, _, hdr, hvr, hrr, hsr⟩ :=
            divMain_spec x y hdx hnex htx hdy hney hty hlen2
          refine ⟨rem, ?_, hdr, hvr, hrr, hsr⟩
          rw [if_pos hlen2]
          have hstep : (match divMain x y (setPos x) (setPos y) with
              | Except.error _ => none
              | Except.ok (_, rem1) => some rem1) = some rem := by rw [hdm]
          exact hstep
        · have hlenge : y.digits.length ≤ x.digits.length := by
            have h := len_le_of_val_le (Or.inl hyrep) (Or.inl hxrep)
              (by rw [valC_setPos, valC_setPos]; omega) rfl rfl
            exact h
          have hleneq : x.digits.length = y.digits.length := by omega
          have hrange : digitsVal x.digits < 10 * digitsVal y.digits := by
            have h1 : digitsVal x.digits < 10 ^ x.digits.length := digitsVal_lt_pow hdx
            have h2 : (10:Int) ^ (y.digits.length - 1) ≤ digitsVal y.digits :=
              digitsVal_ge_pow hdy hney hty
            have hL1 : 1 ≤ y.digits.length := by
              rcases hc : y.digits with _ | _
              · exact absurd hc hney
              · simp
            have h3 : (10:Int) ^ x.digits.length = 10 * 10 ^ (y.digits.length - 1) := by
              rw [hleneq]
              conv_lhs => rw [show y.digits.length = (y.digits.length - 1) + 1 from by omega]
              rw [pow_succ]
              ring
            omega
          obtain ⟨qd, rem, hqea, _, hremr, hremv, hremdv⟩ :=
            qeaC_spec x y hdx hnex htx hdy hney hty (Or.inl hleneq) hrange
          refine ⟨rem, ?_, (repOk_parts hremr).1, hremdv, Or.inl hremr, ?_⟩
          · rw [if_neg hlen2]
            have hstep : (match qeaC x y with
                | Except.error _ => none
                | Except.ok (_, rem1) => some rem1) = some rem := by rw [hqea]
            exact hstep
          · intro hcon
            have hneg := valC_neg_of_repOk hremr hcon
            have hEq : valC rem = digitsVal rem.digits := hremv.trans hremdv.symm
            have h0 : 0 ≤ digitsVal rem.digits := digitsVal_nonneg (repOk_parts hremr).1
            omega
      obtain ⟨rem, hcoll, hdrem, hvrem, hrr, hsr⟩ := hmain
      have hstep2 : (match (if x.digits.length > y.digits.length then
            match divMain x y (setPos x) (setPos y) with
            | Except.error _ => none
            | Except.ok (_, rem1) => some rem1
          else
            match qeaC x y with
            | Except.error _ => none
            | Except.ok (_, rem1) => some rem1) with
        | none => none
        | some remainder =>
          some (normalizeC
            (if remainder ≠ newC then
              (if x.sign = BigIntSign.Negative ∧ y.sign = BigIntSign.Positive then
                addC (setNeg remainder) y
               else if x.sign = BigIntSign.Positive ∧ y.sign = BigIntSign.Negative then
                addC remainder y
               else if x.sign = BigIntSign.Negative ∧ y.sign = BigIntSign.Negative then
                setNeg remainder
               else remainder)
             else remainder))) =
          some (normalizeC
            (if rem ≠ newC then
              (if x.sign = BigIntSign.Negative ∧ y.sign = BigIntSign.Positive then
                addC (setNeg rem) y
               else if x.sign = BigIntSign.Positive ∧ y.sign = BigIntSign.Negative then
                addC rem y
               else if x.sign = BigIntSign.Negative ∧ y.sign = BigIntSign.Negative then
                setNeg rem
               else rem)
             else rem)) := by
        rw [hcoll]
      rw [hstep2]
      have hR0 : 0 ≤ digitsVal x.digits % digitsVal y.digits :=
        Int.emod_nonneg _ (by omega)
      have hRB : digitsVal x.digits % digitsVal y.digits < digitsVal y.digits :=
        Int.emod_lt_of_pos _ hB1
      by_cases hR : digitsVal x.digits % digitsVal y.digits = 0
      · -- divisible dividend
        have hdvd0 : valC y ∣ valC x := hdvd_iff.mpr hR
        have hremcase : rem = newC ∨ rem = ChonkerInt.mk [] BigIntSign.Positive := by
          rcases hrr with h | h
          · left
            have hrd0 : rem.digits = [] := by
              by_contra hne
              obtain ⟨_, hrt⟩ := canonC_pos_arm (repOk_parts h).2 (by
                intro hz
                rw [canonC_zero_arm (repOk_parts h).2 hz] at hne
                exact hne rfl)
              have := digitsVal_pos_of_top (repOk_parts h).1 hne hrt
              omega
            have hrs : rem.sign = BigIntSign.Zero := by
              rcases hs : rem.sign with _ | _ | _
              · obtain ⟨hne, _⟩ := canonC_pos_arm (repOk_parts h).2 (by
                  rw [hs]; intro hc; cases hc)
                exact absurd hrd0 hne
              · rfl
              · obtain ⟨hne, _⟩ := canonC_pos_arm (repOk_parts h).2 (by
                  rw [hs]; intro hc; cases hc)
                exact absurd hrd0 hne
            obtain ⟨dl, sg⟩ := rem
            simp only at hrd0 hrs
            rw [show newC = ChonkerInt.mk [] BigIntSign.Zero from rfl, hrd0, hrs]
          · right
            exact h
        rcases hremcase with hremnew | hremp
        · -- clean zero remainder
          rw [hremnew, if_neg (show ¬(newC ≠ newC) from by intro hc; exact hc rfl)]
          refine ⟨newC, rfl, by decide, ?_, ?_, ?_, ?_⟩
          · rw [show valC newC = 0 from rfl, sub_zero]
            exact hdvd0
          · intro hnd
            exact absurd hdvd0 hnd
          · intro _
            exact Or.inl rfl
          · intro _
            rfl
        · -- buggy empty positive remainder: the adjustment fires
          rw [hremp, if_pos (show ChonkerInt.mk [] BigIntSign.Positive ≠ newC from by decide)]
          rcases hsx1 : x.sign with _ | _ | _
          · rcases hsy1 : y.sign with _ | _ | _
            · -- positive / positive: untouched, value 0
              rw [if_neg (by decide), if_neg (by decide), if_neg (by decide)]
              refine ⟨ChonkerInt.mk [] BigIntSign.Positive, rfl, by decide, ?_, ?_, ?_, ?_⟩
              · rw [show valC (ChonkerInt.mk [] BigIntSign.Positive) = 0 from rfl, sub_zero]
                exact hdvd0
              · intro hnd
                exact absurd hdvd0 hnd
              · intro _
                exact Or.inl rfl
              · intro _
                rfl
            · exact absurd hsy1 hsy
            · -- positive / negative: a full divisor is added
              rw [if_neg (by decide), if_pos (by decide)]
              rw [addC_posE y hy hsy1, normalizeC_of_repOk hy]
              refine ⟨y, rfl, hdy, ?_, ?_, ?_, ?_⟩
              · exact dvd_sub hdvd0 dvd_rfl
              · intro hnd
                exact absurd hdvd0 hnd
              · intro _
                refine Or.inr ⟨rfl, by decide, ?_⟩
                rw [valC_eq_pos hsx1]
                omega
              · intro h0
                exact absurd h0 hvy
          · exact absurd hsx1 hx0
          · rcases hsy1 : y.sign with _ | _ | _
            · -- negative / positive: a full divisor is added
              rw [if_pos (by decide)]
              rw [show setNeg (ChonkerInt.mk [] BigIntSign.Positive) =
                ChonkerInt.mk [] BigIntSign.Negative from rfl]
              rw [addC_negE y hy hsy1, normalizeC_of_repOk hy]
              refine ⟨y, rfl, hdy, ?_, ?_, ?_, ?_⟩
              · exact dvd_sub hdvd0 dvd_rfl
              · intro hnd
                exact absurd hdvd0 hnd
              · intro _
                refine Or.inr ⟨rfl, by decide, ?_⟩
                rw [valC_eq_neg hsx1]
                omega
              · intro h0
                exact absurd h0 hvy
            · exact absurd hsy1 hsy
            · -- negative / negative: sign flip of the empty remainder, value 0
              rw [if_neg (by decide), if_neg (by decide), if_pos (by decide)]
              rw [show setNeg (ChonkerInt.mk [] BigIntSign.Positive) =
                ChonkerInt.mk [] BigIntSign.Negative from rfl]
              refine ⟨ChonkerInt.mk [] BigIntSign.Negative, rfl, by decide, ?_, ?_, ?_, ?_⟩
              · rw [show valC (ChonkerInt.mk [] BigIntSign.Negative) = 0 from by decide,
                  sub_zero]
                exact hdvd0
              · intro hnd
                exact absurd hdvd0 hnd
              · intro _
                exact Or.inl (by decide)
              · intro _
                rfl
      · -- non-divisible dividend
        have hndvd : ¬ valC y ∣ valC x := fun hd => hR (hdvd_iff.mp hd)
        have hremrep : repOk rem := by
          rcases hrr with h | h
          · exact h
          · rw [h] at hvrem
            rw [show digitsVal ((ChonkerInt.mk [] BigIntSign.Positive).digits) = 0
              from rfl] at hvrem
            omega
        have hsrem : rem.sign = BigIntSign.Positive := by
          rcases hs : rem.sign with _ | _ | _
          · rfl
          · have hd0 := canonC_zero_arm (repOk_parts hremrep).2 hs
            rw [hd0, digitsVal_nil] at hvrem
            omega
          · exact absurd hs hsr
        have hvalrem : valC rem = digitsVal rem.digits := valC_eq_pos hsrem
        have hremne : rem ≠ newC := by
          intro hc
          rw [hc, show (newC).digits = ([] : List Int) from rfl, digitsVal_nil] at hvrem
          omega
        obtain ⟨hrne, hrt⟩ := canonC_pos_arm (repOk_parts hremrep).2 (by
          rw [hsrem]; intro hc; cases hc)
        have hrepsn : repOk (ChonkerInt.mk rem.digits BigIntSign.Negative) :=
          repOk_mk (repOk_parts hremrep).1 hrne hrt (by intro hc; cases hc)
        have hid := Int.ediv_add_emod (digitsVal x.digits) (digitsVal y.digits)
        rw [if_pos hremne]
        rcases hsx1 : x.sign with _ | _ | _
        · rcases hsy1 : y.sign with _ | _ | _
          · -- positive / positive: raw remainder kept
            rw [if_neg (by decide), if_neg (by decide), if_neg (by decide),
              normalizeC_of_repOk hremrep]
            refine ⟨rem, rfl, hdrem, ?_, ?_, ?_, ?_⟩
            · rw [valC_eq_pos hsx1, valC_eq_pos hsy1, hvalrem, hvrem]
              exact ⟨digitsVal x.digits / digitsVal y.digits, by linarith⟩
            · intro _
              refine ⟨hremrep, ?_, ?_⟩
              · intro _
                rw [valC_eq_pos hsy1, hvalrem, hvrem]
                omega
              · intro hyneg
                rw [valC_eq_pos hsy1] at hyneg
                omega
            · intro hd
              exact absurd hd hndvd
            · intro h0
              rw [hvalrem, hvrem] at h0
              exact absurd h0 hR
          · exact absurd hsy1 hsy
          · -- positive / negative: divisor added to the raw remainder
            rw [if_neg (by decide), if_pos (by decide)]
            obtain ⟨hra, hva⟩ := addC_spec rem y hremrep hy
            rw [normalizeC_of_repOk hra]
            refine ⟨addC rem y, rfl, (repOk_parts hra).1, ?_, ?_, ?_, ?_⟩
            · rw [valC_eq_pos hsx1, hva, hvalrem, hvrem, valC_eq_neg hsy1]
              refine ⟨-(digitsVal x.digits / digitsVal y.digits) - 1, ?_⟩
              linarith [hid]
            · intro _
              refine ⟨hra, ?_, ?_⟩
              · intro hypos
                rw [valC_eq_neg hsy1] at hypos
                omega
              · intro _
                rw [hva, hvalrem, hvrem, valC_eq_neg hsy1]
                omega
            · intro hd
              exact absurd hd hndvd
            · intro h0
              rw [hva, hvalrem, hvrem, valC_eq_neg hsy1] at h0
              omega
        · exact absurd hsx1 hx0
        · rcases hsy1 : y.sign with _ | _ | _
          · -- negative / positive: negated raw remainder plus divisor
            rw [if_pos (by decide)]
            rw [show setNeg rem = ChonkerInt.mk rem.digits BigIntSign.Negative from rfl]
            obtain ⟨hra, hva⟩ := addC_spec (ChonkerInt.mk rem.digits BigIntSign.Negative) y
              hrepsn hy
            rw [normalizeC_of_repOk hra]
            refine ⟨_, rfl, (repOk_parts hra).1, ?_, ?_, ?_, ?_⟩
            · rw [valC_eq_neg hsx1, hva, valC_mk_neg, hvrem, valC_eq_pos hsy1]
              refine ⟨-(digitsVal x.digits / digitsVal y.digits) - 1, ?_⟩
              linarith [hid]
            · intro _
              refine ⟨hra, ?_, ?_⟩
              · intro _
                rw [hva, valC_mk_neg, hvrem, valC_eq_pos hsy1]
                omega
              · intro hyneg
                rw [valC_eq_pos hsy1] at hyneg
                omega
            · intro hd
              exact absurd hd hndvd
            · intro h0
              rw [hva, valC_mk_neg, hvrem, valC_eq_pos hsy1] at h0
              omega
          · exact absurd hsy1 hsy
          · -- negative / negative: negated raw remainder
            rw [if_neg (by decide), if_neg (by decide), if_pos (by decide)]
            rw [show setNeg rem = ChonkerInt.mk rem.digits BigIntSign.Negative from rfl,
              normalizeC_of_repOk hrepsn]
            refine ⟨_, rfl, (repOk_parts hrepsn).1, ?_, ?_, ?_, ?_⟩
            · rw [valC_eq_neg hsx1, valC_mk_neg, hvrem, valC_eq_neg hsy1]
              exact ⟨digitsVal x.digits / digitsVal y.digits, by linarith⟩
            · intro _
              refine ⟨hrepsn, ?_, ?_⟩
              · intro hypos
                rw [valC_eq_neg hsy1] at hypos
                omega
              · intro _
                rw [valC_mk_neg, hvrem, valC_eq_neg hsy1]
                omega
            · intro hd
              exact absurd hd hndvd
            · intro h0
              rw [valC_mk_neg, hvrem] at h0
              omega

/-- Claim C10: calling modpow with the canonical zero modulus reaches the
divide-by-zero failure of Rem for every non-zero base, before the exponent is
examined, while a zero base short-circuits to zero for every modulus. -/
theorem claimC10_modpow_zero_modulus (x power : ChonkerInt) (hx : repOk x)
    (hvx : valC x ≠ 0) :
    modpowC x power newC = none ∧ ∀ m : ChonkerInt, modpowC newC power m = some newC := by
  constructor
  · have hxnew : x ≠ newC := by
      intro hc
      rw [hc] at hvx
      exact hvx rfl
    have hrem : remC x newC = none := rfl
    have hun : modpowC x power newC =
        (if x = newC then some newC
         else match remC x newC with
           | none => none
           | some base =>
             if power = newC then some (fromIntC 1)
             else if power = fromIntC 1 then some x
             else if gtC power newC then
               modpowLoop (4 * power.digits.length + 4) (fromIntC 1) base power newC
             else if ltC power newC then some newC
             else some (fromIntC 1)) := rfl
    rw [hun, if_neg hxnew, hrem]
  · intro m
    rfl

theorem claimC10_witness :
    modpowC (fromIntC 7) (fromIntC 1) newC = none ∧
      modpowC newC (fromIntC 1) (fromIntC 5) = some newC :=
  ⟨(claimC10_modpow_zero_modulus (fromIntC 7) (fromIntC 1) (by decide) (by decide)).1,
   (claimC10_modpow_zero_modulus (fromIntC 7) (fromIntC 1) (by decide) (by decide)).2
     (fromIntC 5)⟩

theorem remC_reduce (m : ChonkerInt) (hm : repOk m) (hm1 : 1 < valC m)
    (a : ChonkerInt) (hra : repOk a) (hca : IsCoprime (valC a) (valC m)) :
    ∃ r, remC a m = some r ∧ repOk r ∧ valC r = valC a % valC m ∧
      0 < valC r ∧ valC r < valC m ∧ IsCoprime (valC r) (valC m) := by
  have hndvd : ¬ valC m ∣ valC a := by
    intro hd
    have hu := hca.symm.isUnit_of_dvd' dvd_rfl hd
    rcases Int.isUnit_iff.mp hu with h | h <;> omega
  obtain ⟨r, heq, _, hdvd, hnd, _, _⟩ := remC_spec a m hra hm (by omega)
  obtain ⟨hrrep, hbpos, _⟩ := hnd hndvd
  obtain ⟨h1, h2⟩ := hbpos (by omega)
  have hmodeq : valC r ≡ valC a [ZMOD valC m] := Int.modEq_iff_dvd.mpr hdvd
  have hval : valC r = valC a % valC m := by
    have h3 : valC r % valC m = valC a % valC m := hmodeq
    rw [Int.emod_eq_of_lt (by omega) h2] at h3
    exact h3
  refine ⟨r, heq, hrrep, hval, h1, h2, ?_⟩
  obtain ⟨c, hc⟩ := hdvd
  have hshape : valC r = valC a + valC m * (-c) := by linarith
  rw [hshape]
  exact IsCoprime.add_mul_left_left_iff.mpr hca

set_option maxHeartbeats 1600000 in
theorem modpowLoop_inv (m : ChonkerInt) (hm : repOk m) (hm1 : 1 < valC m) :
    ∀ (f : Nat) (result base power : ChonkerInt),
      repOk result → repOk base → repOk power →
      1 ≤ valC power → (valC power).toNat < 2 ^ f →
      IsCoprime (valC result) (valC m) → IsCoprime (valC base) (valC m) →
      ∃ r, modpowLoop f result base power m = some r ∧ repOk r ∧
        valC r = (valC result * valC base ^ (valC power).toNat) % valC m := by
  intro f
  induction f with
  | zero =>
    intro result base power _ _ _ hp1 hfuel _ _
    exfalso
    have h0 : (2:Nat) ^ 0 = 1 := rfl
    omega
  | succ f ih =>
    intro result base power hrr hrb hrp hp1 hfuel hcr hcb
    have hsp : power.sign = BigIntSign.Positive := (sign_pos_iff hrp).mpr (by omega)
    obtain ⟨mm, hmm, _, hdvd2, hnd2, hdv2, _⟩ :=
      remC_spec power (fromIntC 2) hrp (by decide) (by decide)
    rw [show valC (fromIntC 2) = 2 from by decide] at hdvd2 hnd2 hdv2
    have hun : modpowLoop (f + 1) result base power m =
        (match remC power (fromIntC 2) with
         | none => none
         | some mm =>
           match (if mm = fromIntC 1 then remC (mulC result base) m else some result) with
           | none => none
           | some result2 =>
             if power = fromIntC 1 then some result2
             else
               match divC power (fromIntC 2), remC (mulC base base) m with
               | some power2, some base2 => modpowLoop f result2 base2 power2 m
               | _, _ => none) := rfl
    have hstep1 : modpowLoop (f + 1) result base power m =
        (match (if mm = fromIntC 1 then remC (mulC result base) m else some result) with
         | none => none
         | some result2 =>
           if power = fromIntC 1 then some result2
           else
             match divC power (fromIntC 2), remC (mulC base base) m with
             | some power2, some base2 => modpowLoop f result2 base2 power2 m
             | _, _ => none) := by
      rw [hun, hmm]
    -- shared facts for the squared base
    obtain ⟨hrbb, hvbb⟩ := mulC_spec base base hrb hrb
    have hcbb : IsCoprime (valC (mulC base base)) (valC m) := by
      rw [hvbb]
      exact hcb.mul_left hcb
    obtain ⟨base2, hb2eq, hrb2, hvb2, hb2pos, hb2lt, hcb2⟩ :=
      remC_reduce m hm hm1 (mulC base base) hrbb hcbb
    rw [hvbb] at hvb2
    have hb2mod : valC base2 ≡ valC base * valC base [ZMOD valC m] := by
      rw [hvb2]
      exact Int.emod_emod_of_dvd _ dvd_rfl
    obtain ⟨power2, hp2eq, hrp2, hvp2⟩ :=
      divC_spec power (fromIntC 2) hrp (by decide) (by decide)
    rw [show valC (fromIntC 2) = 2 from by decide] at hvp2
    have hvp2e : valC power2 = valC power / 2 := by
      rw [hvp2, Int.tdiv_eq_ediv (by omega) (by omega)]
    by_cases heven : (2:Int) ∣ valC power
    · -- even exponent: the flag is a zero remainder, the accumulator is kept
      have hmm0 : valC mm = 0 := by
        rcases hdv2 heven with h | ⟨_, hns, _⟩
        · exact h
        · exact absurd (by rw [hsp]; decide) hns
      have hmmne : mm ≠ fromIntC 1 := by
        intro hc
        rw [hc, show valC (fromIntC 1) = 1 from by decide] at hmm0
        omega
      rw [hstep1, if_neg hmmne]
      have hpne1 : power ≠ fromIntC 1 := by
        intro hc
        rw [hc, show valC (fromIntC 1) = 1 from by decide] at heven
        omega
      rw [show (match (some result : Option ChonkerInt) with
          | none => none
          | some result2 =>
            if power = fromIntC 1 then some result2
            else
              match divC power (fromIntC 2), remC (mulC base base) m with
              | some power2, some base2 => modpowLoop f result2 base2 power2 m
              | _, _ => none) =
          (if power = fromIntC 1 then some result
           else
             match divC power (fromIntC 2), remC (mulC base base) m with
             | some power2, some base2 => modpowLoop f result base2 power2 m
             | _, _ => none) from rfl, if_neg hpne1]
      have hstep2 : (match divC power (fromIntC 2), remC (mulC base base) m with
          | some power2, some base2 => modpowLoop f result base2 power2 m
          | _, _ => none) = modpowLoop f result base2 power2 m := by
        rw [hp2eq, hb2eq]
      rw [hstep2]
      have hp21 : 1 ≤ valC power2 := by
        rw [hvp2e]
        omega
      have hfuel2 : (valC power2).toNat < 2 ^ f := by
        rw [hvp2e]
        have hps : (2:Nat) ^ (f + 1) = 2 * 2 ^ f := by ring
        omega
      obtain ⟨r, hrec, hrrep2, hrval⟩ := ih result base2 power2 hrr hrb2 hrp2 hp21 hfuel2 hcr hcb2
      refine ⟨r, hrec, hrrep2, ?_⟩
      rw [hrval]
      have h2t : (valC power).toNat = 2 * (valC power2).toNat := by
        rw [hvp2e]
        omega
      have hcong := (hb2mod.pow (valC power2).toNat).mul_left (valC result)
      have hpowshape : (valC base * valC base) ^ (valC power2).toNat =
          valC base ^ (valC power).toNat := by
        rw [← sq, ← pow_mul, ← h2t]
      rw [hpowshape] at hcong
      exact hcong
    · -- odd exponent: the remainder is one, the accumulator absorbs the base
      obtain ⟨hrmm, hbnd, _⟩ := hnd2 (by
        intro hd
        obtain ⟨c, hc⟩ := hd
        omega)
      obtain ⟨hg1, hg2⟩ := hbnd (by omega)
      have hmm1 : mm = fromIntC 1 := by
        apply chonk_unique hrmm (by decide)
        rw [show valC (fromIntC 1) = 1 from by decide]
        omega
      rw [hstep1, if_pos hmm1]
      obtain ⟨hrab, hvab⟩ := mulC_spec result base hrr hrb
      have hcab : IsCoprime (valC (mulC result base)) (valC m) := by
        rw [hvab]
        exact hcr.mul_left hcb
      obtain ⟨result2, hr2eq, hrr2, hvr2, hr2pos, hr2lt, hcr2⟩ :=
        remC_reduce m hm hm1 (mulC result base) hrab hcab
      rw [hvab] at hvr2
      have hr2mod : valC result2 ≡ valC result * valC base [ZMOD valC m] := by
        rw [hvr2]
        exact Int.emod_emod_of_dvd _ dvd_rfl
      have hstep2 : (match remC (mulC result base) m with
          | none => none
          | some result2 =>
            if power = fromIntC 1 then some result2
            else
              match divC power (fromIntC 2), remC (mulC base base) m with
              | some power2, some base2 => modpowLoop f result2 base2 power2 m
              | _, _ => none) =
          (if power = fromIntC 1 then some result2
           else
             match divC power (fromIntC 2), remC (mulC base base) m with
             | some power2, some base2 => modpowLoop f result2 base2 power2 m
             | _, _ => none) := by
        rw [hr2eq]
      rw [hstep2]
      by_cases hpow1 : power = fromIntC 1
      · rw [if_pos hpow1]
        refine ⟨result2, rfl, hrr2, ?_⟩
        rw [hvr2, hpow1, show valC (fromIntC 1) = 1 from by decide]
        rw [show ((1:Int)).toNat = 1 from rfl, pow_one]
      · rw [if_neg hpow1]
        have hstep3 : (match divC power (fromIntC 2), remC (mulC base base) m with
            | some power2, some base2 => modpowLoop f result2 base2 power2 m
            | _, _ => none) = modpowLoop f result2 base2 power2 m := by
          rw [hp2eq, hb2eq]
        rw [hstep3]
        have hpge3 : 3 ≤ valC power := by
          have hne1 : valC power ≠ 1 := by
            intro hc
            apply hpow1
            apply chonk_unique hrp (by decide)
            rw [hc]
            decide
          have hne2 : valC power ≠ 2 := by
            intro hc
            rw [hc] at heven
            exact heven ⟨1, by ring⟩
          omega
        have hp21 : 1 ≤ valC power2 := by
          rw [hvp2e]
          omega
        have hfuel2 : (valC power2).toNat < 2 ^ f := by
          rw [hvp2e]
          have hps : (2:Nat) ^ (f + 1) = 2 * 2 ^ f := by ring
          omega
        obtain ⟨r, hrec, hrrep2, hrval⟩ :=
          ih result2 base2 power2 hrr2 hrb2 hrp2 hp21 hfuel2 hcr2 hcb2
        refine ⟨r, hrec, hrrep2, ?_⟩
        rw [hrval]
        have h2t : (valC power).toNat = 2 * (valC power2).toNat + 1 := by
          rw [hvp2e]
          omega
        have hcong := (hr2mod.mul (hb2mod.pow (valC power2).toNat)) 
        have hshape : valC result * valC base * (valC base * valC base) ^ (valC power2).toNat =
            valC result * valC base ^ (valC power).toNat := by
          rw [← sq, ← pow_mul, h2t]
          ring
        rw [hshape] at hcong
        exact hcong

/-- Claim C5, amended: modpow computes modular exponentiation for exponents
of at least two, a modulus above one and a positive base coprime to the
modulus; the stated case k = 1 is refuted separately, since modpow returns
the base unreduced there. -/
theorem claimC5_modpow (x k m : ChonkerInt) (hx : repOk x) (hk : repOk k) (hm : repOk m)
    (hxpos : 0 < valC x) (hk2 : 2 ≤ valC k) (hm1 : 1 < valC m)
    (hcop : Int.gcd (valC x) (valC m) = 1) :
    ∃ r, modpowC x k m = some r ∧ repOk r ∧
      valC r = valC x ^ (valC k).toNat % valC m := by
  have hcop' : IsCoprime (valC x) (valC m) := Int.gcd_eq_one_iff_coprime.mp hcop
  have hxnew : x ≠ newC := by
    intro hc
    rw [hc] at hxpos
    exact absurd hxpos (by decide)
  obtain ⟨base, hbeq, hbrep, hbval, hb1, hb2, hbcop⟩ := remC_reduce m hm hm1 x hx hcop'
  have hun : modpowC x k m =
      (if x = newC then some newC
       else match remC x m with
         | none => none
         | some base =>
           if k = newC then some (fromIntC 1)
           else if k = fromIntC 1 then some x
           else if gtC k newC then
             modpowLoop (4 * k.digits.length + 4) (fromIntC 1) base k m
           else if ltC k newC then some newC
           else some (fromIntC 1)) := rfl
  rw [hun, if_neg hxnew]
  have hstep : (match remC x m with
      | none => none
      | some base =>
        if k = newC then some (fromIntC 1)
        else if k = fromIntC 1 then some x
        else if gtC k newC then
          modpowLoop (4 * k.digits.length + 4) (fromIntC 1) base k m
        else if ltC k newC then some newC
        else some (fromIntC 1)) =
      (if k = newC then some (fromIntC 1)
       else if k = fromIntC 1 then some x
       else if gtC k newC then
         modpowLoop (4 * k.digits.length + 4) (fromIntC 1) base k m
       else if ltC k newC then some newC
       else some (fromIntC 1)) := by
    rw [hbeq]
  rw [hstep]
  rw [if_neg (show k ≠ newC from by
    intro hc
    rw [hc, show valC newC = 0 from rfl] at hk2
    omega)]
  rw [if_neg (show k ≠ fromIntC 1 from by
    intro hc
    rw [hc, show valC (fromIntC 1) = 1 from by decide] at hk2
    omega)]
  rw [if_pos (show gtC k newC = true from by
    unfold gtC
    rw [cmpC_val (Or.inl hk) (Or.inl repOk_newC),
      show valC newC = 0 from rfl, compare_gt_iff_gt.mpr (by omega : (0:Int) < valC k)]
    rfl)]
  have hsk : k.sign = BigIntSign.Positive := (sign_pos_iff hk).mpr (by omega)
  have hfuel : (valC k).toNat < 2 ^ (4 * k.digits.length + 4) := by
    have h1 : valC k < 10 ^ k.digits.length := by
      rw [valC_eq_pos hsk]
      exact digitsVal_lt_pow (repOk_parts hk).1
    have h2 : (10:Nat) ^ k.digits.length ≤ 2 ^ (4 * k.digits.length) := by
      calc (10:Nat) ^ k.digits.length ≤ 16 ^ k.digits.length :=
            Nat.pow_le_pow_left (by omega) _
        _ = 2 ^ (4 * k.digits.length) := by
            rw [show (16:Nat) = 2 ^ 4 from rfl, ← pow_mul]
    have h3 : (2:Nat) ^ (4 * k.digits.length) ≤ 2 ^ (4 * k.digits.length + 4) :=
      Nat.pow_le_pow_right (by omega) (by omega)
    have h4 : (valC k).toNat < 10 ^ k.digits.length := by
      have h5 : ((10:Int) ^ k.digits.length).toNat = 10 ^ k.digits.length := by
        have hc : ((10:Int) ^ k.digits.length) = ((10 ^ k.digits.length : Nat) : Int) := by
          push_cast
          ring
        rw [hc, Int.toNat_natCast]
      omega
    omega
  obtain ⟨r, hrec, hrrep, hrval⟩ := modpowLoop_inv m hm hm1 (4 * k.digits.length + 4)
    (fromIntC 1) base k (by decide) hbrep hk (by omega) hfuel
    (by rw [show valC (fromIntC 1) = 1 from by decide]; exact isCoprime_one_left) hbcop
  refine ⟨r, hrec, hrrep, ?_⟩
  rw [hrval, show valC (fromIntC 1) = 1 from by decide, one_mul]
  have hbmod : valC base ≡ valC x [ZMOD valC m] := by
    rw [hbval]
    exact Int.emod_emod_of_dvd _ dvd_rfl
  exact hbmod.pow (valC k).toNat

theorem claimC5_witness :
    ∃ r, modpowC (fromIntC 2) (fromIntC 3) (fromIntC 5) = some r ∧ repOk r ∧
      valC r = valC (fromIntC 2) ^ (valC (fromIntC 3)).toNat % valC (fromIntC 5) :=
  claimC5_modpow (fromIntC 2) (fromIntC 3) (fromIntC 5) (by decide) (by decide) (by decide)
    (by decide) (by decide) (by decide) (by decide)

/-- Claim C5, counterexample to the stated k = 1 case: modpow returns the
base unreduced, here 7 instead of 7 mod 5 = 2. -/
theorem claimC5_counterexample :
    modpowC (fromIntC 7) (fromIntC 1) (fromIntC 5) = some (fromIntC 7) ∧
      (7:Int) % 5 = 2 := by decide

theorem int_gcd_step (a b : Int) (ha : 0 ≤ a) (hb : 0 ≤ b) :
    Int.gcd b (a % b) = Int.gcd a b := by
  obtain ⟨m, rfl⟩ := Int.eq_ofNat_of_zero_le ha
  obtain ⟨n, rfl⟩ := Int.eq_ofNat_of_zero_le hb
  have hcast : ((m:Int) % (n:Int)) = ((m % n : Nat) : Int) := by norm_cast
  rw [hcast]
  have h1 : Int.gcd ((n:Nat):Int) (((m % n : Nat) : Nat) : Int) = Nat.gcd n (m % n) :=
    Int.gcd_natCast_natCast _ _
  have h2 : Int.gcd ((m:Nat):Int) ((n:Nat):Int) = Nat.gcd m n := Int.gcd_natCast_natCast _ _
  rw [h1, h2]
  calc Nat.gcd n (m % n) = Nat.gcd (m % n) n := Nat.gcd_comm _ _
    _ = Nat.gcd n m := (Nat.gcd_rec n m).symm
    _ = Nat.gcd m n := Nat.gcd_comm _ _

set_option maxHeartbeats 1600000 in
theorem gcdFuel_run :
    ∀ (f : Nat) (x y : ChonkerInt), repOk x → repOk y →
      0 < digitsVal x.digits → 0 < digitsVal y.digits →
      2 * (digitsVal x.digits + digitsVal y.digits).toNat +
        (if digitsVal x.digits < digitsVal y.digits then 1 else 0) ≤ f →
      ∃ g, gcdFuel f x y = some g ∧ repOk g ∧
        valC g = Int.gcd (digitsVal x.digits) (digitsVal y.digits) := by
  intro f
  induction f with
  | zero =>
    intro x y _ _ hA hB hfuel
    exfalso
    by_cases hc : digitsVal x.digits < digitsVal y.digits
    · rw [if_pos hc] at hfuel
      omega
    · rw [if_neg hc] at hfuel
      omega
  | succ f ih =>
    intro x y hx hy hA hB hfuel
    have hxne : x.digits ≠ [] := by
      intro hc
      rw [hc, digitsVal_nil] at hA
      omega
    have hyne : y.digits ≠ [] := by
      intro hc
      rw [hc, digitsVal_nil] at hB
      omega
    have hsx : x.sign ≠ BigIntSign.Zero := by
      intro hc
      exact hxne (canonC_zero_arm (repOk_parts hx).2 hc)
    have hsy : y.sign ≠ BigIntSign.Zero := by
      intro hc
      exact hyne (canonC_zero_arm (repOk_parts hy).2 hc)
    obtain ⟨_, htx⟩ := canonC_pos_arm (repOk_parts hx).2 hsx
    obtain ⟨_, hty⟩ := canonC_pos_arm (repOk_parts hy).2 hsy
    have hxrep : repOk (setPos x) := setPos_repOk (repOk_parts hx).1 hxne htx
    have hyrep : repOk (setPos y) := setPos_repOk (repOk_parts hy).1 hyne hty
    have hxnew : x ≠ newC := by
      intro hc
      rw [hc] at hxne
      exact hxne rfl
    have hynew : y ≠ newC := by
      intro hc
      rw [hc] at hyne
      exact hyne rfl
    have hun : gcdFuel (f + 1) x y =
        (if x = newC ∨ x.digits.isEmpty then some y
         else if y = newC ∨ y.digits.isEmpty then some x
         else if ltC (setPos x) (setPos y) then gcdFuel f (setPos y) (setPos x)
         else
           match remC (setPos x) (setPos y) with
           | none => none
           | some m =>
             if m = newC then some (setPos y) else gcdFuel f (setPos y) m) := rfl
    rw [hun,
      if_neg (show ¬(x = newC ∨ x.digits.isEmpty = true) from by
        intro h
        rcases h with h | h
        · exact hxnew h
        · exact hxne (List.isEmpty_iff.mp h)),
      if_neg (show ¬(y = newC ∨ y.digits.isEmpty = true) from by
        intro h
        rcases h with h | h
        · exact hynew h
        · exact hyne (List.isEmpty_iff.mp h))]
    by_cases hlt : ltC (setPos x) (setPos y) = true
    · rw [if_pos hlt]
      have hAB : digitsVal x.digits < digitsVal y.digits := by
        have := (ltC_val (Or.inl hxrep) (Or.inl hyrep)).mp hlt
        rw [valC_setPos, valC_setPos] at this
        exact this
      rw [if_pos hAB] at hfuel
      obtain ⟨g, hge, hgr, hgv⟩ := ih (setPos y) (setPos x) hyrep hxrep hB hA (by
        rw [if_neg (show ¬ digitsVal (setPos y).digits < digitsVal (setPos x).digits from by
          show ¬ digitsVal y.digits < digitsVal x.digits
          omega)]
        show 2 * (digitsVal y.digits + digitsVal x.digits).toNat + 0 ≤ f
        omega)
      refine ⟨g, hge, hgr, ?_⟩
      rw [hgv]
      have hcomm : Int.gcd (digitsVal (setPos y).digits) (digitsVal (setPos x).digits) =
          Int.gcd (digitsVal x.digits) (digitsVal y.digits) := by
        show Int.gcd (digitsVal y.digits) (digitsVal x.digits) = _
        exact Int.gcd_comm _ _
      rw [hcomm]
    · rw [if_neg hlt]
      have hBA : digitsVal y.digits ≤ digitsVal x.digits := by
        rcases le_or_lt (digitsVal y.digits) (digitsVal x.digits) with h | h
        · exact h
        · exfalso
          apply hlt
          apply (ltC_val (Or.inl hxrep) (Or.inl hyrep)).mpr
          rw [valC_setPos, valC_setPos]
          exact h
      rw [if_neg (show ¬ digitsVal x.digits < digitsVal y.digits from by omega)] at hfuel
      obtain ⟨r, hreq, hdr, hdvd, hnd, hdv, hz⟩ :=
        remC_spec (setPos x) (setPos y) hxrep hyrep (by rw [valC_setPos]; omega)
      rw [valC_setPos, valC_setPos] at hdvd hnd hdv
      have hstep : (match remC (setPos x) (setPos y) with
          | none => none
          | some m =>
            if m = newC then some (setPos y) else gcdFuel f (setPos y) m) =
          (if r = newC then some (setPos y) else gcdFuel f (setPos y) r) := by
        rw [hreq]
      rw [hstep]
      by_cases hdvdAB : digitsVal y.digits ∣ digitsVal x.digits
      · -- the divisor divides: the result is the positive divisor clone
        have hr0 : valC r = 0 := by
          rcases hdv hdvdAB with h | ⟨_, hns, _⟩
          · exact h
          · exact absurd (show (setPos x).sign = (setPos y).sign from rfl) hns
        have hrd : r.digits = [] := hz hr0
        have hgoal : valC (setPos y) =
            Int.gcd (digitsVal x.digits) (digitsVal y.digits) := by
          rw [valC_setPos]
          have h1 : Int.gcd (digitsVal x.digits) (digitsVal y.digits) =
              (digitsVal y.digits).natAbs :=
            Nat.gcd_eq_right (Int.natAbs_dvd_natAbs.mpr hdvdAB)
          rw [h1, Int.natAbs_of_nonneg (by omega)]
        by_cases hrnew : r = newC
        · rw [if_pos hrnew]
          exact ⟨setPos y, rfl, hyrep, hgoal⟩
        · rw [if_neg hrnew]
          rcases hf : f with _ | f2
          · exfalso
            omega
          have hun2 : gcdFuel (f2 + 1) (setPos y) r =
              (if setPos y = newC ∨ (setPos y).digits.isEmpty then some r
               else if r = newC ∨ r.digits.isEmpty then some (setPos y)
               else
                 if ltC (setPos (setPos y)) (setPos r) then
                   gcdFuel f2 (setPos r) (setPos (setPos y))
                 else
                   match remC (setPos (setPos y)) (setPos r) with
                   | none => none
                   | some m =>
                     if m = newC then some (setPos r) else gcdFuel f2 (setPos r) m) := rfl
          rw [hun2,
            if_neg (show ¬(setPos y = newC ∨ (setPos y).digits.isEmpty = true) from by
              intro h
              rcases h with h | h
              · have : (setPos y).sign = BigIntSign.Zero := by rw [h]; rfl
                exact absurd this (by intro hc; cases hc)
              · exact hyne (List.isEmpty_iff.mp h)),
            if_pos (Or.inr (show r.digits.isEmpty = true from by
              rw [List.isEmpty_iff]
              exact hrd))]
          exact ⟨setPos y, rfl, hyrep, hgoal⟩
      · -- proper Euclidean step
        obtain ⟨hrrep, hbnd, _⟩ := hnd hdvdAB
        obtain ⟨hr1, hr2⟩ := hbnd (by omega)
        have hrval : valC r = digitsVal x.digits % digitsVal y.digits := by
          have hmodeq : valC r ≡ digitsVal x.digits [ZMOD digitsVal y.digits] :=
            Int.modEq_iff_dvd.mpr hdvd
          have h3 : valC r % digitsVal y.digits =
              digitsVal x.digits % digitsVal y.digits := hmodeq
          rw [Int.emod_eq_of_lt (by omega) hr2] at h3
          exact h3
        have hsr : r.sign = BigIntSign.Positive := (sign_pos_iff hrrep).mpr (by omega)
        have hrdig : digitsVal r.digits = valC r := by
          rw [valC_eq_pos hsr]
        have hrnew : r ≠ newC := by
          intro hc
          rw [hc, show valC newC = 0 from rfl] at hr1
          omega
        rw [if_neg hrnew]
        obtain ⟨g, hge, hgr, hgv⟩ := ih (setPos y) r hyrep hrrep hB (by omega) (by
          rw [if_neg (show ¬ digitsVal (setPos y).digits < digitsVal r.digits from by
            show ¬ digitsVal y.digits < digitsVal r.digits
            omega)]
          show 2 * (digitsVal y.digits + digitsVal r.digits).toNat + 0 ≤ f
          omega)
        refine ⟨g, hge, hgr, ?_⟩
        rw [hgv]
        have hstep2 : Int.gcd (digitsVal (setPos y).digits) (digitsVal r.digits) =
            Int.gcd (digitsVal x.digits) (digitsVal y.digits) := by
          show Int.gcd (digitsVal y.digits) (digitsVal r.digits) = _
          rw [hrdig, hrval]
          exact int_gcd_step _ _ (by omega) (by omega)
        rw [hstep2]

/-- Claim C6, amended: a zero operand makes gcd return the other operand
cloned with its sign intact, so a negative non-zero operand comes back
negative rather than as an absolute value; with both operands non-zero the
result is the non-negative gcd of the absolute values. -/
theorem claimC6_gcd (x y : ChonkerInt) (hx : repOk x) (hy : repOk y) :
    (valC y = 0 → gcdC x y = some x) ∧
    (valC x = 0 → valC y ≠ 0 → gcdC x y = some y) ∧
    (valC x ≠ 0 → valC y ≠ 0 →
      ∃ g, gcdC x y = some g ∧ repOk g ∧ valC g = Int.gcd (valC x) (valC y)) := by
  have hne_of_val : ∀ z : ChonkerInt, repOk z → valC z ≠ 0 → z ≠ newC ∧ z.digits ≠ [] := by
    intro z hz hvz
    constructor
    · intro hc
      rw [hc] at hvz
      exact hvz rfl
    · intro hc
      apply hvz
      have hs : z.sign = BigIntSign.Zero := by
        rcases hs2 : z.sign with _ | _ | _
        · exact absurd hc (canonC_pos_arm (repOk_parts hz).2 (by rw [hs2]; decide)).1
        · rfl
        · exact absurd hc (canonC_pos_arm (repOk_parts hz).2 (by rw [hs2]; decide)).1
      exact valC_eq_zero hs
  refine ⟨?_, ?_, ?_⟩
  · intro hvy0
    have hynew : y = newC := val_zero_eq_newC hy hvy0
    by_cases hx0 : valC x = 0
    · have hxnew : x = newC := val_zero_eq_newC hx hx0
      show gcdFuel _ x y = some x
      have hun : ∀ f : Nat, gcdFuel (f + 1) x y =
          (if x = newC ∨ x.digits.isEmpty then some y
           else if y = newC ∨ y.digits.isEmpty then some x
           else if ltC (setPos x) (setPos y) then gcdFuel f (setPos y) (setPos x)
           else
             match remC (setPos x) (setPos y) with
             | none => none
             | some m =>
               if m = newC then some (setPos y) else gcdFuel f (setPos y) m) :=
        fun f => rfl
      rw [show (2 * ((valC (setPos x)).toNat + (valC (setPos y)).toNat) + 4) =
        (2 * ((valC (setPos x)).toNat + (valC (setPos y)).toNat) + 3) + 1 from rfl, hun,
        if_pos (Or.inl hxnew), hynew, hxnew]
    · obtain ⟨hxnew, hxne⟩ := hne_of_val x hx hx0
      show gcdFuel _ x y = some x
      have hun : ∀ f : Nat, gcdFuel (f + 1) x y =
          (if x = newC ∨ x.digits.isEmpty then some y
           else if y = newC ∨ y.digits.isEmpty then some x
           else if ltC (setPos x) (setPos y) then gcdFuel f (setPos y) (setPos x)
           else
             match remC (setPos x) (setPos y) with
             | none => none
             | some m =>
               if m = newC then some (setPos y) else gcdFuel f (setPos y) m) :=
        fun f => rfl
      rw [show (2 * ((valC (setPos x)).toNat + (valC (setPos y)).toNat) + 4) =
        (2 * ((valC (setPos x)).toNat + (valC (setPos y)).toNat) + 3) + 1 from rfl, hun,
        if_neg (show ¬(x = newC ∨ x.digits.isEmpty = true) from by
          intro h
          rcases h with h | h
          · exact hxnew h
          · exact hxne (List.isEmpty_iff.mp h)),
        if_pos (Or.inl hynew)]
  · intro hvx0 _
    have hxnew : x = newC := val_zero_eq_newC hx hvx0
    show gcdFuel _ x y = some y
    have hun : ∀ f : Nat, gcdFuel (f + 1) x y =
        (if x = newC ∨ x.digits.isEmpty then some y
         else if y = newC ∨ y.digits.isEmpty then some x
         else if ltC (setPos x) (setPos y) then gcdFuel f (setPos y) (setPos x)
         else
           match remC (setPos x) (setPos y) with
           | none => none
           | some m =>
             if m = newC then some (setPos y) else gcdFuel f (setPos y) m) :=
      fun f => rfl
    rw [show (2 * ((valC (setPos x)).toNat + (valC (setPos y)).toNat) + 4) =
      (2 * ((valC (setPos x)).toNat + (valC (setPos y)).toNat) + 3) + 1 from rfl, hun,
      if_pos (Or.inl hxnew)]
  · intro hvx0 hvy0
    obtain ⟨_, hxne⟩ := hne_of_val x hx hvx0
    obtain ⟨_, hyne⟩ := hne_of_val y hy hvy0
    have hsx : x.sign ≠ BigIntSign.Zero := by
      intro hc
      exact hvx0 (valC_eq_zero hc)
    have hsy : y.sign ≠ BigIntSign.Zero := by
      intro hc
      exact hvy0 (valC_eq_zero hc)
    obtain ⟨_, htx⟩ := canonC_pos_arm (repOk_parts hx).2 hsx
    obtain ⟨_, hty⟩ := canonC_pos_arm (repOk_parts hy).2 hsy
    have hdx : 0 < digitsVal x.digits :=
      digitsVal_pos_of_top (repOk_parts hx).1 hxne htx
    have hdy : 0 < digitsVal y.digits :=
      digitsVal_pos_of_top (repOk_parts hy).1 hyne hty
    have hvsx : valC (setPos x) = digitsVal x.digits := valC_setPos x
    have hvsy : valC (setPos y) = digitsVal y.digits := valC_setPos y
    obtain ⟨g, hge, hgr, hgv⟩ := gcdFuel_run
      (2 * ((valC (setPos x)).toNat + (valC (setPos y)).toNat) + 4) x y hx hy hdx hdy (by
        rw [hvsx, hvsy]
        by_cases hc : digitsVal x.digits < digitsVal y.digits
        · rw [if_pos hc]
          omega
        · rw [if_neg hc]
          omega)
    refine ⟨g, hge, hgr, ?_⟩
    rw [hgv]
    have hnx : (valC x).natAbs = (digitsVal x.digits).natAbs := by
      rcases hs : x.sign with _ | _ | _
      · rw [valC_eq_pos hs]
      · exact absurd hs hsx
      · rw [valC_eq_neg hs, Int.natAbs_neg]
    have hny : (valC y).natAbs = (digitsVal y.digits).natAbs := by
      rcases hs : y.sign with _ | _ | _
      · rw [valC_eq_pos hs]
      · exact absurd hs hsy
      · rw [valC_eq_neg hs, Int.natAbs_neg]
    have hgcd : Int.gcd (valC x) (valC y) =
        Int.gcd (digitsVal x.digits) (digitsVal y.digits) := by
      unfold Int.gcd
      rw [hnx, hny]
    rw [hgcd]

theorem claimC6_witness :
    ∃ g, gcdC (fromIntC 12) (fromIntC (-8)) = some g ∧ repOk g ∧
      valC g = Int.gcd (valC (fromIntC 12)) (valC (fromIntC (-8))) :=
  (claimC6_gcd (fromIntC 12) (fromIntC (-8)) (by decide) (by decide)).2.2
    (by decide) (by decide)

/-- Claim C6, counterexample to the stated absolute-value convention: the
gcd of minus five and zero is returned as minus five, a negative result. -/
theorem claimC6_counterexample :
    gcdC (fromIntC (-5)) newC = some (fromIntC (-5)) ∧ valC (fromIntC (-5)) < 0 := by
  decide

/-- Claim C7: for every odd target of at least five the decomposition loop of
is_prime_probabilistic exits on its first test, handing the witness loop
d = n - 1 and s = 0; the returned d is even, so n - 1 = 2^s · d never holds
with d odd, because the loop halves while d is odd instead of while it is
even. -/
theorem claimC7_sd (n : ChonkerInt) (hn : repOk n) (hge : 5 ≤ valC n)
    (hodd : valC n % 2 = 1) :
    ∃ d, mrSD n = some (d, newC) ∧ valC d = valC n - 1 ∧ valC d % 2 = 0 := by
  obtain ⟨hdrep, hdval⟩ := subC_spec n (fromIntC 1) hn (by decide)
  rw [show valC (fromIntC 1) = 1 from by decide] at hdval
  set d := subC n (fromIntC 1) with hddef
  have hdpos : 0 < valC d := by omega
  have hsd : d.sign = BigIntSign.Positive := (sign_pos_iff hdrep).mpr hdpos
  obtain ⟨mm, hmm, _, _, _, hdv2, _⟩ :=
    remC_spec d (fromIntC 2) hdrep (by decide) (by decide)
  rw [show valC (fromIntC 2) = 2 from by decide] at hdv2
  have hmm0 : valC mm = 0 := by
    rcases hdv2 (by omega : (2:Int) ∣ valC d) with h | ⟨_, hns, _⟩
    · exact h
    · exact absurd (by rw [hsd]; decide) hns
  have hmmne : mm ≠ fromIntC 1 := by
    intro hc
    rw [hc, show valC (fromIntC 1) = 1 from by decide] at hmm0
    omega
  refine ⟨d, ?_, hdval, by omega⟩
  show mrSDLoop (4 * n.digits.length + 8) d newC = some (d, newC)
  rw [show 4 * n.digits.length + 8 = (4 * n.digits.length + 7) + 1 from rfl]
  have hun : mrSDLoop ((4 * n.digits.length + 7) + 1) d newC =
      (match remC d (fromIntC 2) with
       | none => none
       | some m =>
         if m = fromIntC 1 then
           match divC d (fromIntC 2) with
           | none => none
           | some d2 => mrSDLoop (4 * n.digits.length + 7) d2 (addC newC (fromIntC 1))
         else some (d, newC)) := rfl
  rw [hun, hmm]
  rw [show (match (some mm : Option ChonkerInt) with
      | none => none
      | some m =>
        if m = fromIntC 1 then
          match divC d (fromIntC 2) with
          | none => none
          | some d2 => mrSDLoop (4 * n.digits.length + 7) d2 (addC newC (fromIntC 1))
        else some (d, newC)) =
      (if mm = fromIntC 1 then
        match divC d (fromIntC 2) with
        | none => none
        | some d2 => mrSDLoop (4 * n.digits.length + 7) d2 (addC newC (fromIntC 1))
      else some (d, newC)) from rfl, if_neg hmmne]

theorem claimC7_witness :
    ∃ d, mrSD (fromIntC 5) = some (d, newC) ∧ valC d = valC (fromIntC 5) - 1 ∧
      valC d % 2 = 0 :=
  claimC7_sd (fromIntC 5) (by decide) (by decide) (by decide)

/-- Claim C8, amended: with the additional precondition that the window is
below ten times the divisor, the estimation subroutine reaches neither the
length panic nor the fatal branch, and returns the exact single quotient
digit with the exact remainder.  Without that bound the fatal branch is
reachable, as the separate counterexample shows. -/
theorem claimC8_estimation (w y : ChonkerInt)
    (hdw : digOk w.digits) (hnew : w.digits ≠ []) (htw : w.digits.getLast? ≠ some 0)
    (hdy : digOk y.digits) (hney : y.digits ≠ []) (hty : y.digits.getLast? ≠ some 0)
    (hlen : w.digits.length = y.digits.length ∨ w.digits.length = y.digits.length + 1)
    (hrange : digitsVal w.digits < 10 * digitsVal y.digits) :
    ∃ q r, qeaC w y = Except.ok (q, r) ∧
      q.digits = [digitsVal w.digits / digitsVal y.digits] ∧
      repOk r ∧ valC r = digitsVal w.digits % digitsVal y.digits := by
  obtain ⟨q, r, h1, h2, h3, h4, _⟩ := qeaC_spec w y hdw hnew htw hdy hney hty hlen hrange
  exact ⟨q, r, h1, h2, h3, h4⟩

theorem claimC8_witness :
    ∃ q r, qeaC (fromIntC 95) (fromIntC 12) = Except.ok (q, r) ∧
      q.digits = [digitsVal (fromIntC 95).digits / digitsVal (fromIntC 12).digits] ∧
      repOk r ∧
      valC r = digitsVal (fromIntC 95).digits % digitsVal (fromIntC 12).digits :=
  claimC8_estimation (fromIntC 95) (fromIntC 12) (by decide) (by decide) (by decide)
    (by decide) (by decide) (by decide) (by decide) (by decide)

/-- Claim C8, counterexample to the stated bound: a window of the claimed
shape (one digit longer than the positive divisor) on which the initial
estimate exceeds the true quotient digit by more than two, so the fourth
reduction fails and the fatal branch is reached. -/
theorem claimC8_counterexample :
    qeaC (fromIntC 95000) (fromIntC 5999) = Except.error QErr.fatalBad := by decide

/-- Claim C4, amended: for a non-divisible dividend the Rem result is the
floor modulo: non-zero, strictly between zero and the divisor, with the
divisor's sign.  The divisible case is refuted separately: there the
remainder can equal the divisor itself. -/
theorem claimC4_floor_mod (x y : ChonkerInt) (hx : repOk x) (hy : repOk y)
    (hvy : valC y ≠ 0) (hnd : ¬ valC y ∣ valC x) :
    ∃ r, remC x y = some r ∧ repOk r ∧ valC y ∣ (valC x - valC r) ∧ valC r ≠ 0 ∧
      (0 < valC y → 0 < valC r ∧ valC r < valC y) ∧
      (valC y < 0 → valC y < valC r ∧ valC r < 0) := by
  obtain ⟨r, heq, _, hdvd, hnds, _, _⟩ := remC_spec x y hx hy hvy
  obtain ⟨hrep, hp, hn⟩ := hnds hnd
  refine ⟨r, heq, hrep, hdvd, ?_, hp, hn⟩
  intro h0
  apply hnd
  have h1 := hdvd
  rw [h0, sub_zero] at h1
  exact h1

theorem claimC4_witness :
    ∃ r, remC (fromIntC (-7)) (fromIntC 3) = some r ∧ repOk r ∧
      valC (fromIntC 3) ∣ (valC (fromIntC (-7)) - valC r) ∧ valC r ≠ 0 ∧
      (0 < valC (fromIntC 3) → 0 < valC r ∧ valC r < valC (fromIntC 3)) ∧
      (valC (fromIntC 3) < 0 → valC (fromIntC 3) < valC r ∧ valC r < 0) :=
  claimC4_floor_mod (fromIntC (-7)) (fromIntC 3) (by decide) (by decide) (by decide)
    (by decide)

/-- Claim C4, counterexample to the stated bound 0 ≤ |r| < |b|: a divisible
negative dividend makes the sign adjustment add a full divisor to the zero
raw remainder, so -100 mod 10 comes back as 10 itself. -/
theorem claimC4_counterexample :
    remC (fromIntC (-100)) (fromIntC 10) = some (fromIntC 10) ∧
      valC (fromIntC 10) = 10 := by decide

theorem dvd_small_zero {Y d : Int} (hd : Y ∣ d) (hb : d.natAbs < Y.natAbs) : d = 0 := by
  obtain ⟨c, rfl⟩ := hd
  rw [Int.natAbs_mul] at hb
  by_cases hc : c = 0
  · rw [hc]
    ring
  · exfalso
    have h1 : 1 ≤ c.natAbs := Int.natAbs_pos.mpr hc
    have h2 : Y.natAbs * 1 ≤ Y.natAbs * c.natAbs := Nat.mul_le_mul_left _ h1
    omega

/-- Claim C1, amended: the division identity q · b + r = a holds whenever the
operands do not have strictly opposite signs; with mixed signs the truncating
quotient and the divisor-signed remainder disagree and the identity fails, as
the separate counterexample shows. -/
theorem claimC1_division_identity (x y : ChonkerInt) (hx : repOk x) (hy : repOk y)
    (hvy : valC y ≠ 0) (hsame : 0 ≤ valC x * valC y) :
    ∃ q r, divC x y = some q ∧ remC x y = some r ∧
      valC q * valC y + valC r = valC x := by
  obtain ⟨q, hqe, _, hqv⟩ := divC_spec x y hx hy hvy
  obtain ⟨r, hre, _, hdvd, hnd, hdv, _⟩ := remC_spec x y hx hy hvy
  refine ⟨q, r, hqe, hre, ?_⟩
  by_cases hdvdxy : valC y ∣ valC x
  · have hr0 : valC r = 0 := by
      rcases hdv hdvdxy with h | ⟨_, hns, hx0⟩
      · exact h
      · exfalso
        apply hns
        rcases hsx : x.sign with _ | _ | _
        · have hxp := valC_pos_of_repOk hx hsx
          rcases hsy2 : y.sign with _ | _ | _
          · rfl
          · exact absurd (valC_eq_zero hsy2) hvy
          · have hyn := valC_neg_of_repOk hy hsy2
            nlinarith
        · exact absurd (valC_eq_zero hsx) hx0
        · have hxn := valC_neg_of_repOk hx hsx
          rcases hsy2 : y.sign with _ | _ | _
          · have hyp := valC_pos_of_repOk hy hsy2
            nlinarith
          · exact absurd (valC_eq_zero hsy2) hvy
          · rfl
    rw [hqv, hr0, add_zero, Int.tdiv_mul_cancel hdvdxy]
  · obtain ⟨_, hp, hn⟩ := hnd hdvdxy
    have hx0 : valC x ≠ 0 := by
      intro h
      apply hdvdxy
      rw [h]
      exact dvd_zero _
    have hd1 : valC y ∣ (valC r - (valC x - valC q * valC y)) := by
      have h1 : valC y ∣ (valC r - valC x) := dvd_sub_comm.mp hdvd
      have h2 : valC y ∣ valC q * valC y := ⟨valC q, mul_comm _ _⟩
      have h3 := dvd_add h1 h2
      rw [show valC r - valC x + valC q * valC y =
        valC r - (valC x - valC q * valC y) from by ring] at h3
      exact h3
    have hkey : valC r - (valC x - valC q * valC y) = 0 := by
      apply dvd_small_zero hd1
      rcases lt_trichotomy (valC y) 0 with hyneg | hy0 | hypos
      · have hxneg : valC x < 0 := by
          rcases lt_trichotomy (valC x) 0 with h | h | h
          · exact h
          · exact absurd h hx0
          · nlinarith
        obtain ⟨hr1, hr2⟩ := hn hyneg
        have hQ : valC q = (-valC x) / (-valC y) := by
          rw [hqv]
          have e1 : (-valC x).tdiv (valC y) = -((valC x).tdiv (valC y)) := Int.neg_tdiv _ _
          have e2 : (-valC x).tdiv (-valC y) = -((-valC x).tdiv (valC y)) := Int.tdiv_neg _ _
          have e3 : (-valC x).tdiv (-valC y) = (-valC x) / (-valC y) :=
            Int.tdiv_eq_ediv (by omega) (by omega)
          omega
        have ht : valC x - valC q * valC y = -((-valC x) % (-valC y)) := by
          rw [hQ, Int.emod_def]
          ring
        rw [ht]
        have hm1 : 0 ≤ (-valC x) % (-valC y) := Int.emod_nonneg _ (by omega)
        have hm2 : (-valC x) % (-valC y) < -valC y := Int.emod_lt_of_pos _ (by omega)
        omega
      · exact absurd hy0 hvy
      · have hxpos : 0 < valC x := by
          rcases lt_trichotomy (valC x) 0 with h | h | h
          · nlinarith
          · exact absurd h hx0
          · exact h
        obtain ⟨hr1, hr2⟩ := hp hypos
        have hQ : valC q = valC x / valC y := by
          rw [hqv]
          exact Int.tdiv_eq_ediv (by omega) (by omega)
        have ht : valC x - valC q * valC y = valC x % valC y := by
          rw [hQ, Int.emod_def]
          ring
        rw [ht]
        have hm1 : 0 ≤ valC x % valC y := Int.emod_nonneg _ (by omega)
        have hm2 : valC x % valC y < valC y := Int.emod_lt_of_pos _ hypos
        omega
    omega

theorem claimC1_witness :
    ∃ q r, divC (fromIntC (-7)) (fromIntC (-2)) = some q ∧
      remC (fromIntC (-7)) (fromIntC (-2)) = some r ∧
      valC q * valC (fromIntC (-2)) + valC r = valC (fromIntC (-7)) :=
  claimC1_division_identity (fromIntC (-7)) (fromIntC (-2)) (by decide) (by decide)
    (by decide) (by decide)

/-- Claim C1, counterexample for mixed signs: 1 divided by -2 gives quotient
zero and remainder -1, and 0 · (-2) + (-1) is not 1. -/
theorem claimC1_counterexample :
    divC (fromIntC 1) (fromIntC (-2)) = some newC ∧
      remC (fromIntC 1) (fromIntC (-2)) = some (fromIntC (-1)) ∧
      valC newC * valC (fromIntC (-2)) + valC (fromIntC (-1)) ≠ valC (fromIntC 1) := by
  decide

theorem nonzero_ne_empty {z : ChonkerInt} (hz : repOk z) (hvz : valC z ≠ 0) :
    z ≠ newC ∧ z.digits ≠ [] := by
  constructor
  · intro hc
    rw [hc] at hvz
    exact hvz rfl
  · intro hc
    apply hvz
    have hs : z.sign = BigIntSign.Zero := by
      rcases hs2 : z.sign with _ | _ | _
      · exact absurd hc (canonC_pos_arm (repOk_parts hz).2 (by rw [hs2]; decide)).1
      · rfl
      · exact absurd hc (canonC_pos_arm (repOk_parts hz).2 (by rw [hs2]; decide)).1
    exact valC_eq_zero hs

theorem divC_some_repOk {x y q : ChonkerInt} (hx : repOk x) (hy : repOk y)
    (h : divC x y = some q) : repOk q := by
  by_cases hvy : valC y = 0
  · have hynew : y = newC := val_zero_eq_newC hy hvy
    rw [hynew] at h
    have hnone : divC x newC = none := by
      unfold divC
      rw [if_pos (Or.inl rfl)]
    rw [hnone] at h
    exact Option.noConfusion h
  · obtain ⟨q2, he, hr, _⟩ := divC_spec x y hx hy hvy
    rw [h] at he
    rw [Option.some.inj he]
    exact hr

theorem remC_some_nd {x y r : ChonkerInt} (hx : repOk x) (hy : repOk y)
    (h : remC x y = some r) (hnd : ¬ valC y ∣ valC x) : repOk r := by
  by_cases hvy : valC y = 0
  · have hynew : y = newC := val_zero_eq_newC hy hvy
    rw [hynew] at h
    have hnone : remC x newC = none := by
      unfold remC
      rw [if_pos (Or.inl rfl)]
    rw [hnone] at h
    exact Option.noConfusion h
  · obtain ⟨r2, he, _, _, hnds, _, _⟩ := remC_spec x y hx hy hvy
    rw [h] at he
    rw [Option.some.inj he]
    exact (hnds hnd).1

theorem sortC_mem {e : ChonkerInt} {l : List ChonkerInt} (h : e ∈ sortC l) : e ∈ l := by
  unfold sortC at h
  exact List.mem_mergeSort.mp h

theorem powLoop_repOk :
    ∀ (f : Nat) (base power result r : ChonkerInt), repOk base → repOk power →
      repOk result → powLoop f base power result = some r → repOk r := by
  intro f
  induction f with
  | zero =>
    intro base power result r _ _ _ h
    exact Option.noConfusion h
  | succ f ih =>
    intro base power result r hb hp hres h
    have hun : powLoop (f + 1) base power result =
        (if gtC power newC then
          match remC power (fromIntC 2) with
          | none => none
          | some m =>
            match divC power (fromIntC 2) with
            | none => none
            | some power2 =>
              powLoop f (mulC base base) power2
                (if m = fromIntC 1 then mulC result base else result)
        else some result) := rfl
    rw [hun] at h
    by_cases hgt : gtC power newC = true
    · rw [if_pos hgt] at h
      rcases hm : remC power (fromIntC 2) with _ | m
      · rw [hm] at h
        exact Option.noConfusion h
      · have hstep : (match remC power (fromIntC 2) with
            | none => none
            | some m2 =>
              match divC power (fromIntC 2) with
              | none => none
              | some power2 =>
                powLoop f (mulC base base) power2
                  (if m2 = fromIntC 1 then mulC result base else result)) =
            (match divC power (fromIntC 2) with
             | none => none
             | some power2 =>
               powLoop f (mulC base base) power2
                 (if m = fromIntC 1 then mulC result base else result)) := by
          rw [hm]
        rw [hstep] at h
        rcases hd : divC power (fromIntC 2) with _ | power2
        · rw [hd] at h
          exact Option.noConfusion h
        · have hstep2 : (match divC power (fromIntC 2) with
              | none => none
              | some power2 =>
                powLoop f (mulC base base) power2
                  (if m = fromIntC 1 then mulC result base else result)) =
              powLoop f (mulC base base) power2
                (if m = fromIntC 1 then mulC result base else result) := by
            rw [hd]
          rw [hstep2] at h
          have hres2 : repOk (if m = fromIntC 1 then mulC result base else result) := by
            by_cases hm1 : m = fromIntC 1
            · rw [if_pos hm1]
              exact (mulC_spec result base hres hb).1
            · rw [if_neg hm1]
              exact hres
          exact ih (mulC base base) power2 _ r (mulC_spec base base hb hb).1
            (divC_some_repOk hp (by decide) hd) hres2 h
    · rw [if_neg hgt] at h
      rw [← Option.some.inj h]
      exact hres

theorem powC_repOk {x y p : ChonkerInt} (hx : repOk x) (hy : repOk y)
    (h : powC x y = some p) : repOk p := by
  have hun : powC x y =
      (if x = newC then some newC
       else if y = newC then some (fromIntC 1)
       else if y = fromIntC 1 then some x
       else if gtC y newC then powLoop (4 * y.digits.length + 4) x y (fromIntC 1)
       else if ltC y newC then some newC
       else some (fromIntC 1)) := rfl
  rw [hun] at h
  by_cases h1 : x = newC
  · rw [if_pos h1] at h
    rw [← Option.some.inj h]
    exact repOk_newC
  rw [if_neg h1] at h
  by_cases h2 : y = newC
  · rw [if_pos h2] at h
    rw [← Option.some.inj h]
    decide
  rw [if_neg h2] at h
  by_cases h3 : y = fromIntC 1
  · rw [if_pos h3] at h
    rw [← Option.some.inj h]
    exact hx
  rw [if_neg h3] at h
  by_cases h4 : gtC y newC = true
  · rw [if_pos h4] at h
    exact powLoop_repOk (4 * y.digits.length + 4) x y (fromIntC 1) p hx hy (by decide) h
  rw [if_neg h4] at h
  by_cases h5 : ltC y newC = true
  · rw [if_pos h5] at h
    rw [← Option.some.inj h]
    exact repOk_newC
  · rw [if_neg h5] at h
    rw [← Option.some.inj h]
    decide

theorem gcdC_repOk {x y g : ChonkerInt} (hx : repOk x) (hy : repOk y)
    (h : gcdC x y = some g) : repOk g := by
  have hun : ∀ (f : Nat) (a b : ChonkerInt), gcdFuel (f + 1) a b =
      (if a = newC ∨ a.digits.isEmpty then some b
       else if b = newC ∨ b.digits.isEmpty then some a
       else if ltC (setPos a) (setPos b) then gcdFuel f (setPos b) (setPos a)
       else
         match remC (setPos a) (setPos b) with
         | none => none
         | some m =>
           if m = newC then some (setPos b) else gcdFuel f (setPos b) m) :=
    fun f a b => rfl
  have hfe : gcdFuel (2 * ((valC (setPos x)).toNat + (valC (setPos y)).toNat) + 4) x y =
      some g := h
  rw [show (2 * ((valC (setPos x)).toNat + (valC (setPos y)).toNat) + 4) =
    (2 * ((valC (setPos x)).toNat + (valC (setPos y)).toNat) + 3) + 1 from rfl, hun] at hfe
  by_cases hvx : valC x = 0
  · have hxnew : x = newC := val_zero_eq_newC hx hvx
    rw [if_pos (Or.inl hxnew)] at hfe
    rw [← Option.some.inj hfe]
    exact hy
  obtain ⟨hxne, hxdne⟩ := nonzero_ne_empty hx hvx
  have hnotx : ¬ (x = newC ∨ x.digits.isEmpty = true) := by
    intro hc
    rcases hc with hc | hc
    · exact hxne hc
    · exact hxdne (List.isEmpty_iff.mp hc)
  rw [if_neg hnotx] at hfe
  by_cases hvy : valC y = 0
  · have hynew : y = newC := val_zero_eq_newC hy hvy
    rw [if_pos (Or.inl hynew)] at hfe
    rw [← Option.some.inj hfe]
    exact hx
  obtain ⟨hyne, hydne⟩ := nonzero_ne_empty hy hvy
  have hsx : x.sign ≠ BigIntSign.Zero := by
    intro hc
    exact hvx (valC_eq_zero hc)
  have hsy : y.sign ≠ BigIntSign.Zero := by
    intro hc
    exact hvy (valC_eq_zero hc)
  obtain ⟨_, htx⟩ := canonC_pos_arm (repOk_parts hx).2 hsx
  obtain ⟨_, hty⟩ := canonC_pos_arm (repOk_parts hy).2 hsy
  have hdx : 0 < digitsVal x.digits :=
    digitsVal_pos_of_top (repOk_parts hx).1 hxdne htx
  have hdy : 0 < digitsVal y.digits :=
    digitsVal_pos_of_top (repOk_parts hy).1 hydne hty
  have hvsx : valC (setPos x) = digitsVal x.digits := valC_setPos x
  have hvsy : valC (setPos y) = digitsVal y.digits := valC_setPos y
  obtain ⟨g2, hge, hgr, _⟩ := gcdFuel_run
    (2 * ((valC (setPos x)).toNat + (valC (setPos y)).toNat) + 4) x y hx hy hdx hdy (by
      rw [hvsx, hvsy]
      by_cases hc : digitsVal x.digits < digitsVal y.digits
      · rw [if_pos hc]
        omega
      · rw [if_neg hc]
        omega)
  have hge2 : gcdC x y = some g2 := hge
  rw [h] at hge2
  rw [Option.some.inj hge2]
  exact hgr

theorem randDraw_mem (g : Nat → Nat) (k : Nat) (lo hi : Int) (h : lo ≤ hi) :
    lo ≤ randDraw g k lo hi ∧ randDraw g k lo hi ≤ hi := by
  unfold randDraw
  have h1 : g k % ((hi - lo).toNat + 1) < (hi - lo).toNat + 1 :=
    Nat.mod_lt _ (Nat.succ_pos _)
  have h2 : Int.ofNat (g k % ((hi - lo).toNat + 1)) =
      ((g k % ((hi - lo).toNat + 1) : Nat) : Int) := rfl
  rw [h2]
  have h3 : ((hi - lo).toNat : Int) = hi - lo := Int.toNat_of_nonneg (by omega)
  constructor
  · have h5 : (0:Int) ≤ ((g k % ((hi - lo).toNat + 1) : Nat) : Int) := Int.natCast_nonneg _
    omega
  · have h4 : ((g k % ((hi - lo).toNat + 1) : Nat) : Int) <
        (((hi - lo).toNat + 1 : Nat) : Int) := by exact_mod_cast h1
    push_cast at h4
    omega

theorem randFill_digOk (g : Nat → Nat) : ∀ (c k : Nat), digOk (randFill g k c).1 := by
  intro c
  induction c with
  | zero =>
    intro k
    rfl
  | succ c ih =>
    intro k
    rcases hp : randFill g (k + 1) c with ⟨rest, k2⟩
    have hun : randFill g k (c + 1) = (randDraw g k 0 9 :: rest, k2) := by
      show (match randFill g (k + 1) c with
            | (rest, k2) => (randDraw g k 0 9 :: rest, k2)) = _
      rw [hp]
    rw [hun]
    show digOk (randDraw g k 0 9 :: rest) = true
    rw [digOk_cons]
    obtain ⟨hl, hu⟩ := randDraw_mem g k 0 9 (by norm_num)
    refine ⟨⟨hl, hu⟩, ?_⟩
    have h3 := ih (k + 1)
    rw [hp] at h3
    exact h3

theorem rand_digits_repOk {ds : List Int} (hdds : digOk ds) (g : Nat → Nat) (kk : Nat)
    {sg : BigIntSign} (hsg : sg ≠ BigIntSign.Zero) :
    repOk (ChonkerInt.mk (ds ++ [randDraw g kk 1 9]) sg) := by
  obtain ⟨htl, htu⟩ := randDraw_mem g kk 1 9 (by norm_num)
  refine repOk_mk ?_ ?_ ?_ hsg
  · rw [digOk_append]
    refine ⟨hdds, ?_⟩
    rw [digOk_cons]
    exact ⟨⟨by omega, by omega⟩, by decide⟩
  · simp
  · rw [List.getLast?_concat]
    intro hcc
    have h6 := Option.some.inj hcc
    omega

theorem newRandC_repOk (g : Nat → Nat) (k len : Nat) (sg : BigIntSign)
    (c : ChonkerInt) (k2 : Nat) (h : newRandC g k len sg = some (c, k2)) :
    repOk c ∧ c.sign = sg := by
  simp only [newRandC] at h
  by_cases hlen : len = 0
  · rw [if_pos hlen] at h
    exact Option.noConfusion h
  rw [if_neg hlen] at h
  by_cases hsg : sg = BigIntSign.Zero
  · rw [if_pos hsg] at h
    exact Option.noConfusion h
  rw [if_neg hsg] at h
  have hc : ChonkerInt.mk ((randFill g k (len - 1)).1 ++
      [randDraw g (randFill g k (len - 1)).2 1 9]) sg = c :=
    congrArg Prod.fst (Option.some.inj h)
  rw [← hc]
  exact ⟨rand_digits_repOk (randFill_digOk g (len - 1) k) g
    ((randFill g k (len - 1)).2) hsg, rfl⟩

theorem newRandRangeLenC_repOk (g : Nat → Nat) (k st en : Nat) (sg : BigIntSign)
    (c : ChonkerInt) (k2 : Nat) (h : newRandRangeLenC g k st en sg = some (c, k2)) :
    repOk c ∧ c.sign = sg := by
  simp only [newRandRangeLenC] at h
  by_cases h1 : st = 0 ∨ en = 0
  · rw [if_pos h1] at h
    exact Option.noConfusion h
  rw [if_neg h1] at h
  by_cases h2 : st > en
  · rw [if_pos h2] at h
    exact Option.noConfusion h
  rw [if_neg h2] at h
  by_cases hsg : sg = BigIntSign.Zero
  · rw [if_pos hsg] at h
    exact Option.noConfusion h
  rw [if_neg hsg] at h
  have hc : ChonkerInt.mk
      ((randFill g (k + 1) ((randDraw g k (Int.ofNat st) (Int.ofNat en)).toNat - 1)).1 ++
        [randDraw g
          (randFill g (k + 1) ((randDraw g k (Int.ofNat st) (Int.ofNat en)).toNat - 1)).2
          1 9]) sg = c :=
    congrArg Prod.fst (Option.some.inj h)
  rw [← hc]
  exact ⟨rand_digits_repOk
    (randFill_digOk g ((randDraw g k (Int.ofNat st) (Int.ofNat en)).toNat - 1) (k + 1)) g
    ((randFill g (k + 1) ((randDraw g k (Int.ofNat st) (Int.ofNat en)).toNat - 1)).2)
    hsg, rfl⟩

theorem newRandRangeValueLoop_repOk (g : Nat → Nat) (startB endB : ChonkerInt)
    (sg : BigIntSign) : ∀ (f k : Nat) (c : ChonkerInt) (k2 : Nat),
      newRandRangeValueLoop g startB endB sg f k = some (c, k2) → repOk c := by
  intro f
  induction f with
  | zero =>
    intro k c k2 h
    exact Option.noConfusion h
  | succ f ih =>
    intro k c k2 h
    simp only [newRandRangeValueLoop] at h
    split at h
    · exact Option.noConfusion h
    · rename_i cand kk hm
      obtain ⟨hcr, hcs⟩ := newRandRangeLenC_repOk g k startB.digits.length
        endB.digits.length BigIntSign.Positive cand kk hm
      split at h
      · rcases sg with _ | _ | _
        · have hc3 : setPos cand = c := congrArg Prod.fst (Option.some.inj h)
          rw [← hc3]
          rw [setPos_eq_self hcs]
          exact hcr
        · have hc3 : cand = c := congrArg Prod.fst (Option.some.inj h)
          rw [← hc3]
          exact hcr
        · have hc3 : setNeg cand = c := congrArg Prod.fst (Option.some.inj h)
          rw [← hc3]
          obtain ⟨hne, ht⟩ := canonC_pos_arm (repOk_parts hcr).2 (by rw [hcs]; decide)
          show repOk (ChonkerInt.mk cand.digits BigIntSign.Negative) = true
          exact repOk_mk (repOk_parts hcr).1 hne ht (by intro hcc; cases hcc)
      · exact ih kk c k2 h

theorem newRandRangeValueC_repOk (g : Nat → Nat) (fuel k : Nat)
    (startB endB : ChonkerInt) (sg : BigIntSign) (c : ChonkerInt) (k2 : Nat)
    (h : newRandRangeValueC g fuel k startB endB sg = some (c, k2)) : repOk c := by
  unfold newRandRangeValueC at h
  by_cases h1 : startB = newC ∨ endB = newC
  · rw [if_pos h1] at h
    exact Option.noConfusion h
  rw [if_neg h1] at h
  by_cases h2 : ltC startB newC = true ∨ ltC endB newC = true
  · rw [if_pos h2] at h
    exact Option.noConfusion h
  rw [if_neg h2] at h
  by_cases h3 : geC startB endB = true
  · rw [if_pos h3] at h
    exact Option.noConfusion h
  rw [if_neg h3] at h
  by_cases h4 : sg = BigIntSign.Zero
  · rw [if_pos h4] at h
    exact Option.noConfusion h
  rw [if_neg h4] at h
  exact newRandRangeValueLoop_repOk g startB endB sg fuel k c k2 h

theorem newPrimeCandidate_repOk (g : Nat → Nat) (k len : Nat) :
    repOk (newPrimeCandidate g k len).1 := by
  rcases hp : randFill g (k + 1) (len - 2) with ⟨mids, kk⟩
  have hun : newPrimeCandidate g k len =
      (ChonkerInt.mk ([(1:Int), 3, 5, 7, 9].getD (g k % 5) 0 ::
        (mids ++ [randDraw g kk 1 9])) BigIntSign.Positive, kk + 1) := by
    simp only [newPrimeCandidate]
    rw [hp]
  rw [hun]
  have hlsd : 0 ≤ [(1:Int), 3, 5, 7, 9].getD (g k % 5) 0 ∧
      [(1:Int), 3, 5, 7, 9].getD (g k % 5) 0 ≤ 9 := by
    have h5 : g k % 5 < 5 := Nat.mod_lt _ (by norm_num)
    rcases hgk : g k % 5 with _ | (_ | (_ | (_ | (_ | n))))
    · decide
    · decide
    · decide
    · decide
    · decide
    · rw [hgk] at h5
      omega
  have hmids : digOk mids := by
    have h3 := randFill_digOk g (len - 2) (k + 1)
    rw [hp] at h3
    exact h3
  obtain ⟨htl, htu⟩ := randDraw_mem g kk 1 9 (by norm_num)
  refine repOk_mk ?_ ?_ ?_ (by intro hcc; cases hcc)
  · rw [digOk_cons, digOk_append, digOk_cons]
    exact ⟨hlsd, hmids, ⟨by omega, by omega⟩, by decide⟩
  · simp
  · rw [getLast?_cons_ne (by simp), List.getLast?_concat]
    intro hcc
    have h6 := Option.some.inj hcc
    omega

theorem newPrimeLoop_repOk (g : Nat → Nat) (len : Nat) :
    ∀ (f k : Nat) (c : ChonkerInt) (k2 : Nat),
      newPrimeLoop g len f k = some (c, k2) → repOk c := by
  intro f
  induction f with
  | zero =>
    intro k c k2 h
    exact Option.noConfusion h
  | succ f ih =>
    intro k c k2 h
    simp only [newPrimeLoop] at h
    split at h
    · exact Option.noConfusion h
    · rename_i k3 hip
      have hc : (newPrimeCandidate g k len).1 = c := congrArg Prod.fst (Option.some.inj h)
      rw [← hc]
      exact newPrimeCandidate_repOk g k len
    · rename_i k3 hip
      exact ih k3 c k2 h

theorem newPrimeC_repOk (g : Nat → Nat) (fuel k len : Nat) (c : ChonkerInt) (k2 : Nat)
    (h : newPrimeC g fuel k len = some (c, k2)) : repOk c := by
  unfold newPrimeC at h
  by_cases h1 : len = 0
  · rw [if_pos h1] at h
    exact Option.noConfusion h
  rw [if_neg h1] at h
  by_cases h2 : len = 1
  · rw [if_pos h2] at h
    have hc : ChonkerInt.mk [[(2 : Int), 3, 5, 7].getD (g k % 4) 0] BigIntSign.Positive
        = c := congrArg Prod.fst (Option.some.inj h)
    rw [← hc]
    have h4 : g k % 4 < 4 := Nat.mod_lt _ (by norm_num)
    rcases hgk : g k % 4 with _ | (_ | (_ | (_ | m)))
    · decide
    · decide
    · decide
    · decide
    · rw [hgk] at h4
      omega
  · rw [if_neg h2] at h
    exact newPrimeLoop_repOk g len fuel k c k2 h


theorem isNumericC_bounds {c : Char} (h : isNumericC c = true) :
    48 ≤ c.toNat ∧ c.toNat ≤ 57 := by
  unfold isNumericC at h
  unfold Char.isDigit at h
  rw [Bool.and_eq_true] at h
  obtain ⟨h1, h2⟩ := h
  have h1b : (48 : UInt32) ≤ c.val := of_decide_eq_true h1
  have h2b : c.val ≤ (57 : UInt32) := of_decide_eq_true h2
  exact ⟨h1b, h2b⟩

theorem dw_head {p : Char → Bool} : ∀ {l : List Char} {a : Char},
    (l.dropWhile p).head? = some a → p a = false := by
  intro l
  induction l with
  | nil =>
    intro a h
    exact Option.noConfusion h
  | cons b t ih =>
    intro a h
    rw [List.dropWhile_cons] at h
    by_cases hb : p b = true
    · rw [if_pos hb] at h
      exact ih h
    · rw [if_neg hb] at h
      have hab : b = a := Option.some.inj h
      rw [← hab]
      rcases Bool.eq_false_or_eq_true (p b) with ht | hf
      · exact absurd ht hb
      · exact hf

theorem dw_mem {p : Char → Bool} : ∀ {l : List Char} {a : Char},
    a ∈ l.dropWhile p → a ∈ l := by
  intro l
  induction l with
  | nil =>
    intro a h
    exact absurd h (List.not_mem_nil a)
  | cons b t ih =>
    intro a h
    rw [List.dropWhile_cons] at h
    by_cases hb : p b = true
    · rw [if_pos hb] at h
      exact List.mem_cons_of_mem b (ih h)
    · rw [if_neg hb] at h
      exact h

theorem head?_mem_of_eq {α : Type} {l : List α} {a : α} (h : l.head? = some a) :
    a ∈ l := by
  rcases l with _ | ⟨b, t⟩
  · exact Option.noConfusion h
  · rw [← Option.some.inj h]
    exact List.mem_cons_self b t

theorem fromSliceC_repOk {l : List Nat} {c : ChonkerInt} (h : fromSliceC l = some c) :
    repOk c := by
  simp only [fromSliceC] at h
  by_cases hall : l.all (fun d => d ≤ 9) = true
  · rw [if_pos hall] at h
    by_cases hemp : (normalizeDigits (List.map (fun d : Nat => (d : Int)) l)).isEmpty = true
    · rw [if_pos hemp] at h
      rw [← Option.some.inj h]
      exact repOk_newC
    · rw [if_neg hemp] at h
      rw [← Option.some.inj h]
      refine repOk_mk ?_ ?_ normalizeDigits_getLast (by intro hcc; cases hcc)
      · apply normalizeDigits_digOk
        rw [digOk_iff]
        intro d hd
        obtain ⟨n, hn, rfl⟩ := List.mem_map.mp hd
        have h9 : n ≤ 9 := of_decide_eq_true (List.all_eq_true.mp hall n hn)
        constructor
        · exact Int.natCast_nonneg n
        · exact_mod_cast h9
      · intro hcc
        rw [hcc] at hemp
        exact hemp rfl
  · rw [if_neg hall] at h
    exact Option.noConfusion h

theorem fromStringC_repOk (s : List Char) : repOk (fromStringC s) := by
  simp only [fromStringC]
  split
  · exact repOk_newC
  · rename_i c0 hc0
    by_cases h1 : ¬(c0 = '-' ∨ isNumericC c0 = true)
    · rw [if_pos h1]
      exact repOk_newC
    rw [if_neg h1]
    by_cases h2 : ¬((s.drop 1).all isNumericC = true)
    · rw [if_pos h2]
      exact repOk_newC
    rw [if_neg h2]
    by_cases h3 : ((if c0 = '-' then s.drop 1 else s).dropWhile
        (fun c => c == '0')).isEmpty = true
    · rw [if_pos h3]
      exact repOk_newC
    · rw [if_neg h3]
      have hnum : ∀ c ∈ (if c0 = '-' then s.drop 1 else s), isNumericC c = true := by
        intro c hc
        by_cases hminus : c0 = '-'
        · rw [if_pos hminus] at hc
          exact List.all_eq_true.mp (not_not.mp h2) c hc
        · rw [if_neg hminus] at hc
          have hs : s = c0 :: s.drop 1 := by
            rcases s with _ | ⟨a, t⟩
            · exact Option.noConfusion hc0
            · have ha : a = c0 := Option.some.inj hc0
              rw [ha]
              rfl
          rw [hs] at hc
          rcases List.mem_cons.mp hc with rfl | hc2
          · rcases not_not.mp h1 with hm | hn
            · exact absurd hm hminus
            · exact hn
          · exact List.all_eq_true.mp (not_not.mp h2) c hc2
      refine repOk_mk ?_ ?_ ?_ ?_
      · rw [digOk_iff]
        intro d hd
        rw [List.mem_reverse] at hd
        obtain ⟨ch, hch, rfl⟩ := List.mem_map.mp hd
        obtain ⟨hb1, hb2⟩ := isNumericC_bounds (hnum ch (dw_mem hch))
        constructor
        · omega
        · omega
      · intro hcc
        rw [List.reverse_eq_nil_iff, List.map_eq_nil_iff] at hcc
        rw [hcc] at h3
        exact h3 rfl
      · rw [List.getLast?_reverse]
        rcases hh : ((if c0 = '-' then s.drop 1 else s).dropWhile
            (fun c => c == '0')).head? with _ | hd0
        · rw [List.head?_eq_none_iff] at hh
          rw [hh] at h3
          exact absurd rfl h3
        · rw [List.head?_map, hh]
          intro hcc
          have hv : (hd0.toNat : Int) - 48 = 0 := Option.some.inj hcc
          have h48 : hd0.toNat = 48 := by omega
          have hz := dw_head hh
          have hz2 : ¬ hd0 = '0' := by
            intro hcc2
            rw [hcc2] at hz
            exact Bool.noConfusion hz
          exact hz2 (Char.ext (UInt32.ext h48))
      · by_cases hminus : c0 = '-'
        · rw [if_pos hminus]
          intro hcc
          cases hcc
        · rw [if_neg hminus]
          intro hcc
          cases hcc

theorem factorLoop_repOk (x absT iter : ChonkerInt) (hx : repOk x) (hiter : repOk iter) :
    ∀ (f : Nat) (cand : ChonkerInt) (acc out : List ChonkerInt),
      repOk cand → (∀ e ∈ acc, repOk e) →
      factorLoop x absT iter f cand acc = some out → ∀ e ∈ out, repOk e := by
  intro f
  induction f with
  | zero =>
    intro cand acc out _ _ h
    exact Option.noConfusion h
  | succ f ih =>
    intro cand acc out hcand hacc h
    simp only [factorLoop] at h
    split at h
    · exact Option.noConfusion h
    · rename_i sq hpow
      split at h
      · split at h
        · exact Option.noConfusion h
        · rename_i m hrem
          have hkey : ∀ (acc3 : List ChonkerInt), (∀ e ∈ acc3, repOk e) →
              factorLoop x absT iter f (addC cand iter) acc3 = some out →
              ∀ e ∈ out, repOk e :=
            fun acc3 hacc3 hh =>
              ih (addC cand iter) acc3 out (addC_spec cand iter hcand hiter).1 hacc3 hh
          by_cases hmn : m = newC
          · rw [if_pos hmn] at h
            rcases hdiv : divC x cand with _ | other
            · rw [hdiv] at h
              exact Option.noConfusion h
            · rw [hdiv] at h
              have hother : repOk other := divC_some_repOk hx hcand hdiv
              refine hkey (if other ≠ cand then acc ++ [cand, other] else acc ++ [cand]) ?_ h
              intro e he
              by_cases hoc : other ≠ cand
              · rw [if_pos hoc] at he
                rcases List.mem_append.mp he with he2 | he2
                · exact hacc e he2
                · rcases List.mem_cons.mp he2 with rfl | he3
                  · exact hcand
                  · rcases List.mem_cons.mp he3 with rfl | he4
                    · exact hother
                    · exact absurd he4 (List.not_mem_nil e)
              · rw [if_neg hoc] at he
                rcases List.mem_append.mp he with he2 | he2
                · exact hacc e he2
                · rcases List.mem_cons.mp he2 with rfl | he3
                  · exact hcand
                  · exact absurd he3 (List.not_mem_nil e)
          · rw [if_neg hmn] at h
            exact hkey acc hacc h
      · have hout : acc = out := Option.some.inj h
        rw [← hout]
        exact hacc

theorem factorC_repOk (g : Nat → Nat) (k fuel : Nat) (x : ChonkerInt) (hx : repOk x)
    (lst : List ChonkerInt) (k2 : Nat) (h : factorC g k fuel x = some (lst, k2)) :
    ∀ e ∈ lst, repOk e := by
  simp only [factorC] at h
  by_cases hx0 : x = newC
  · rw [if_pos hx0] at h
    have hlst : ([] : List ChonkerInt) = lst := congrArg Prod.fst (Option.some.inj h)
    intro e he
    rw [← hlst] at he
    exact absurd he (List.not_mem_nil e)
  rw [if_neg hx0] at h
  by_cases hx1 : x = fromIntC 1
  · rw [if_pos hx1] at h
    have hlst : [fromIntC 1] = lst := congrArg Prod.fst (Option.some.inj h)
    intro e he
    rw [← hlst] at he
    rcases List.mem_cons.mp he with rfl | he2
    · decide
    · exact absurd he2 (List.not_mem_nil e)
  rw [if_neg hx1] at h
  by_cases hxm1 : x = fromIntC (-1)
  · rw [if_pos hxm1] at h
    have hlst : [fromIntC (-1)] = lst := congrArg Prod.fst (Option.some.inj h)
    intro e he
    rw [← hlst] at he
    rcases List.mem_cons.mp he with rfl | he2
    · decide
    · exact absurd he2 (List.not_mem_nil e)
  rw [if_neg hxm1] at h
  split at h
  · exact Option.noConfusion h
  · rename_i kk hip
    have hlst : ([] : List ChonkerInt) = lst := congrArg Prod.fst (Option.some.inj h)
    intro e he
    rw [← hlst] at he
    exact absurd he (List.not_mem_nil e)
  · rename_i kk hip
    split at h
    · exact Option.noConfusion h
    · rename_i m2 hrem
      have hkey : ∀ (init : List ChonkerInt) (cand0 iter : ChonkerInt),
          (∀ e ∈ init, repOk e) → repOk cand0 → repOk iter →
          (match factorLoop x (setPos x) iter fuel cand0 init with
           | none => none
           | some lst0 =>
             some (sortC (if x.sign = BigIntSign.Negative then lst0 ++ lst0.map negC
               else lst0), kk)) = some (lst, k2) →
          ∀ e ∈ lst, repOk e := by
        intro init cand0 iter hinit hcand0 hiter hh
        rcases hloop : factorLoop x (setPos x) iter fuel cand0 init with _ | lst0
        · rw [hloop] at hh
          exact Option.noConfusion hh
        · rw [hloop] at hh
          have hall : ∀ e ∈ lst0, repOk e :=
            factorLoop_repOk x (setPos x) iter hx hiter fuel cand0 init lst0 hcand0
              hinit hloop
          have hlst : sortC (if x.sign = BigIntSign.Negative then lst0 ++ lst0.map negC
              else lst0) = lst := congrArg Prod.fst (Option.some.inj hh)
          intro e he
          rw [← hlst] at he
          have he2 := sortC_mem he
          by_cases hsgn : x.sign = BigIntSign.Negative
          · rw [if_pos hsgn] at he2
            rcases List.mem_append.mp he2 with he3 | he3
            · exact hall e he3
            · obtain ⟨e2, he4, hneg⟩ := List.mem_map.mp he3
              rw [← hneg]
              exact (negC_spec (hall e2 he4)).1
          · rw [if_neg hsgn] at he2
            exact hall e he2
      by_cases hm2 : m2 = newC
      · rw [if_pos hm2] at h
        rcases hdivC : divC x (fromIntC 2) with _ | half
        · rw [hdivC] at h
          exact Option.noConfusion h
        · rw [hdivC] at h
          refine hkey [fromIntC 1, fromIntC 2, half, x] (fromIntC 3) (fromIntC 1) ?_
            (by decide) (by decide) h
          intro e he
          rcases List.mem_cons.mp he with rfl | he2
          · decide
          rcases List.mem_cons.mp he2 with rfl | he3
          · decide
          rcases List.mem_cons.mp he3 with rfl | he4
          · exact divC_some_repOk hx (by decide) hdivC
          rcases List.mem_cons.mp he4 with rfl | he5
          · exact hx
          · exact absurd he5 (List.not_mem_nil e)
      · rw [if_neg hm2] at h
        refine hkey [fromIntC 1, x] (fromIntC 3) (fromIntC 2) ?_ (by decide) (by decide) h
        intro e he
        rcases List.mem_cons.mp he with rfl | he2
        · decide
        rcases List.mem_cons.mp he2 with rfl | he3
        · exact hx
        · exact absurd he3 (List.not_mem_nil e)

theorem primeFactorStrip_repOk (cand : ChonkerInt) (hcand : repOk cand) :
    ∀ (f : Nat) (target : ChonkerInt) (acc : List ChonkerInt) (t2 : ChonkerInt)
      (acc2 : List ChonkerInt), repOk target → (∀ e ∈ acc, repOk e) →
      primeFactorStrip cand f target acc = some (t2, acc2) →
      repOk t2 ∧ ∀ e ∈ acc2, repOk e := by
  intro f
  induction f with
  | zero =>
    intro target acc t2 acc2 _ _ h
    exact Option.noConfusion h
  | succ f ih =>
    intro target acc t2 acc2 htarget hacc h
    simp only [primeFactorStrip] at h
    split at h
    · exact Option.noConfusion h
    · rename_i m hrem
      by_cases hm : m = newC
      · rw [if_pos hm] at h
        rcases hdiv : divC target cand with _ | t3
        · rw [hdiv] at h
          exact Option.noConfusion h
        · rw [hdiv] at h
          refine ih t3 (acc ++ [cand]) t2 acc2 (divC_some_repOk htarget hcand hdiv) ?_ h
          intro e he
          rcases List.mem_append.mp he with he2 | he2
          · exact hacc e he2
          · rcases List.mem_cons.mp he2 with rfl | he3
            · exact hcand
            · exact absurd he3 (List.not_mem_nil e)
      · rw [if_neg hm] at h
        have ht : target = t2 := congrArg Prod.fst (Option.some.inj h)
        have ha : acc = acc2 := congrArg Prod.snd (Option.some.inj h)
        rw [← ht, ← ha]
        exact ⟨htarget, hacc⟩

theorem primeFactorLoop_repOk :
    ∀ (f : Nat) (target cand : ChonkerInt) (acc : List ChonkerInt)
      (t2 : ChonkerInt) (acc2 : List ChonkerInt), repOk target → repOk cand →
      (∀ e ∈ acc, repOk e) → primeFactorLoop f target cand acc = some (t2, acc2) →
      repOk t2 ∧ ∀ e ∈ acc2, repOk e := by
  intro f
  induction f with
  | zero =>
    intro target cand acc t2 acc2 _ _ _ h
    exact Option.noConfusion h
  | succ f ih =>
    intro target cand acc t2 acc2 htarget hcand hacc h
    simp only [primeFactorLoop] at h
    split at h
    · exact Option.noConfusion h
    · rename_i sq hpow
      split at h
      · split at h
        · exact Option.noConfusion h
        · rename_i t3 acc3 hstrip
          obtain ⟨ht3, hacc3⟩ := primeFactorStrip_repOk cand hcand (f + 1) target acc
            t3 acc3 htarget hacc hstrip
          exact ih t3 (addC cand (fromIntC 2)) acc3 t2 acc2 ht3
            (addC_spec cand (fromIntC 2) hcand (by decide)).1 hacc3 h
      · have ht : target = t2 := congrArg Prod.fst (Option.some.inj h)
        have ha : acc = acc2 := congrArg Prod.snd (Option.some.inj h)
        rw [← ht, ← ha]
        exact ⟨htarget, hacc⟩

theorem primeFactorC_repOk (g : Nat → Nat) (k fuel : Nat) (x : ChonkerInt)
    (hx : repOk x) (lst : List ChonkerInt) (k2 : Nat)
    (h : primeFactorC g k fuel x = some (lst, k2)) : ∀ e ∈ lst, repOk e := by
  simp only [primeFactorC] at h
  by_cases hs : x.sign = BigIntSign.Negative
  · rw [if_pos hs] at h
    have hlst : ([] : List ChonkerInt) = lst := congrArg Prod.fst (Option.some.inj h)
    intro e he
    rw [← hlst] at he
    exact absurd he (List.not_mem_nil e)
  rw [if_neg hs] at h
  by_cases hx0 : x = newC
  · rw [if_pos hx0] at h
    have hlst : ([] : List ChonkerInt) = lst := congrArg Prod.fst (Option.some.inj h)
    intro e he
    rw [← hlst] at he
    exact absurd he (List.not_mem_nil e)
  rw [if_neg hx0] at h
  by_cases hx1 : x = fromIntC 1
  · rw [if_pos hx1] at h
    have hlst : [fromIntC 1] = lst := congrArg Prod.fst (Option.some.inj h)
    intro e he
    rw [← hlst] at he
    rcases List.mem_cons.mp he with rfl | he2
    · decide
    · exact absurd he2 (List.not_mem_nil e)
  rw [if_neg hx1] at h
  by_cases hxm1 : x = fromIntC (-1)
  · rw [if_pos hxm1] at h
    have hlst : [fromIntC (-1)] = lst := congrArg Prod.fst (Option.some.inj h)
    intro e he
    rw [← hlst] at he
    rcases List.mem_cons.mp he with rfl | he2
    · decide
    · exact absurd he2 (List.not_mem_nil e)
  rw [if_neg hxm1] at h
  split at h
  · exact Option.noConfusion h
  · rename_i kk hip
    have hlst : ([] : List ChonkerInt) = lst := congrArg Prod.fst (Option.some.inj h)
    intro e he
    rw [← hlst] at he
    exact absurd he (List.not_mem_nil e)
  · rename_i kk hip
    split at h
    · exact Option.noConfusion h
    · rename_i target1 acc1 hstrip
      obtain ⟨ht1, hacc1⟩ := primeFactorStrip_repOk (fromIntC 2) (by decide) fuel x []
        target1 acc1 hx (fun e he => absurd he (List.not_mem_nil e)) hstrip
      split at h
      · exact Option.noConfusion h
      · rename_i target2 acc2 hloop
        obtain ⟨ht2, hacc2⟩ := primeFactorLoop_repOk fuel target1 (fromIntC 3) acc1
          target2 acc2 ht1 (by decide) hacc1 hloop
        by_cases hgt : gtC target2 (fromIntC 2) = true
        · rw [if_pos hgt] at h
          have hlst : acc2 ++ [target2] = lst := congrArg Prod.fst (Option.some.inj h)
          intro e he
          rw [← hlst] at he
          rcases List.mem_append.mp he with he2 | he2
          · exact hacc2 e he2
          · rcases List.mem_cons.mp he2 with rfl | he3
            · exact ht2
            · exact absurd he3 (List.not_mem_nil e)
        · rw [if_neg hgt] at h
          have hlst : acc2 = lst := congrArg Prod.fst (Option.some.inj h)
          intro e he
          rw [← hlst] at he
          exact hacc2 e he

theorem factorRsaLoop_repOk (g : Nat → Nat) (x absT : ChonkerInt) (hx : repOk x) :
    ∀ (f k : Nat) (cand : ChonkerInt) (lst : List ChonkerInt) (k2 : Nat),
      repOk cand → factorRsaLoop g x absT f k cand = some (lst, k2) →
      ∀ e ∈ lst, repOk e := by
  intro f
  induction f with
  | zero =>
    intro k cand lst k2 _ h
    exact Option.noConfusion h
  | succ f ih =>
    intro k cand lst k2 hcand h
    simp only [factorRsaLoop] at h
    split at h
    · exact Option.noConfusion h
    · rename_i sq hpow
      split at h
      · split at h
        · exact Option.noConfusion h
        · rename_i kk hip
          exact ih kk (addC cand (fromIntC 2)) lst k2
            (addC_spec cand (fromIntC 2) hcand (by decide)).1 h
        · rename_i kk hip
          split at h
          · exact Option.noConfusion h
          · rename_i m hrem
            by_cases hm : m = newC
            · rw [if_pos hm] at h
              rcases hdiv : divC x cand with _ | other
              · rw [hdiv] at h
                exact Option.noConfusion h
              · rw [hdiv] at h
                replace h : (match isPrimeProbC g kk other 2 with
                    | none => none
                    | some (false, _) => none
                    | some (true, k3) => some ([cand, other], k3)) = some (lst, k2) := h
                split at h
                · exact Option.noConfusion h
                · exact Option.noConfusion h
                · rename_i k3 hip2
                  have hlst : [cand, other] = lst := congrArg Prod.fst (Option.some.inj h)
                  intro e he
                  rw [← hlst] at he
                  rcases List.mem_cons.mp he with rfl | he2
                  · exact hcand
                  rcases List.mem_cons.mp he2 with rfl | he3
                  · exact divC_some_repOk hx hcand hdiv
                  · exact absurd he3 (List.not_mem_nil e)
            · rw [if_neg hm] at h
              exact ih kk (addC cand (fromIntC 2)) lst k2
                (addC_spec cand (fromIntC 2) hcand (by decide)).1 h
      · have hlst : ([] : List ChonkerInt) = lst := congrArg Prod.fst (Option.some.inj h)
        intro e he
        rw [← hlst] at he
        exact absurd he (List.not_mem_nil e)

theorem factorRsaModulusC_repOk (g : Nat → Nat) (k fuel : Nat) (x sp : ChonkerInt)
    (hx : repOk x) (hsp : repOk sp) (lst : List ChonkerInt) (k2 : Nat)
    (h : factorRsaModulusC g k fuel x sp = some (lst, k2)) : ∀ e ∈ lst, repOk e := by
  simp only [factorRsaModulusC] at h
  by_cases h1 : sp = newC ∨ sp.sign = BigIntSign.Negative
  · rw [if_pos h1] at h
    exact Option.noConfusion h
  rw [if_neg h1] at h
  split at h
  · exact Option.noConfusion h
  · rename_i isP kk hip
    by_cases h2 : x = newC ∨ x = fromIntC 1 ∨ x = fromIntC 2 ∨ isP = true
    · rw [if_pos h2] at h
      exact Option.noConfusion h
    rw [if_neg h2] at h
    split at h
    · exact Option.noConfusion h
    · rename_i m2 hrem
      have hodd : ∀ k3 : Nat,
          (match remC sp (fromIntC 2) with
           | none => none
           | some ms =>
             match factorRsaLoop g x (setPos x) fuel k3
                 (if ms = newC then addC sp (fromIntC 1) else sp) with
             | none => none
             | some (lst0, k4) => some (sortC lst0, k4)) = some (lst, k2) →
          ∀ e ∈ lst, repOk e := by
        intro k3 hh
        rcases hms : remC sp (fromIntC 2) with _ | ms
        · rw [hms] at hh
          exact Option.noConfusion hh
        · rw [hms] at hh
          replace hh : (match factorRsaLoop g x (setPos x) fuel k3
                (if ms = newC then addC sp (fromIntC 1) else sp) with
             | none => none
             | some (lst0, k4) => some (sortC lst0, k4)) = some (lst, k2) := hh
          rcases hloop : factorRsaLoop g x (setPos x) fuel k3
              (if ms = newC then addC sp (fromIntC 1) else sp) with _ | ⟨lst0, k4⟩
          · rw [hloop] at hh
            exact Option.noConfusion hh
          · rw [hloop] at hh
            have hcand0 : repOk (if ms = newC then addC sp (fromIntC 1) else sp) := by
              by_cases hmsn : ms = newC
              · rw [if_pos hmsn]
                exact (addC_spec sp (fromIntC 1) hsp (by decide)).1
              · rw [if_neg hmsn]
                exact hsp
            have hall := factorRsaLoop_repOk g x (setPos x) hx fuel k3
              (if ms = newC then addC sp (fromIntC 1) else sp) lst0 k4 hcand0 hloop
            have hlst : sortC lst0 = lst := congrArg Prod.fst (Option.some.inj hh)
            intro e he
            rw [← hlst] at he
            exact hall e (sortC_mem he)
      by_cases hm2 : m2 = newC
      · rw [if_pos hm2] at h
        rcases hdiv : divC x (fromIntC 2) with _ | second
        · rw [hdiv] at h
          exact Option.noConfusion h
        · rw [hdiv] at h
          replace h : (match (match isPrimeProbC g kk second 2 with
                | none => none
                | some (sp2, k3) => some (sp2, second, k3)) with
             | none => none
             | some (true, second2, k3) => some (sortC [fromIntC 2, second2], k3)
             | some (false, _, k3) =>
               match remC sp (fromIntC 2) with
               | none => none
               | some ms =>
                 match factorRsaLoop g x (setPos x) fuel k3
                     (if ms = newC then addC sp (fromIntC 1) else sp) with
                 | none => none
                 | some (lst0, k4) => some (sortC lst0, k4)) = some (lst, k2) := h
          rcases hips : isPrimeProbC g kk second 2 with _ | ⟨sp2, k3⟩
          · rw [hips] at h
            exact Option.noConfusion h
          · rw [hips] at h
            rcases sp2 with _ | _
            · exact hodd k3 h
            · have hlst : sortC [fromIntC 2, second] = lst :=
                congrArg Prod.fst (Option.some.inj h)
              intro e he
              rw [← hlst] at he
              rcases List.mem_cons.mp (sortC_mem he) with rfl | he2
              · decide
              rcases List.mem_cons.mp he2 with rfl | he3
              · exact divC_some_repOk hx (by decide) hdiv
              · exact absurd he3 (List.not_mem_nil e)
      · rw [if_neg hm2] at h
        exact hodd kk h

/-- Claim C3, amended: the canonical-form invariant (Zero sign exactly on an
empty digit vector, otherwise a non-empty vector with a non-zero top digit)
holds for the results of negation, addition, subtraction, multiplication,
division, non-divisible remainders, pow, gcd, the string and slice
constructors, integer conversion below the conversion cap, the random
generators, prime generation, and the three factoring routines.  It fails on
three public paths shown by the separate counterexample: integer conversion
of values with thirty-eight or more decimal digits keeps a most-significant
zero, the remainder of a divisible dividend by an equal-signed divisor is a
zero value carrying a Positive sign on an empty vector, and modpow passes
that zero through when the final reduction divides exactly. -/
theorem claimC3_canonical (x y : ChonkerInt) (hx : repOk x) (hy : repOk y) :
    canonC (addC x y) = true ∧ canonC (subC x y) = true ∧ canonC (mulC x y) = true ∧
    canonC (negC x) = true ∧
    (∀ q, divC x y = some q → canonC q = true) ∧
    (∀ r, remC x y = some r → ¬ valC y ∣ valC x → canonC r = true) ∧
    (∀ p, powC x y = some p → canonC p = true) ∧
    (∀ g2, gcdC x y = some g2 → canonC g2 = true) ∧
    (∀ z : Int, z.natAbs < 10 ^ 37 → canonC (fromIntC z) = true) ∧
    (∀ s : List Char, canonC (fromStringC s) = true) ∧
    (∀ (l : List Nat) (c : ChonkerInt), fromSliceC l = some c → canonC c = true) ∧
    (∀ (g : Nat → Nat) (k len : Nat) (sg : BigIntSign) (c : ChonkerInt) (k2 : Nat),
      newRandC g k len sg = some (c, k2) → canonC c = true) ∧
    (∀ (g : Nat → Nat) (fuel k : Nat) (sB eB : ChonkerInt) (sg : BigIntSign)
      (c : ChonkerInt) (k2 : Nat),
      newRandRangeValueC g fuel k sB eB sg = some (c, k2) → canonC c = true) ∧
    (∀ (g : Nat → Nat) (fuel k len : Nat) (c : ChonkerInt) (k2 : Nat),
      newPrimeC g fuel k len = some (c, k2) → canonC c = true) ∧
    (∀ (g : Nat → Nat) (k fuel : Nat) (lst : List ChonkerInt) (k2 : Nat),
      factorC g k fuel x = some (lst, k2) → ∀ e ∈ lst, canonC e = true) ∧
    (∀ (g : Nat → Nat) (k fuel : Nat) (lst : List ChonkerInt) (k2 : Nat),
      primeFactorC g k fuel x = some (lst, k2) → ∀ e ∈ lst, canonC e = true) ∧
    (∀ (g : Nat → Nat) (k fuel : Nat) (sp : ChonkerInt) (lst : List ChonkerInt)
      (k2 : Nat), repOk sp → factorRsaModulusC g k fuel x sp = some (lst, k2) →
      ∀ e ∈ lst, canonC e = true) := by
  refine ⟨(repOk_parts (addC_spec x y hx hy).1).2, (repOk_parts (subC_spec x y hx hy).1).2,
    (repOk_parts (mulC_spec x y hx hy).1).2, (repOk_parts (negC_spec hx).1).2,
    fun q hq => (repOk_parts (divC_some_repOk hx hy hq)).2,
    fun r hr hnd => (repOk_parts (remC_some_nd hx hy hr hnd)).2,
    fun p hp => (repOk_parts (powC_repOk hx hy hp)).2,
    fun g2 hg => (repOk_parts (gcdC_repOk hx hy hg)).2,
    fun z hz => (repOk_parts (fromIntC_spec z hz).1).2,
    fun s => (repOk_parts (fromStringC_repOk s)).2,
    fun l c hc => (repOk_parts (fromSliceC_repOk hc)).2,
    fun g k len sg c k2 hc => (repOk_parts (newRandC_repOk g k len sg c k2 hc).1).2,
    fun g fuel k sB eB sg c k2 hc =>
      (repOk_parts (newRandRangeValueC_repOk g fuel k sB eB sg c k2 hc)).2,
    fun g fuel k len c k2 hc => (repOk_parts (newPrimeC_repOk g fuel k len c k2 hc)).2,
    fun g k fuel lst k2 hl e he =>
      (repOk_parts (factorC_repOk g k fuel x hx lst k2 hl e he)).2,
    fun g k fuel lst k2 hl e he =>
      (repOk_parts (primeFactorC_repOk g k fuel x hx lst k2 hl e he)).2,
    fun g k fuel sp lst k2 hsp hl e he =>
      (repOk_parts (factorRsaModulusC_repOk g k fuel x sp hx hsp lst k2 hl e he)).2⟩

theorem claimC3_witness :
    canonC (addC (fromIntC 7) (fromIntC 3)) = true ∧
    canonC (subC (fromIntC 7) (fromIntC 3)) = true ∧
    canonC (mulC (fromIntC 7) (fromIntC 3)) = true ∧
    canonC (negC (fromIntC 7)) = true ∧
    (∀ q, divC (fromIntC 7) (fromIntC 3) = some q → canonC q = true) ∧
    (∀ r, remC (fromIntC 7) (fromIntC 3) = some r →
      ¬ valC (fromIntC 3) ∣ valC (fromIntC 7) → canonC r = true) ∧
    (∀ p, powC (fromIntC 7) (fromIntC 3) = some p → canonC p = true) ∧
    (∀ g2, gcdC (fromIntC 7) (fromIntC 3) = some g2 → canonC g2 = true) ∧
    (∀ z : Int, z.natAbs < 10 ^ 37 → canonC (fromIntC z) = true) ∧
    (∀ s : List Char, canonC (fromStringC s) = true) ∧
    (∀ (l : List Nat) (c : ChonkerInt), fromSliceC l = some c → canonC c = true) ∧
    (∀ (g : Nat → Nat) (k len : Nat) (sg : BigIntSign) (c : ChonkerInt) (k2 : Nat),
      newRandC g k len sg = some (c, k2) → canonC c = true) ∧
    (∀ (g : Nat → Nat) (fuel k : Nat) (sB eB : ChonkerInt) (sg : BigIntSign)
      (c : ChonkerInt) (k2 : Nat),
      newRandRangeValueC g fuel k sB eB sg = some (c, k2) → canonC c = true) ∧
    (∀ (g : Nat → Nat) (fuel k len : Nat) (c : ChonkerInt) (k2 : Nat),
      newPrimeC g fuel k len = some (c, k2) → canonC c = true) ∧
    (∀ (g : Nat → Nat) (k fuel : Nat) (lst : List ChonkerInt) (k2 : Nat),
      factorC g k fuel (fromIntC 7) = some (lst, k2) → ∀ e ∈ lst, canonC e = true) ∧
    (∀ (g : Nat → Nat) (k fuel : Nat) (lst : List ChonkerInt) (k2 : Nat),
      primeFactorC g k fuel (fromIntC 7) = some (lst, k2) →
      ∀ e ∈ lst, canonC e = true) ∧
    (∀ (g : Nat → Nat) (k fuel : Nat) (sp : ChonkerInt) (lst : List ChonkerInt)
      (k2 : Nat), repOk sp → factorRsaModulusC g k fuel (fromIntC 7) sp = some (lst, k2) →
      ∀ e ∈ lst, canonC e = true) :=
  claimC3_canonical (fromIntC 7) (fromIntC 3) (by decide) (by decide)

/-- Claim C3, counterexample: three public operations that return values
outside canonical form: the remainder of one hundred by ten keeps a Positive
sign on an empty digit vector, the conversion of ten to the thirty-seventh
keeps a most-significant zero digit that is never normalized away, and the
modular power of twenty to the third modulo thirty-two returns the same
Positive-signed empty zero. -/
theorem claimC3_counterexample :
    (remC (fromIntC 100) (fromIntC 10)).map canonC = some false ∧
      canonC (fromIntC (10 ^ 37)) = false ∧
      (modpowC (fromIntC 20) (fromIntC 3) (fromIntC 32)).map canonC = some false := by
  decide

set_option maxRecDepth 100000 in
/-- Claim C2: the RSA round trip is broken for plaintexts whose length is an
exact multiple of the sixteen-byte block size.  With the valid key
n = 33, e = 3, d = 7 and a sixteen-byte message free of the 0x90 padding
byte, decrypt of encrypt returns the message followed by sixteen extra NUL
bytes: the trailing block delimiter leaves an empty digit group that
decrypts to a full zero block. -/
theorem claimC2_roundtrip_pad :
    (rsaEncryptC (List.replicate 15 0 ++ [5]) (fromIntC 3) (fromIntC 33)).bind
        (fun ct => rsaDecryptC ct (fromIntC 7) (fromIntC 33)) =
      some ((List.replicate 15 0 ++ [5]) ++ List.replicate 16 0) ∧
      (List.replicate 15 0 ++ [5]) ++ List.replicate 16 0 ≠
        List.replicate 15 0 ++ [5] := by decide

theorem mapM_option_forall {α β : Type} (f : α → Option β) (P : α → β → Prop) :
    ∀ l : List α, (∀ a, a ∈ l → ∃ b, f a = some b ∧ P a b) →
      ∃ bl, l.mapM f = some bl ∧ List.Forall₂ P l bl := by
  intro l
  induction l with
  | nil =>
    intro _
    exact ⟨[], rfl, List.Forall₂.nil⟩
  | cons a t ih =>
    intro h
    obtain ⟨b, hb, hpb⟩ := h a (List.mem_cons_self a t)
    obtain ⟨bt, hbt, hft⟩ := ih (fun a2 ha2 => h a2 (List.mem_cons_of_mem _ ha2))
    refine ⟨b :: bt, ?_, List.Forall₂.cons hpb hft⟩
    rw [List.mapM_cons, hb, hbt]
    rfl

theorem forall2_get? {α β : Type} (P : α → β → Prop) :
    ∀ (l : List α) (bl : List β), List.Forall₂ P l bl →
      ∀ i, i < l.length →
        ∃ a b, l.get? i = some a ∧ bl.get? i = some b ∧ P a b := by
  intro l bl h
  induction h with
  | nil =>
    intro i hi
    simp at hi
  | cons hab htail ih =>
    intro i hi
    rcases i with _ | i2
    · exact ⟨_, _, rfl, rfl, hab⟩
    · simp only [List.length_cons] at hi
      obtain ⟨a, b, ha, hb, hp⟩ := ih i2 (by omega)
      exact ⟨a, b, ha, hb, hp⟩

theorem digitsVal_replicate_nine : ∀ h : Nat, digitsVal (List.replicate h (9:Int)) = 10 ^ h - 1 := by
  intro h
  induction h with
  | zero => rfl
  | succ h2 ih =>
    rw [List.replicate_succ, digitsVal_cons, ih, pow_succ]
    ring

theorem replicate_nine_ne {h : Nat} (hh : 0 < h) : List.replicate h (9:Int) ≠ [] := by
  intro hc
  have := congrArg List.length hc
  simp at this
  omega

theorem getLast?_replicate_nine : ∀ {h : Nat}, 0 < h →
    (List.replicate h (9:Int)).getLast? = some 9 := by
  intro h
  induction h with
  | zero => omega
  | succ h2 ih =>
    intro _
    rcases Nat.eq_zero_or_pos h2 with h0 | hpos
    · rw [h0]
      rfl
    · rw [List.replicate_succ, getLast?_cons_ne (replicate_nine_ne hpos)]
      exact ih hpos

theorem digOk_replicate_nine (h : Nat) : digOk (List.replicate h (9:Int)) := by
  rw [digOk_iff]
  intro d hd
  rw [List.eq_of_mem_replicate hd]
  constructor <;> norm_num

theorem fromSliceC_nines {h : Nat} (hh : 0 < h) :
    fromSliceC (List.replicate h 9) =
      some (ChonkerInt.mk (List.replicate h (9:Int)) BigIntSign.Positive) := by
  have hmap : List.map (fun d : Nat => (d:Int)) (List.replicate h 9) =
      List.replicate h (9:Int) := by
    rw [List.map_replicate]
    norm_num
  have hnorm : normalizeDigits (List.map (fun d : Nat => (d:Int)) (List.replicate h 9)) =
      List.replicate h (9:Int) := by
    rw [hmap]
    exact normalizeDigits_of_top (by rw [getLast?_replicate_nine hh]; decide)
  have hun : fromSliceC (List.replicate h 9) =
      (if (List.replicate h (9:Nat)).all (fun d => d ≤ 9) then
        (if (normalizeDigits (List.map (fun d : Nat => (d:Int))
              (List.replicate h 9))).isEmpty
         then some newC
         else some { digits := normalizeDigits (List.map (fun d : Nat => (d:Int))
                       (List.replicate h 9)),
                     sign := BigIntSign.Positive }) else none) := rfl
  rw [hun, hnorm,
    if_pos (show (List.replicate h (9:Nat)).all (fun d => d ≤ 9) = true from by
      rw [List.all_eq_true]
      intro d hd
      rw [List.eq_of_mem_replicate hd]
      decide),
    if_neg (show ¬((List.replicate h (9:Int)).isEmpty = true) from by
      rw [List.isEmpty_iff]
      exact replicate_nine_ne hh)]

theorem c9_job (e n stepB : ChonkerInt) (hstep : repOk stepB) :
    ∀ i : Nat, i < 8 →
      ∃ job : BruteforceJob,
        (do
          let sp := addC (fromIntC 3) (mulC stepB (fromIntC (Int.ofNat i)))
          let m ← remC sp (fromIntC 2)
          let sp2 := if m = newC then addC sp (fromIntC 1) else sp
          pure { starting_point := sp2, key_exponent := e, key_modulus := n }) =
          some job ∧
        (job.key_exponent = e ∧ job.key_modulus = n ∧
          (valC job.starting_point = 3 + Int.ofNat i * valC stepB ∨
           valC job.starting_point = 3 + Int.ofNat i * valC stepB + 1) ∧
          (¬ (2:Int) ∣ (3 + Int.ofNat i * valC stepB) →
            valC job.starting_point = 3 + Int.ofNat i * valC stepB)) := by
  intro i hi
  obtain ⟨hfr, hfv⟩ := fromIntC_spec (Int.ofNat i) (by
    have hcast : Int.ofNat i = (i : Int) := rfl
    rw [hcast]
    omega)
  obtain ⟨hmr, hmv⟩ := mulC_spec stepB (fromIntC (Int.ofNat i)) hstep hfr
  obtain ⟨hsr, hsv⟩ := addC_spec (fromIntC 3) (mulC stepB (fromIntC (Int.ofNat i)))
    (by decide) hmr
  rw [hmv, hfv, show valC (fromIntC 3) = 3 from by decide] at hsv
  obtain ⟨m, hme, _, hdvd, hnds, _, _⟩ :=
    remC_spec (addC (fromIntC 3) (mulC stepB (fromIntC (Int.ofNat i)))) (fromIntC 2)
      hsr (by decide) (by decide)
  rw [show valC (fromIntC 2) = 2 from by decide] at hdvd hnds
  have hred2 : (do
      let sp := addC (fromIntC 3) (mulC stepB (fromIntC (Int.ofNat i)))
      let m ← remC sp (fromIntC 2)
      let sp2 := if m = newC then addC sp (fromIntC 1) else sp
      pure ({ starting_point := sp2, key_exponent := e, key_modulus := n } : BruteforceJob)) =
      some (BruteforceJob.mk
        (if m = newC then
          addC (addC (fromIntC 3) (mulC stepB (fromIntC (Int.ofNat i)))) (fromIntC 1)
         else addC (fromIntC 3) (mulC stepB (fromIntC (Int.ofNat i)))) e n) := by
    show (remC (addC (fromIntC 3) (mulC stepB (fromIntC (Int.ofNat i)))) (fromIntC 2)).bind
        (fun m2 => some (BruteforceJob.mk
          (if m2 = newC then
            addC (addC (fromIntC 3) (mulC stepB (fromIntC (Int.ofNat i)))) (fromIntC 1)
           else addC (fromIntC 3) (mulC stepB (fromIntC (Int.ofNat i)))) e n)) = _
    rw [hme]
    rfl
  by_cases hmnew : m = newC
  · obtain ⟨hbr, hbv⟩ := addC_spec (addC (fromIntC 3) (mulC stepB (fromIntC (Int.ofNat i))))
      (fromIntC 1) hsr (by decide)
    rw [hsv, show valC (fromIntC 1) = 1 from by decide] at hbv
    rw [if_pos hmnew] at hred2
    refine ⟨_, hred2, rfl, rfl, ?_, ?_⟩
    · right
      show valC (addC (addC (fromIntC 3) (mulC stepB (fromIntC (Int.ofNat i))))
        (fromIntC 1)) = 3 + Int.ofNat i * valC stepB + 1
      rw [hbv]
      ring
    · intro hodd
      exfalso
      have hm0 : valC m = 0 := by
        rw [hmnew]
        rfl
      rw [hm0, sub_zero, hsv, show (3:Int) + valC stepB * Int.ofNat i =
        3 + Int.ofNat i * valC stepB from by ring] at hdvd
      exact hodd hdvd
  · rw [if_neg hmnew] at hred2
    refine ⟨_, hred2, rfl, rfl, ?_, ?_⟩
    · left
      show valC (addC (fromIntC 3) (mulC stepB (fromIntC (Int.ofNat i)))) =
        3 + Int.ofNat i * valC stepB
      rw [hsv]
      ring
    · intro _
      show valC (addC (fromIntC 3) (mulC stepB (fromIntC (Int.ofNat i)))) =
        3 + Int.ofNat i * valC stepB
      rw [hsv]
      ring

/-- Claim C9, amended: rsa_bruteforce dispatches exactly eight jobs, one per
index of the fixed reference worker count, regardless of the requested
worker count; job i captures the exponent and modulus and starts at three
plus i times the step (the all-nines value of half the modulus length
divided by eight), possibly incremented by one; an odd starting value is
never incremented.  The even case is incremented only when the parity check
sees a canonical zero, which its remainder operation does not always
produce, and requested counts above eight receive no job, as the separate
counterexample shows. -/
theorem claimC9_dispatch (e n : ChonkerInt) :
    ∃ jl, rsaBruteforceJobs e n = some jl ∧ jl.length = 8 ∧
      ∀ i : Nat, i < 8 →
        ∃ job, jl.get? i = some job ∧ job.key_exponent = e ∧ job.key_modulus = n ∧
          (valC job.starting_point =
              3 + Int.ofNat i * ((10 ^ (n.digits.length / 2) - 1) / 8) ∨
           valC job.starting_point =
              3 + Int.ofNat i * ((10 ^ (n.digits.length / 2) - 1) / 8) + 1) ∧
          (¬ (2:Int) ∣ (3 + Int.ofNat i * ((10 ^ (n.digits.length / 2) - 1) / 8)) →
            valC job.starting_point =
              3 + Int.ofNat i * ((10 ^ (n.digits.length / 2) - 1) / 8)) := by
  have hceil : ∃ cB, fromSliceC (List.replicate (n.digits.length / 2) 9) = some cB ∧
      repOk cB ∧ valC cB = 10 ^ (n.digits.length / 2) - 1 := by
    rcases Nat.eq_zero_or_pos (n.digits.length / 2) with h0 | hpos
    · refine ⟨newC, ?_, repOk_newC, ?_⟩
      · rw [h0]
        rfl
      · rw [h0]
        decide
    · refine ⟨ChonkerInt.mk (List.replicate (n.digits.length / 2) (9:Int))
        BigIntSign.Positive, fromSliceC_nines hpos, ?_, ?_⟩
      · exact repOk_mk (digOk_replicate_nine _) (replicate_nine_ne hpos)
          (by rw [getLast?_replicate_nine hpos]; decide) (by intro hc; cases hc)
      · rw [valC_mk_pos, digitsVal_replicate_nine]
  obtain ⟨cB, hcBe, hcBr, hcBv⟩ := hceil
  obtain ⟨stepB, hstepe, hstepr, hstepv⟩ := divC_spec cB (fromIntC 8) hcBr (by decide)
    (by decide)
  rw [hcBv, show valC (fromIntC 8) = 8 from by decide] at hstepv
  have hstepv2 : valC stepB = (10 ^ (n.digits.length / 2) - 1) / 8 := by
    rw [hstepv]
    apply Int.tdiv_eq_ediv _ (by omega)
    have h1 : (1:Int) ≤ 10 ^ (n.digits.length / 2) := one_le_pow₀ (by norm_num)
    omega
  obtain ⟨jl, hmapm, hfa⟩ := mapM_option_forall
    (fun thread => do
      let sp := addC (fromIntC 3) (mulC stepB (fromIntC (Int.ofNat thread)))
      let m ← remC sp (fromIntC 2)
      let sp2 := if m = newC then addC sp (fromIntC 1) else sp
      pure { starting_point := sp2, key_exponent := e, key_modulus := n })
    (fun i job => job.key_exponent = e ∧ job.key_modulus = n ∧
      (valC job.starting_point = 3 + Int.ofNat i * valC stepB ∨
       valC job.starting_point = 3 + Int.ofNat i * valC stepB + 1) ∧
      (¬ (2:Int) ∣ (3 + Int.ofNat i * valC stepB) →
        valC job.starting_point = 3 + Int.ofNat i * valC stepB))
    (List.range 8)
    (fun a ha => c9_job e n stepB hstepr a (List.mem_range.mp ha))
  have hun : rsaBruteforceJobs e n =
      (match fromSliceC (List.replicate (n.digits.length / 2) 9) with
       | none => none
       | some ceilingB =>
         match divC ceilingB (fromIntC 8) with
         | none => none
         | some step =>
           (List.range 8).mapM (fun thread => do
             let sp := addC (fromIntC 3) (mulC step (fromIntC (Int.ofNat thread)))
             let m ← remC sp (fromIntC 2)
             let sp2 := if m = newC then addC sp (fromIntC 1) else sp
             pure { starting_point := sp2, key_exponent := e, key_modulus := n })) := rfl
  have hstep1 : rsaBruteforceJobs e n =
      (match divC cB (fromIntC 8) with
       | none => none
       | some step =>
         (List.range 8).mapM (fun thread => do
           let sp := addC (fromIntC 3) (mulC step (fromIntC (Int.ofNat thread)))
           let m ← remC sp (fromIntC 2)
           let sp2 := if m = newC then addC sp (fromIntC 1) else sp
           pure { starting_point := sp2, key_exponent := e, key_modulus := n })) := by
    rw [hun, hcBe]
  have hstep2 : rsaBruteforceJobs e n =
      (List.range 8).mapM (fun thread => do
        let sp := addC (fromIntC 3) (mulC stepB (fromIntC (Int.ofNat thread)))
        let m ← remC sp (fromIntC 2)
        let sp2 := if m = newC then addC sp (fromIntC 1) else sp
        pure { starting_point := sp2, key_exponent := e, key_modulus := n }) := by
    rw [hstep1, hstepe]
  have hlen : jl.length = 8 := by
    have h1 := hfa.length_eq
    rw [List.length_range] at h1
    omega
  refine ⟨jl, by rw [hstep2]; exact hmapm, hlen, ?_⟩
  intro i hi
  obtain ⟨a, job, hga, hgb, hp⟩ := forall2_get? _ (List.range 8) jl hfa i
    (by rw [List.length_range]; omega)
  have hai : a = i := by
    have h2 : (List.range 8).get? i = some i := List.get?_range hi
    rw [hga] at h2
    exact Option.some.inj h2
  rw [hai] at hp
  rw [hstepv2] at hp
  exact ⟨job, hgb, hp.1, hp.2.1, hp.2.2.1, hp.2.2.2⟩

/-- Claim C9 counterexample: with a requested worker count of nine, the claim
asks for a ninth job, but the dispatcher builds exactly eight jobs from the
fixed reference count, so index eight has no job. -/
theorem claimC9_counterexample : ¬ claimC9Holds (fromIntC 3) (fromIntC 9) 9 := by
  intro h
  obtain ⟨job, hjob, _⟩ := h (List.replicate 8
    (BruteforceJob.mk (ChonkerInt.mk [3] BigIntSign.Positive)
      (ChonkerInt.mk [3] BigIntSign.Positive)
      (ChonkerInt.mk [9] BigIntSign.Positive))) (by decide) 8 (by omega)
  rw [show (List.replicate 8
    (BruteforceJob.mk (ChonkerInt.mk [3] BigIntSign.Positive)
      (ChonkerInt.mk [3] BigIntSign.Positive)
      (ChonkerInt.mk [9] BigIntSign.Positive))).get? 8 = none from rfl] at hjob
  exact Option.noConfusion hjob
